import Mathlib

/-!
# tinysmf: a shallow embedding of the Standard MIDI File parser

The definitions below follow `src/parse.c` and `include/tinysmf.h` function by
function.  Conventions of the embedding:

* a stream (`FILE *`) is the list of its bytes from the file position indicator
  to the end of the file: reading or skipping `n` bytes removes the first `n`
  of them; the stream is a seekable regular file, so a forward `fseek` always
  succeeds (also past the end of the file, after which nothing is left);
* a byte is a natural number, read from the stream modulo 256;
* `size_t` and `ssize_t` are 64 bit wide, `unsigned`, `int` and `uint32_t`
  are 32 bit wide (LP64), the host is little-endian (so `ntohs` and `ntohl`
  swap bytes), and `malloc` succeeds;
* a callback is observed through the list of dispatches it receives; only
  `track_start_cb` returns a value to the parser, and it may depend on
  everything dispatched so far.
-/

namespace TinySMF

/-! ## Byte source -/

/-- The state of an input stream: `rest` holds the bytes from the file position
indicator to the end of the file. -/
structure FILE where
  rest : List Nat
deriving DecidableEq

/-- The call `fread(buf, size, 1, f)`: the bytes read when one whole item was
read (result 1), or `none` (result 0), with the stream afterwards.  An item
of size 0 is never read; a short read consumes what is left. -/
def fread (f : FILE) (size : Nat) : Option (List Nat) × FILE :=
  if size = 0 then (none, f)
  else if size ≤ f.rest.length then
    (some ((f.rest.take size).map (fun b => b % 256)), ⟨f.rest.drop size⟩)
  else (none, ⟨[]⟩)

/-- The call `fread(&byte, 1, 1, f)` for a single `uint8_t`. -/
def fread_u8 (f : FILE) : Option Nat × FILE :=
  match f.rest with
  | [] => (none, f)
  | b :: rest => (some (b % 256), ⟨rest⟩)

/-- The call `fseek(f, off, SEEK_CUR)` with a non-negative offset. -/
def fseek_cur (f : FILE) (off : Nat) : FILE :=
  ⟨f.rest.drop off⟩

/-- Conversion of an `ssize_t` to `size_t` (a negative value wraps). -/
def to_size_t (x : Int) : Nat := (x % 2 ^ 64).toNat

/-! ## `read_vlv` -/

/-- What `read_vlv` leaves behind: its return value, `*value` and the stream. -/
structure vlv_result where
  ret : Int
  value : Nat
  f : FILE
deriving DecidableEq

/-- The `for` loop of `read_vlv`, entered at its condition
`avail && buf & 0x80`, by recursion on `avail`. -/
def read_vlv_loop (f : FILE) (ret : Int) (value buf : Nat) : Nat → vlv_result
  | 0 => ⟨ret, value, f⟩
  | avail + 1 =>
    if buf &&& 0x80 = 0 then ⟨ret, value, f⟩
    else
      match fread_u8 f with
      | (none, f1) => ⟨-1, value, f1⟩
      | (some b, f1) =>
        read_vlv_loop f1 (ret + 1) (((value <<< 7) ||| (b &&& 0x7F)) % 2 ^ 32) b avail

/-- `read_vlv(f, avail, &value)`. -/
def read_vlv (f : FILE) (avail : Nat) : vlv_result :=
  read_vlv_loop f 0 0 0x80 avail

/-! ## The standard variable-length-quantity encoding

The repository has no encoder; the round-trip property is stated against the
standard encoding of the SMF format: base-128 digits, most significant first,
every byte but the last with its top bit set. -/

/-- The continuation bytes (top bit set) for the digits of `w`, most significant
first; `fuel` bounds the number of digits. -/
def vlq_cont : Nat → Nat → List Nat
  | 0, _ => []
  | fuel + 1, w => if w = 0 then [] else vlq_cont fuel (w / 128) ++ [0x80 ||| (w % 128)]

/-- The standard VLQ encoding of `v`. -/
def vlq_encode (v : Nat) : List Nat :=
  vlq_cont v (v / 128) ++ [v % 128]

/-! ## Events, callbacks and dispatches -/

/-- The type `tinysmf_division_type_t`. -/
inductive tinysmf_division_type_t
  | SMF_PPQN
  | SMF_SMPTE
deriving DecidableEq

/-- The union `division` of `struct tinysmf_file_info`, with the member that was
written. -/
inductive division_t
  | ppqn (ppqn : Int)
  | smpte (format ticks : Int)
deriving DecidableEq

/-- The record `struct tinysmf_file_info`. -/
structure tinysmf_file_info where
  format : Int
  num_tracks : Int
  division_type : tinysmf_division_type_t
  division : division_t
deriving DecidableEq

/-- The record `struct tinysmf_midi_event`: `delta` and the four `bytes`. -/
structure tinysmf_midi_event where
  delta : Nat
  bytes : List Nat
deriving DecidableEq

/-- The union `cooked` of `struct tinysmf_meta_event`: left as it was
(`unset`), `midi_channel`, or `bpm`, which is the double
`60.0 / (usec * 1e-06)` and is recorded here by its integer operand `usec`;
`undefined` stands for a value computed from a byte outside the payload buffer. -/
inductive cooked_t
  | unset
  | midi_channel (channel : Int)
  | bpm (usec : Nat)
  | undefined
deriving DecidableEq

/-- The record `struct tinysmf_meta_event`; `raw` is the payload without the
terminating zero byte. -/
structure tinysmf_meta_event where
  delta : Nat
  meta_type : Nat
  nbytes : Nat
  cooked : cooked_t
  raw : List Nat
deriving DecidableEq

/-- One invocation of a registered callback, with its arguments. -/
inductive Dispatch
  | file_info (info : tinysmf_file_info)
  | track_start (track_idx : Int)
  | track_end (track_idx : Int)
  | meta_event (ev : tinysmf_meta_event)
  | midi_event (ev : tinysmf_midi_event)
deriving DecidableEq

/-- The callback set of `struct tinysmf_parser_ctx`.  A `Bool` says whether the
callback is registered (non-null).  `track_start_cb` returns a
`tinysmf_chunk_cb_ret_t`, computed from the dispatches made before the call
and the track index. -/
structure tinysmf_parser_ctx where
  file_info_cb : Bool
  track_start_cb : Option (List Dispatch → Int → Int)
  track_end_cb : Bool
  meta_event_cb : Bool
  midi_event_cb : Bool

/-- The value `TINYSMF_PARSE_CHUNK`. -/
def TINYSMF_PARSE_CHUNK : Int := 0

/-- The value `TINYSMF_SKIP_CHUNK`. -/
def TINYSMF_SKIP_CHUNK : Int := 1

/-- What an event reader leaves behind: its return value, the stream and the
dispatches it made. -/
structure event_result where
  ret : Int
  f : FILE
  out : List Dispatch
deriving DecidableEq

/-! ## `read_sysex_event` -/

/-- `read_sysex_event(ctx, f, avail, delta)`; the function uses neither `ctx`
nor `delta`.  For a declared length of 0 the function returns -1: either
`malloc(0)` gives a null pointer, or `fread` of an item of size 0 gives 0. -/
def read_sysex_event (f : FILE) (avail : Nat) : event_result :=
  let r := read_vlv f avail
  if r.ret < 0 then ⟨-1, r.f, []⟩
  else
    match fread r.f r.value with
    | (none, f1) => ⟨-1, f1, []⟩
    | (some _, f1) => ⟨r.ret + r.value, f1, []⟩

/-! ## `read_meta_event` -/

/-- The value `TINYSMF_META_TYPE_MIDI_CHANNEL`. -/
def TINYSMF_META_TYPE_MIDI_CHANNEL : Nat := 0x20

/-- The value `TINYSMF_META_TYPE_SET_TEMPO`. -/
def TINYSMF_META_TYPE_SET_TEMPO : Nat := 0x51

/-- `cook_meta_event(ev)`, giving the new `cooked`; the buffer behind `raw`
holds the payload and one terminating zero byte. -/
def cook_meta_event (ev : tinysmf_meta_event) : cooked_t :=
  let buf := ev.raw ++ [0]
  if ev.meta_type = TINYSMF_META_TYPE_MIDI_CHANNEL then
    match buf.get? 0 with
    | some b => .midi_channel b
    | none => .undefined
  else if ev.meta_type = TINYSMF_META_TYPE_SET_TEMPO then
    match buf.get? 0, buf.get? 1, buf.get? 2 with
    | some b0, some b1, some b2 => .bpm ((b0 <<< 16) ||| (b1 <<< 8) ||| b2)
    | _, _, _ => .undefined
  else ev.cooked

/-- `read_meta_event(ctx, f, avail, delta)`.  The parameter `delta` is an `int`
that is stored into the `uint32_t` field `ev.delta`, which gives back the
value `read_vlv` decoded. -/
def read_meta_event (ctx : tinysmf_parser_ctx) (f : FILE) (avail : Nat) (delta : Nat) :
    event_result :=
  match fread_u8 f with
  | (none, f1) => ⟨-1, f1, []⟩
  | (some type, f1) =>
    let r := read_vlv f1 avail
    if r.ret < 0 then ⟨-1, r.f, []⟩
    else
      let avail1 := (avail + 2 ^ 64 - r.ret.toNat) % 2 ^ 64
      let length := r.value
      let ev : tinysmf_meta_event := ⟨delta, type, length, .unset, []⟩
      let ret := 1 + r.ret + length
      if ctx.meta_event_cb = false then ⟨ret, fseek_cur r.f length, []⟩
      else if length > 0 then
        if length > avail1 then ⟨-1, r.f, []⟩
        else
          match fread r.f length with
          | (none, f2) => ⟨-1, f2, []⟩
          | (some buf, f2) =>
            let fat_ev : tinysmf_meta_event := { ev with raw := buf }
            ⟨ret, f2, [.meta_event { fat_ev with cooked := cook_meta_event fat_ev }]⟩
      else ⟨ret, r.f, [.meta_event ev]⟩

/-! ## `read_midi_event` -/

/-- `midi_msg_size(status_byte)`. -/
def midi_msg_size (status_byte : Nat) : Nat :=
  let hi := status_byte &&& 0xF0
  if hi = 0x80 ∨ hi = 0x90 ∨ hi = 0xA0 ∨ hi = 0xB0 ∨ hi = 0xE0 then 2
  else if hi = 0xC0 ∨ hi = 0xD0 then 1
  else 0

/-- What `read_midi_event` leaves behind: as `event_result`, and `*status_buf`. -/
structure midi_result where
  ret : Int
  f : FILE
  status_buf : Nat
  out : List Dispatch
deriving DecidableEq

/-- The part of `read_midi_event` after the running-status `if`: the bounds
check, the read into `buf`, the note-on rewrite and the dispatch.  `hd` holds
the `bytes` stored before the read (`bytes[0]`, and `bytes[1]` under running
status); `buf` points just behind them. -/
def read_midi_event_data (ctx : tinysmf_parser_ctx) (f : FILE) (avail : Nat) (delta : Nat)
    (status_buf : Nat) (hd : List Nat) (to_read : Nat) : midi_result :=
  if to_read > avail then ⟨-1, f, status_buf, []⟩
  else
    match (if to_read > 0 then fread f to_read else (some [], f)) with
    | (none, f1) => ⟨-1, f1, status_buf, []⟩
    | (some buf, f1) =>
      let bytes := (hd ++ buf ++ [0, 0, 0, 0]).take 4
      let b0 := bytes.getD 0 0
      let bytes1 :=
        if b0 &&& 0xF0 = 0x90 ∧ bytes.getD 2 0 = 0x00 then bytes.set 0 (b0 &&& 0xEF)
        else bytes
      ⟨to_read, f1, status_buf,
        if ctx.midi_event_cb then [.midi_event ⟨delta, bytes1⟩] else []⟩

/-- `read_midi_event(ctx, f, avail, delta, &status_buf, first_byte)`. -/
def read_midi_event (ctx : tinysmf_parser_ctx) (f : FILE) (avail : Nat) (delta : Nat)
    (status_buf : Nat) (first_byte : Nat) : midi_result :=
  if first_byte &&& 0x80 ≠ 0 then
    read_midi_event_data ctx f avail delta first_byte [first_byte] (midi_msg_size first_byte)
  else
    let to_read := midi_msg_size status_buf
    if to_read = 0 then ⟨-1, f, status_buf, []⟩
    else
      read_midi_event_data ctx f avail delta status_buf [status_buf, first_byte] (to_read - 1)

/-! ## `read_track` -/

/-- The local variables of `read_track` at the head of its `while` loop,
with the dispatches made so far. -/
structure track_state where
  f : FILE
  avail : Int
  status_buf : Nat
  trace : List Dispatch
deriving DecidableEq

/-- The outcome of one pass through the body of the `while` loop: `error` is
`return -1`, `next` goes back to the loop condition. -/
inductive iter_result
  | error (f : FILE) (trace : List Dispatch)
  | next (s : track_state)
deriving DecidableEq

/-- The `switch (ev_type)` statement in the body of the `while` loop of
`read_track`, with the check of `res` and the charge `avail -= res` that
follow it.  On entry `f` and `avail` are the stream and the budget after the
event type byte, `res` and `delta` are what `read_vlv` gave for the delta
time. -/
def read_track_switch (ctx : tinysmf_parser_ctx) (f : FILE) (avail : Int) (res : Int)
    (delta : Nat) (status_buf : Nat) (trace : List Dispatch) (ev_type : Nat) : iter_result :=
  if ev_type = 0xF0 ∨ ev_type = 0xF7 then
    let e := read_sysex_event f (to_size_t avail)
    if e.ret < 0 then .error e.f (trace ++ e.out)
    else .next ⟨e.f, avail - e.ret, 0, trace ++ e.out⟩
  else if 0xF1 ≤ ev_type ∧ ev_type ≤ 0xF6 then
    .next ⟨f, avail - res, 0, trace⟩
  else if ev_type = 0xFF then
    let e := read_meta_event ctx f (to_size_t avail) delta
    if e.ret < 0 then .error e.f (trace ++ e.out)
    else .next ⟨e.f, avail - e.ret, status_buf, trace ++ e.out⟩
  else
    let e := read_midi_event ctx f (to_size_t avail) delta status_buf ev_type
    if e.ret < 0 then .error e.f (trace ++ e.out)
    else .next ⟨e.f, avail - e.ret, e.status_buf, trace ++ e.out⟩

/-- The body of the `while` loop of `read_track`. -/
def read_track_iter (ctx : tinysmf_parser_ctx) (s : track_state) : iter_result :=
  let r := read_vlv s.f (to_size_t s.avail)
  if r.ret < 0 then .error r.f s.trace
  else
    match fread_u8 r.f with
    | (none, f1) => .error f1 s.trace
    | (some ev_type, f1) =>
      read_track_switch ctx f1 (s.avail - r.ret - 1) r.ret r.value s.status_buf s.trace ev_type

/-- What `read_track` leaves behind: its return value, the stream and the
dispatches made so far. -/
structure track_result where
  ret : Int
  f : FILE
  trace : List Dispatch
deriving DecidableEq

/-- The `while` loop of `read_track` with the final check of `avail`; `none`
when `fuel` passes through the body do not reach the end of the loop. -/
def read_track_loop (ctx : tinysmf_parser_ctx) : Nat → track_state → Option track_result
  | 0, s => if s.avail > 0 then none else some ⟨if s.avail < 0 then -1 else 0, s.f, s.trace⟩
  | fuel + 1, s =>
    if s.avail > 0 then
      match read_track_iter ctx s with
      | .error f trace => some ⟨-1, f, trace⟩
      | .next s1 => read_track_loop ctx fuel s1
    else some ⟨if s.avail < 0 then -1 else 0, s.f, s.trace⟩

/-- `read_track(ctx, f, avail)`, started after the dispatches `trace`.  Every
pass through the loop body lowers `avail`, so `avail` passes are enough. -/
def read_track (ctx : tinysmf_parser_ctx) (f : FILE) (avail : Int) (trace : List Dispatch) :
    Option track_result :=
  read_track_loop ctx avail.toNat ⟨f, avail, 0, trace⟩

/-! ## `cook_file_info` and `tinysmf_parse_stream` -/

/-- A `uint16_t` loaded from two consecutive bytes of memory (little-endian
host). -/
def load_u16 (b0 b1 : Nat) : Nat := b0 + 256 * b1

/-- A `uint32_t` loaded from four consecutive bytes of memory (little-endian
host). -/
def load_u32 (b0 b1 b2 b3 : Nat) : Nat := b0 + 256 * b1 + 65536 * b2 + 16777216 * b3

/-- `ntohs` on a little-endian host. -/
def ntohs (x : Nat) : Nat := (x % 256) * 256 + (x / 256) % 256

/-- `ntohl` on a little-endian host. -/
def ntohl (x : Nat) : Nat :=
  (x % 256) * 16777216 + ((x / 256) % 256) * 65536 + ((x / 65536) % 256) * 256
    + (x / 16777216) % 256

/-- The record `struct header_chunk` as `tinysmf_parse_stream` hands it to
`cook_file_info`: `format` and `num_tracks` already swapped to host order,
`division` as loaded from memory, and the two bytes of memory behind
`division`. -/
structure header_chunk where
  type : List Nat
  length : Nat
  format : Nat
  num_tracks : Nat
  division : Nat
  div0 : Nat
  div1 : Nat
deriving DecidableEq

/-- `cook_file_info(ctx, hdr)`: the new `ctx->file_info` and the dispatch. -/
def cook_file_info (ctx : tinysmf_parser_ctx) (hdr : header_chunk) :
    tinysmf_file_info × List Dispatch :=
  let info : tinysmf_file_info :=
    if hdr.division &&& 0x80 ≠ 0 then
      ⟨hdr.format, hdr.num_tracks, .SMF_SMPTE, .smpte (-(hdr.div0 : Int)) hdr.div1⟩
    else
      ⟨hdr.format, hdr.num_tracks, .SMF_PPQN, .ppqn (ntohs hdr.division)⟩
  (info, if ctx.file_info_cb then [.file_info info] else [])

/-- What `tinysmf_parse_stream` leaves behind: its return value, the stream,
`ctx->file_info` when it was written, and all dispatches in order. -/
structure parse_result where
  ret : Int
  f : FILE
  file_info : Option tinysmf_file_info
  trace : List Dispatch
deriving DecidableEq

/-- The bytes of the tag `"MThd"`. -/
def MThd : List Nat := [0x4D, 0x54, 0x68, 0x64]

/-- The bytes of the tag `"MTrk"`. -/
def MTrk : List Nat := [0x4D, 0x54, 0x72, 0x6B]

/-- The statement `if (ctx->track_start_cb) skip_chunk = ctx->track_start_cb(ctx, i);`
after `skip_chunk = 0`: the value of `skip_chunk` and the dispatches so far. -/
def call_track_start (ctx : tinysmf_parser_ctx) (trace : List Dispatch) (i : Int) :
    Int × List Dispatch :=
  match ctx.track_start_cb with
  | some cb => (cb trace i, trace ++ [.track_start i])
  | none => (0, trace)

/-- The statement `if (ctx->track_end_cb) ctx->track_end_cb(ctx, i);`. -/
def call_track_end (ctx : tinysmf_parser_ctx) (trace : List Dispatch) (i : Int) :
    List Dispatch :=
  if ctx.track_end_cb then trace ++ [.track_end i] else trace

/-- The field `length` of a `struct chunk` read into memory, after `SWAB32`. -/
def chunk_length (chunk : List Nat) : Nat :=
  ntohl (load_u32 (chunk.getD 4 0) (chunk.getD 5 0) (chunk.getD 6 0) (chunk.getD 7 0))

/-- The `for` loop over the chunks in `tinysmf_parse_stream`, entered at its
condition `i < hdr.num_tracks`; `none` when `fuel` passes through the body do
not reach the end of the loop. -/
def chunk_loop (ctx : tinysmf_parser_ctx) (info : tinysmf_file_info) (num_tracks : Nat) :
    Nat → Int → FILE → List Dispatch → Option parse_result
  | 0, i, f, trace => if i < num_tracks then none else some ⟨0, f, some info, trace⟩
  | fuel + 1, i, f, trace =>
    if i < num_tracks then
      match fread f 8 with
      | (none, f1) => some ⟨-1, f1, some info, trace⟩
      | (some chunk, f1) =>
        if chunk.take 4 = MTrk then
          let start := call_track_start ctx trace i
          if start.1 ≠ 0 then
            chunk_loop ctx info num_tracks fuel (i + 1) (fseek_cur f1 (chunk_length chunk))
              (call_track_end ctx start.2 i)
          else
            match read_track ctx f1 (chunk_length chunk) start.2 with
            | none => none
            | some t =>
              if t.ret ≠ 0 then some ⟨1, t.f, some info, t.trace⟩
              else chunk_loop ctx info num_tracks fuel (i + 1) t.f (call_track_end ctx t.trace i)
        else
          chunk_loop ctx info num_tracks fuel (i - 1 + 1) (fseek_cur f1 (chunk_length chunk)) trace
    else some ⟨0, f, some info, trace⟩

/-- `tinysmf_parse_stream(ctx, f)`.  Every pass through the chunk loop reads
the eight bytes of a chunk header, so one pass per byte of the stream is
enough. -/
def tinysmf_parse_stream (ctx : tinysmf_parser_ctx) (f : FILE) : Option parse_result :=
  match fread f 14 with
  | (none, f1) => some ⟨-1, f1, none, []⟩
  | (some h, f1) =>
    if h.take 4 ≠ MThd then some ⟨-1, f1, none, []⟩
    else
      let hdr : header_chunk :=
        { type := h.take 4
          length := chunk_length h
          format := ntohs (load_u16 (h.getD 8 0) (h.getD 9 0))
          num_tracks := ntohs (load_u16 (h.getD 10 0) (h.getD 11 0))
          division := load_u16 (h.getD 12 0) (h.getD 13 0)
          div0 := h.getD 12 0
          div1 := h.getD 13 0 }
      let c := cook_file_info ctx hdr
      chunk_loop ctx c.1 hdr.num_tracks f.rest.length 0 f1 c.2

/-! ## Callback sets used in examples -/

/-- All five callbacks registered; `track_start_cb` always returns
`TINYSMF_PARSE_CHUNK` (the callback set of `test.c`). -/
def ctx_all : tinysmf_parser_ctx :=
  ⟨true, some (fun _ _ => TINYSMF_PARSE_CHUNK), true, true, true⟩

/-- All five callbacks registered; `track_start_cb` always returns
`TINYSMF_SKIP_CHUNK`. -/
def ctx_skip : tinysmf_parser_ctx :=
  ⟨true, some (fun _ _ => TINYSMF_SKIP_CHUNK), true, true, true⟩

/-- A dispatch of the meta-event or MIDI-event callback. -/
def Dispatch.is_event : Dispatch → Bool
  | .meta_event _ => true
  | .midi_event _ => true
  | _ => false

/-- A dispatch of the file-info callback. -/
def Dispatch.is_file_info : Dispatch → Bool
  | .file_info _ => true
  | _ => false

/-- The four bytes of a big-endian 32-bit length field. -/
def be32 (n : Nat) : List Nat :=
  [n / 16777216 % 256, n / 65536 % 256, n / 256 % 256, n % 256]

/-- In the dispatches `t`, every track-start at which the callback `cb` asked to
skip is followed at once by the track-end of the same index when `end_cb`
(the track-end callback is registered), and by no meta or MIDI event in any
case. -/
def skip_respected (cb : List Dispatch → Int → Int) (end_cb : Bool) (t : List Dispatch) : Prop :=
  ∀ pre j post, t = pre ++ .track_start j :: post → cb pre j ≠ 0 →
    (∀ e post1, post = e :: post1 → e.is_event = false) ∧
    (end_cb = true → ∃ post1, post = .track_end j :: post1)

/-- In the dispatches `t`, every track-start is followed later by the track-end
of the same index. -/
def tracks_closed (t : List Dispatch) : Prop :=
  ∀ pre j post, t = pre ++ .track_start j :: post → .track_end j ∈ post

/-- The status byte `bytes[0]` of a dispatched MIDI event is a channel status
`0x80..0xEF` or one of `0xF8..0xFE`; other dispatches are not concerned. -/
def Dispatch.status_ok : Dispatch → Prop
  | .midi_event ev =>
    (0x80 ≤ ev.bytes.getD 0 0 ∧ ev.bytes.getD 0 0 ≤ 0xEF) ∨
      (0xF8 ≤ ev.bytes.getD 0 0 ∧ ev.bytes.getD 0 0 ≤ 0xFE)
  | _ => True

/-- The values of `ev_type` in the successive passes through the loop of
`read_track`, from the state `s` on: the type bytes of the events of the
track chunk, as the decoder meets them. -/
def read_track_type_bytes (ctx : tinysmf_parser_ctx) : Nat → track_state → List Nat
  | 0, _ => []
  | fuel + 1, s =>
    if s.avail > 0 then
      let r := read_vlv s.f (to_size_t s.avail)
      if r.ret < 0 then []
      else
        match fread_u8 r.f with
        | (none, _) => []
        | (some ev_type, _) =>
          ev_type :: (match read_track_iter ctx s with
            | .error _ _ => []
            | .next s1 => read_track_type_bytes ctx fuel s1)
    else []

/-- A dispatch of the meta-event callback. -/
def Dispatch.is_meta : Dispatch → Bool
  | .meta_event _ => true
  | _ => false

/-- The dispatches of `t` to the file-info, track-start, track-end and
MIDI-event callbacks, in order. -/
def strip_meta (t : List Dispatch) : List Dispatch :=
  t.filter (fun e => !e.is_meta)

/-- For every chunk header that the chunk loop of `tinysmf_parse_stream` reads,
in order: the length that the header declares, and the number of bytes that
the stream holds behind the header. -/
def chunk_loop_chunks (ctx : tinysmf_parser_ctx) (num_tracks : Nat) :
    Nat → Int → FILE → List Dispatch → List (Nat × Nat)
  | 0, _, _, _ => []
  | fuel + 1, i, f, trace =>
    if i < num_tracks then
      match fread f 8 with
      | (none, _) => []
      | (some chunk, f1) =>
        (chunk_length chunk, f1.rest.length) ::
          (if chunk.take 4 = MTrk then
            let start := call_track_start ctx trace i
            if start.1 ≠ 0 then
              chunk_loop_chunks ctx num_tracks fuel (i + 1) (fseek_cur f1 (chunk_length chunk))
                (call_track_end ctx start.2 i)
            else
              match read_track ctx f1 (chunk_length chunk) start.2 with
              | none => []
              | some t =>
                if t.ret ≠ 0 then []
                else chunk_loop_chunks ctx num_tracks fuel (i + 1) t.f
                  (call_track_end ctx t.trace i)
          else
            chunk_loop_chunks ctx num_tracks fuel (i - 1 + 1) (fseek_cur f1 (chunk_length chunk))
              trace)
    else []

/-- For every chunk header that `tinysmf_parse_stream(ctx, f)` reads behind the
file header, in order: the length that the chunk header declares, and the
number of bytes that the stream holds behind it. -/
def tinysmf_parse_stream_chunks (ctx : tinysmf_parser_ctx) (f : FILE) : List (Nat × Nat) :=
  match fread f 14 with
  | (none, _) => []
  | (some h, f1) =>
    if h.take 4 ≠ MThd then []
    else
      let hdr : header_chunk :=
        { type := h.take 4
          length := chunk_length h
          format := ntohs (load_u16 (h.getD 8 0) (h.getD 9 0))
          num_tracks := ntohs (load_u16 (h.getD 10 0) (h.getD 11 0))
          division := load_u16 (h.getD 12 0) (h.getD 13 0)
          div0 := h.getD 12 0
          div1 := h.getD 13 0 }
      chunk_loop_chunks ctx hdr.num_tracks f.rest.length 0 f1 (cook_file_info ctx hdr).2

/-- One pass of the chunk loop of `tinysmf_parse_stream` over a track chunk:
the track index `i`, the dispatches made before the pass, the value of
`skip_chunk` after the track-start statement, and what `read_track` returned
when it was called (`none` when the chunk was skipped). -/
structure track_pass where
  idx : Int
  before : List Dispatch
  skip_chunk : Int
  decoded : Option track_result
deriving DecidableEq

/-- The passes of the chunk loop over track chunks, in order, from the loop
state `i`, `f`, `trace` on. -/
def chunk_loop_passes (ctx : tinysmf_parser_ctx) (num_tracks : Nat) :
    Nat → Int → FILE → List Dispatch → List track_pass
  | 0, _, _, _ => []
  | fuel + 1, i, f, trace =>
    if i < num_tracks then
      match fread f 8 with
      | (none, _) => []
      | (some chunk, f1) =>
        if chunk.take 4 = MTrk then
          let start := call_track_start ctx trace i
          if start.1 ≠ 0 then
            ⟨i, trace, start.1, none⟩ ::
              chunk_loop_passes ctx num_tracks fuel (i + 1) (fseek_cur f1 (chunk_length chunk))
                (call_track_end ctx start.2 i)
          else
            match read_track ctx f1 (chunk_length chunk) start.2 with
            | none => []
            | some t =>
              ⟨i, trace, start.1, some t⟩ ::
                (if t.ret ≠ 0 then []
                else chunk_loop_passes ctx num_tracks fuel (i + 1) t.f
                  (call_track_end ctx t.trace i))
        else
          chunk_loop_passes ctx num_tracks fuel (i - 1 + 1) (fseek_cur f1 (chunk_length chunk))
            trace
    else []

/-- The passes of the chunk loop of `tinysmf_parse_stream(ctx, f)` over track
chunks, in order. -/
def tinysmf_parse_stream_passes (ctx : tinysmf_parser_ctx) (f : FILE) : List track_pass :=
  match fread f 14 with
  | (none, _) => []
  | (some h, f1) =>
    if h.take 4 ≠ MThd then []
    else
      let hdr : header_chunk :=
        { type := h.take 4
          length := chunk_length h
          format := ntohs (load_u16 (h.getD 8 0) (h.getD 9 0))
          num_tracks := ntohs (load_u16 (h.getD 10 0) (h.getD 11 0))
          division := load_u16 (h.getD 12 0) (h.getD 13 0)
          div0 := h.getD 12 0
          div1 := h.getD 13 0 }
      chunk_loop_passes ctx hdr.num_tracks f.rest.length 0 f1 (cook_file_info ctx hdr).2

/-! # Theorems -/

/-! ## Bytes and bit operations -/

theorem shl7_or (value b : Nat) : (value <<< 7) ||| (b &&& 0x7F) = value * 128 + b % 128 := by
  have h1 : b &&& 0x7F = b % 2 ^ 7 := Nat.and_pow_two_sub_one_eq_mod b 7
  have h2 : b % 2 ^ 7 < 2 ^ 7 := Nat.mod_lt _ (by norm_num)
  have h3 := Nat.mul_add_lt_is_or h2 value
  rw [h1, Nat.shiftLeft_eq, Nat.mul_comm value (2 ^ 7), ← h3]
  norm_num

set_option maxRecDepth 100000 in
theorem and_80_eq_zero (b : Nat) : b &&& 0x80 = 0 ↔ b % 256 < 128 := by
  have h : (b &&& 0x80) = (b % 256) &&& 0x80 := by
    apply Nat.eq_of_testBit_eq
    intro i
    simp only [Nat.testBit_and]
    by_cases hi : i < 8
    · have : (b % 256).testBit i = b.testBit i := by
        have := Nat.testBit_mod_two_pow b 8 i
        simpa [hi] using this
      rw [this]
    · have h80 : Nat.testBit 0x80 i = false := by
        apply Nat.testBit_lt_two_pow
        calc 0x80 < 2 ^ 8 := by norm_num
          _ ≤ 2 ^ i := Nat.pow_le_pow_right (by norm_num) (by omega)
      simp [h80]
  rw [h]
  have hb : b % 256 < 256 := Nat.mod_lt _ (by norm_num)
  generalize b % 256 = c at hb
  revert c
  decide

theorem or_80_eq (x : Nat) (hx : x < 128) : 0x80 ||| x = 128 + x := by
  have h := Nat.mul_add_lt_is_or (show x < 2 ^ 7 from hx) 1
  simpa using h.symm

/-! ## `read_vlv` on the standard encoding -/

theorem read_vlv_loop_step (b : Nat) (rest : List Nat) (ret : Int)
    (value buf avail : Nat) (hbuf : 128 ≤ buf % 256) :
    read_vlv_loop ⟨b :: rest⟩ ret value buf (avail + 1)
      = read_vlv_loop ⟨rest⟩ (ret + 1) ((value * 128 + b % 256 % 128) % 2 ^ 32)
          (b % 256) avail := by
  have h : ¬ (buf &&& 0x80 = 0) := by
    rw [and_80_eq_zero]; omega
  simp only [read_vlv_loop, fread_u8, h, if_false, shl7_or]

theorem read_vlv_loop_done (f : FILE) (ret : Int) (value buf avail : Nat)
    (hbuf : buf % 256 < 128) :
    read_vlv_loop f ret value buf avail = ⟨ret, value, f⟩ := by
  cases avail with
  | zero => rfl
  | succ n =>
    have h : buf &&& 0x80 = 0 := (and_80_eq_zero buf).mpr hbuf
    simp only [read_vlv_loop, h, if_true]

theorem vlq_cont_length_le : ∀ (fuel w k : Nat), w < 128 ^ k → (vlq_cont fuel w).length ≤ k := by
  intro fuel
  induction fuel with
  | zero => intro w k _; simp [vlq_cont]
  | succ fuel ih =>
    intro w k hw
    unfold vlq_cont
    split
    · simp
    · rename_i hw0
      cases k with
      | zero => simp at hw; omega
      | succ k =>
        have : w / 128 < 128 ^ k := by
          rw [pow_succ] at hw
          exact Nat.div_lt_of_lt_mul (by rw [Nat.mul_comm]; exact hw)
        have := ih (w / 128) k this
        simp only [List.length_append, List.length_singleton]
        omega

theorem read_vlv_loop_cont : ∀ (fuel w : Nat) (tl : List Nat) (ret : Int)
    (value buf avail : Nat), w ≤ fuel → 128 ≤ buf % 256 →
    (vlq_cont fuel w).length ≤ avail →
    value * 128 ^ (vlq_cont fuel w).length + w < 2 ^ 32 →
    ∃ buf1, 128 ≤ buf1 % 256 ∧
      read_vlv_loop ⟨vlq_cont fuel w ++ tl⟩ ret value buf avail
        = read_vlv_loop ⟨tl⟩
            (ret + ((vlq_cont fuel w).length : Nat))
            (value * 128 ^ (vlq_cont fuel w).length + w) buf1
            (avail - (vlq_cont fuel w).length) := by
  intro fuel
  induction fuel with
  | zero =>
    intro w tl ret value buf avail hw hbuf _ _
    have : w = 0 := by omega
    subst this
    exact ⟨buf, hbuf, by simp [vlq_cont]⟩
  | succ fuel ih =>
    intro w tl ret value buf avail hw hbuf hlen hbound
    by_cases hw0 : w = 0
    · subst hw0
      exact ⟨buf, hbuf, by simp [vlq_cont]⟩
    · have hc : vlq_cont (fuel + 1) w = vlq_cont fuel (w / 128) ++ [0x80 ||| (w % 128)] := by
        simp [vlq_cont, hw0]
      rw [hc] at hlen hbound ⊢
      simp only [List.length_append, List.length_singleton] at hlen hbound ⊢
      have hmod : w % 128 < 128 := Nat.mod_lt _ (by norm_num)
      rw [or_80_eq _ hmod]
      set n := (vlq_cont fuel (w / 128)).length with hn
      have hpow : value * 128 ^ (n + 1) = value * 128 ^ n * 128 := by
        rw [pow_succ, Nat.mul_assoc]
      rw [hpow] at hbound
      have hb : value * 128 ^ n + w / 128 < 2 ^ 32 := by omega
      have hl : n ≤ avail := by omega
      obtain ⟨buf1, hbuf1, heq⟩ := ih (w / 128) ((128 + w % 128) :: tl) ret value buf avail
        (by omega) hbuf hl hb
      refine ⟨(128 + w % 128) % 256, by omega, ?_⟩
      rw [List.append_assoc, List.singleton_append, heq]
      obtain ⟨k, hk⟩ : ∃ k, avail - n = k + 1 := ⟨avail - n - 1, by omega⟩
      rw [hk, read_vlv_loop_step _ _ _ _ _ _ hbuf1]
      have e1 : (128 + w % 128) % 256 % 128 = w % 128 := by omega
      have e2 : (value * 128 ^ n + w / 128) * 128 + w % 128 = value * 128 ^ n * 128 + w := by
        omega
      have e3 : avail - (n + 1) = k := by omega
      rw [e1, e2, Nat.mod_eq_of_lt hbound, hpow, e3]
      congr 1
      · omega

/-- The round trip of `read_vlv` over the standard encoding, for every 32-bit
value. -/
theorem read_vlv_encode (v : Nat) (hv : v < 2 ^ 32) (avail : Nat) (rest : List Nat)
    (havail : (vlq_encode v).length ≤ avail) :
    read_vlv ⟨vlq_encode v ++ rest⟩ avail
      = ⟨((vlq_encode v).length : Nat), v, ⟨rest⟩⟩ := by
  unfold read_vlv vlq_encode at *
  simp only [List.length_append, List.length_singleton] at havail ⊢
  set n := (vlq_cont v (v / 128)).length with hn
  have hle : vlq_cont v (v / 128) = vlq_cont v (v / 128) := rfl
  have hn5 : n ≤ 4 := vlq_cont_length_le v (v / 128) 4 (by omega)
  have hb1 : 0 * 128 ^ n + v / 128 < 2 ^ 32 := by omega
  obtain ⟨buf1, hbuf1, heq⟩ := read_vlv_loop_cont v (v / 128) ((v % 128) :: rest) 0 0 0x80
    avail (Nat.div_le_self _ _) (by norm_num) (by omega) hb1
  rw [List.append_assoc, List.singleton_append, heq]
  obtain ⟨k, hk⟩ : ∃ k, avail - n = k + 1 := ⟨avail - n - 1, by omega⟩
  rw [← hn, hk, read_vlv_loop_step _ _ _ _ _ _ hbuf1]
  have e1 : v % 128 % 256 % 128 = v % 128 := by omega
  have e2 : (0 * 128 ^ n + v / 128) * 128 + v % 128 = v := by omega
  rw [e1, e2, Nat.mod_eq_of_lt hv, read_vlv_loop_done _ _ _ _ _ (by omega)]
  congr 1
  · push_cast; omega

theorem to_size_t_of_nonneg (x : Int) (h0 : 0 ≤ x) (h1 : x < 2 ^ 64) :
    to_size_t x = x.toNat := by
  unfold to_size_t
  rw [Int.emod_eq_of_lt h0 h1]

theorem vlq_encode_zero : vlq_encode 0 = [0] := by decide

/-! ## One pass through the loop body of `read_track` -/

/-- One pass through the loop body on an event that starts with the standard
encoding of its delta time: the delta is decoded, the type byte is read and the
`switch` is entered. -/
theorem read_track_iter_event (ctx : tinysmf_parser_ctx) (d t : Nat) (rest : List Nat)
    (avail : Int) (sb : Nat) (trace : List Dispatch) (hd : d < 2 ^ 32)
    (h0 : ((vlq_encode d).length : Int) ≤ avail) (h1 : avail < 2 ^ 64) :
    read_track_iter ctx ⟨⟨vlq_encode d ++ t :: rest⟩, avail, sb, trace⟩
      = read_track_switch ctx ⟨rest⟩
          (avail - (vlq_encode d).length - 1) (vlq_encode d).length d sb trace (t % 256) := by
  have hn : (0 : Int) ≤ ((vlq_encode d).length : Int) := Int.natCast_nonneg _
  have hs : to_size_t avail = avail.toNat := to_size_t_of_nonneg avail (by omega) h1
  have hv := read_vlv_encode d hd avail.toNat (t :: rest) (by omega)
  simp only [read_track_iter, hs, hv, fread_u8]
  simp

set_option maxRecDepth 100000 in
theorem note_on_status : ∀ c, c < 16 →
    (0x90 ||| c) % 256 = 0x90 ||| c ∧ (0x90 ||| c) &&& 0x80 ≠ 0 ∧ (0x90 ||| c) &&& 0xF0 = 0x90 ∧
    (0x90 ||| c) &&& 0xEF = 0x80 ||| c ∧ (0x90 ||| c) < 0xF0 := by
  decide

/-! ## Streams only move forward -/

theorem fread_rest_le (f : FILE) (size : Nat) :
    (fread f size).2.rest.length ≤ f.rest.length := by
  unfold fread
  split
  · exact Nat.le_refl _
  · split <;> simp

theorem fread_u8_rest_le (f : FILE) : (fread_u8 f).2.rest.length ≤ f.rest.length := by
  unfold fread_u8
  split <;> simp_all

theorem fseek_cur_rest_le (f : FILE) (off : Nat) :
    (fseek_cur f off).rest.length ≤ f.rest.length := by
  simp [fseek_cur]

theorem read_vlv_loop_spec : ∀ (avail : Nat) (f : FILE) (ret : Int) (value buf : Nat),
    0 ≤ ret →
    (read_vlv_loop f ret value buf avail).f.rest.length ≤ f.rest.length ∧
    ((read_vlv_loop f ret value buf avail).ret = -1 ∨
      (ret ≤ (read_vlv_loop f ret value buf avail).ret ∧
        (read_vlv_loop f ret value buf avail).ret ≤ ret + avail)) := by
  intro avail
  induction avail with
  | zero => intro f ret value buf h; simp [read_vlv_loop]
  | succ n ih =>
    intro f ret value buf h
    unfold read_vlv_loop
    split
    · exact ⟨le_refl _, Or.inr ⟨le_refl _, by dsimp only; omega⟩⟩
    · have hlen := fread_u8_rest_le f
      split
      · rename_i f1 heq
        rw [heq] at hlen
        simpa using hlen
      · rename_i b f1 heq
        rw [heq] at hlen
        have := ih f1 (ret + 1) (((value <<< 7) ||| (b &&& 0x7F)) % 2 ^ 32) b (by omega)
        refine ⟨le_trans this.1 hlen, ?_⟩
        rcases this.2 with h1 | h1
        · exact Or.inl h1
        · right; omega

theorem read_vlv_spec (f : FILE) (avail : Nat) :
    (read_vlv f avail).f.rest.length ≤ f.rest.length ∧
    ((read_vlv f avail).ret = -1 ∨
      (0 ≤ (read_vlv f avail).ret ∧ (read_vlv f avail).ret ≤ avail)) := by
  have := read_vlv_loop_spec avail f 0 0 0x80 (le_refl _)
  simpa [read_vlv] using this

theorem read_sysex_event_spec (f : FILE) (avail : Nat) :
    (read_sysex_event f avail).f.rest.length ≤ f.rest.length ∧
    (read_sysex_event f avail).out = [] := by
  have hv := read_vlv_spec f avail
  unfold read_sysex_event
  simp only []
  split
  · exact ⟨hv.1, rfl⟩
  · have hr := fread_rest_le (read_vlv f avail).f (read_vlv f avail).value
    split
    · rename_i f1 heq
      rw [heq] at hr
      exact ⟨le_trans hr hv.1, rfl⟩
    · rename_i x f1 heq
      rw [heq] at hr
      exact ⟨le_trans hr hv.1, rfl⟩

theorem read_meta_event_spec (ctx : tinysmf_parser_ctx) (f : FILE) (avail delta : Nat) :
    (read_meta_event ctx f avail delta).f.rest.length ≤ f.rest.length ∧
    (∀ e ∈ (read_meta_event ctx f avail delta).out, e.is_event = true) ∧
    ((read_meta_event ctx f avail delta).ret < 0 → (read_meta_event ctx f avail delta).out = []) := by
  have h8 := fread_u8_rest_le f
  unfold read_meta_event
  split
  · rename_i f1 heq
    rw [heq] at h8
    exact ⟨h8, by simp, by simp⟩
  · rename_i type f1 heq
    rw [heq] at h8
    have hv := read_vlv_spec f1 avail
    simp only []
    split
    · exact ⟨le_trans hv.1 h8, by simp, by simp⟩
    · rename_i hret
      split
      · exact ⟨le_trans (fseek_cur_rest_le _ _) (le_trans hv.1 h8), by simp, by simp⟩
      · split
        · split
          · exact ⟨le_trans hv.1 h8, by simp, by simp⟩
          · have hr := fread_rest_le (read_vlv f1 avail).f (read_vlv f1 avail).value
            split
            · rename_i f2 heq2
              rw [heq2] at hr
              exact ⟨le_trans hr (le_trans hv.1 h8), by simp, by simp⟩
            · rename_i buf f2 heq2
              rw [heq2] at hr
              refine ⟨le_trans hr (le_trans hv.1 h8), by simp [Dispatch.is_event], ?_⟩
              intro h; exfalso; dsimp only at h; omega
        · refine ⟨le_trans hv.1 h8, by simp [Dispatch.is_event], ?_⟩
          intro h; exfalso; dsimp only at h; omega

theorem read_midi_event_data_spec (ctx : tinysmf_parser_ctx) (f : FILE) (avail delta sb : Nat)
    (hd : List Nat) (n : Nat) :
    (read_midi_event_data ctx f avail delta sb hd n).f.rest.length ≤ f.rest.length ∧
    (∀ e ∈ (read_midi_event_data ctx f avail delta sb hd n).out, e.is_event = true) ∧
    (-1 ≤ (read_midi_event_data ctx f avail delta sb hd n).ret) ∧
    ((read_midi_event_data ctx f avail delta sb hd n).ret < 0 →
      (read_midi_event_data ctx f avail delta sb hd n).out = []) := by
  have hx : (if n > 0 then fread f n else (some [], f)).2.rest.length ≤ f.rest.length := by
    split
    · exact fread_rest_le f n
    · exact le_refl _
  unfold read_midi_event_data
  split
  · simp
  · split
    · rename_i f1 heq
      rw [heq] at hx
      exact ⟨hx, by simp, by simp, by simp⟩
    · rename_i buf f1 heq
      rw [heq] at hx
      refine ⟨hx, ?_, ?_, ?_⟩
      · intro e he
        dsimp only at he
        split at he
        · simp at he; subst he; rfl
        · simp at he
      · dsimp only; omega
      · intro h; dsimp only at h; omega

theorem read_midi_event_spec (ctx : tinysmf_parser_ctx) (f : FILE) (avail delta sb fb : Nat) :
    (read_midi_event ctx f avail delta sb fb).f.rest.length ≤ f.rest.length ∧
    (∀ e ∈ (read_midi_event ctx f avail delta sb fb).out, e.is_event = true) ∧
    (-1 ≤ (read_midi_event ctx f avail delta sb fb).ret) ∧
    ((read_midi_event ctx f avail delta sb fb).ret < 0 →
      (read_midi_event ctx f avail delta sb fb).out = []) := by
  unfold read_midi_event
  split
  · exact read_midi_event_data_spec _ _ _ _ _ _ _
  · dsimp only
    split
    · simp
    · exact read_midi_event_data_spec _ _ _ _ _ _ _

/-! ## The loop of `read_track` ends, moves forward and dispatches events only -/

theorem read_track_switch_spec (ctx : tinysmf_parser_ctx) (f : FILE) (avail res : Int)
    (delta sb : Nat) (trace : List Dispatch) (t : Nat) (hres : 0 ≤ res) :
    (∀ f1 tr, read_track_switch ctx f avail res delta sb trace t = .error f1 tr →
      f1.rest.length ≤ f.rest.length ∧ tr = trace) ∧
    (∀ s1, read_track_switch ctx f avail res delta sb trace t = .next s1 →
      s1.f.rest.length ≤ f.rest.length ∧ s1.avail ≤ avail ∧
      ∃ evs, s1.trace = trace ++ evs ∧ ∀ e ∈ evs, e.is_event = true) := by
  unfold read_track_switch
  split
  · have h := read_sysex_event_spec f (to_size_t avail)
    dsimp only
    split
    · refine ⟨?_, fun _ h1 => by cases h1⟩
      intro f1 tr h1
      cases h1
      exact ⟨h.1, by rw [h.2]; simp⟩
    · refine ⟨fun _ _ h1 => (by cases h1), ?_⟩
      intro s1 h1
      cases h1
      exact ⟨h.1, by dsimp only; omega, [], by rw [h.2], by simp⟩
  · split
    · refine ⟨fun _ _ h1 => (by cases h1), ?_⟩
      intro s1 h1
      cases h1
      exact ⟨le_refl _, by dsimp only; omega, [], by simp, by simp⟩
    · split
      · have h := read_meta_event_spec ctx f (to_size_t avail) delta
        dsimp only
        split
        · rename_i hneg
          refine ⟨?_, fun _ h1 => by cases h1⟩
          intro f1 tr h1
          cases h1
          exact ⟨h.1, by rw [h.2.2 hneg]; simp⟩
        · refine ⟨fun _ _ h1 => (by cases h1), ?_⟩
          intro s1 h1
          cases h1
          exact ⟨h.1, by dsimp only; omega, _, rfl, h.2.1⟩
      · have h := read_midi_event_spec ctx f (to_size_t avail) delta sb t
        dsimp only
        split
        · rename_i hneg
          refine ⟨?_, fun _ h1 => by cases h1⟩
          intro f1 tr h1
          cases h1
          exact ⟨h.1, by rw [h.2.2.2 hneg]; simp⟩
        · refine ⟨fun _ _ h1 => (by cases h1), ?_⟩
          intro s1 h1
          cases h1
          exact ⟨h.1, by dsimp only; omega, _, rfl, h.2.1⟩

theorem read_track_iter_spec (ctx : tinysmf_parser_ctx) (s : track_state) :
    (∀ f1 tr, read_track_iter ctx s = .error f1 tr →
      f1.rest.length ≤ s.f.rest.length ∧ tr = s.trace) ∧
    (∀ s1, read_track_iter ctx s = .next s1 →
      s1.f.rest.length ≤ s.f.rest.length ∧ s1.avail < s.avail ∧
      ∃ evs, s1.trace = s.trace ++ evs ∧ ∀ e ∈ evs, e.is_event = true) := by
  have hv := read_vlv_spec s.f (to_size_t s.avail)
  unfold read_track_iter
  dsimp only
  split
  · refine ⟨?_, fun _ h1 => by cases h1⟩
    intro f1 tr h1
    cases h1
    exact ⟨hv.1, rfl⟩
  · rename_i hret
    have h8 := fread_u8_rest_le (read_vlv s.f (to_size_t s.avail)).f
    split
    · rename_i f1 heq
      rw [heq] at h8
      refine ⟨?_, fun _ h1 => by cases h1⟩
      intro f2 tr h1
      cases h1
      exact ⟨le_trans h8 hv.1, rfl⟩
    · rename_i t f1 heq
      rw [heq] at h8
      have hsw := read_track_switch_spec ctx f1
        (s.avail - (read_vlv s.f (to_size_t s.avail)).ret - 1)
        (read_vlv s.f (to_size_t s.avail)).ret (read_vlv s.f (to_size_t s.avail)).value
        s.status_buf s.trace t (by omega)
      refine ⟨?_, ?_⟩
      · intro f2 tr h1
        have := hsw.1 f2 tr h1
        exact ⟨le_trans this.1 (le_trans h8 hv.1), this.2⟩
      · intro s1 h1
        have := hsw.2 s1 h1
        exact ⟨le_trans this.1 (le_trans h8 hv.1), by omega, this.2.2⟩

theorem read_track_loop_spec (ctx : tinysmf_parser_ctx) : ∀ (fuel : Nat) (s : track_state),
    s.avail ≤ fuel →
    ∃ r, read_track_loop ctx fuel s = some r ∧ r.f.rest.length ≤ s.f.rest.length ∧
      (r.ret = 0 ∨ r.ret = -1) ∧
      ∃ evs, r.trace = s.trace ++ evs ∧ ∀ e ∈ evs, e.is_event = true := by
  intro fuel
  induction fuel with
  | zero =>
    intro s hs
    have : ¬ (s.avail > 0) := by simpa using hs
    refine ⟨⟨if s.avail < 0 then -1 else 0, s.f, s.trace⟩,
      by simp only [read_track_loop, this, if_false], le_refl _, ?_, [], by simp, by simp⟩
    dsimp only
    split <;> simp
  | succ fuel ih =>
    intro s hs
    unfold read_track_loop
    split
    · rename_i hpos
      have hit := read_track_iter_spec ctx s
      split
      · rename_i f1 tr heq
        have := hit.1 f1 tr heq
        exact ⟨_, rfl, this.1, Or.inr rfl, [], by simp [this.2], by simp⟩
      · rename_i s1 heq
        have h1 := hit.2 s1 heq
        obtain ⟨r, hr, hlen, hret, evs, htr, hev⟩ := ih s1 (by push_cast at hs; omega)
        obtain ⟨evs1, htr1, hev1⟩ := h1.2.2
        refine ⟨r, hr, le_trans hlen h1.1, hret, evs1 ++ evs, ?_, ?_⟩
        · rw [htr, htr1, List.append_assoc]
        · intro e he
          rcases List.mem_append.mp he with h | h
          · exact hev1 e h
          · exact hev e h
    · refine ⟨_, rfl, le_refl _, ?_, [], by simp, by simp⟩
      dsimp only
      split <;> simp

/-- `read_track` always returns, with 0 or -1, having moved the stream forward
only and having dispatched meta and MIDI events only. -/
theorem read_track_spec (ctx : tinysmf_parser_ctx) (f : FILE) (avail : Int)
    (trace : List Dispatch) :
    ∃ r, read_track ctx f avail trace = some r ∧ r.f.rest.length ≤ f.rest.length ∧
      (r.ret = 0 ∨ r.ret = -1) ∧
      ∃ evs, r.trace = trace ++ evs ∧ ∀ e ∈ evs, e.is_event = true := by
  have := read_track_loop_spec ctx avail.toNat ⟨f, avail, 0, trace⟩ (by simp [Int.self_le_toNat])
  simpa [read_track] using this

/-! ## The chunk loop of `tinysmf_parse_stream` -/

theorem fread_some_rest (f : FILE) (size : Nat) (buf : List Nat) (f1 : FILE)
    (h : fread f size = (some buf, f1)) :
    0 < size ∧ size ≤ f.rest.length ∧ buf = (f.rest.take size).map (fun b => b % 256) ∧
      f1 = ⟨f.rest.drop size⟩ := by
  unfold fread at h
  split at h
  · simp at h
  · split at h
    · simp only [Prod.mk.injEq, Option.some.injEq] at h
      exact ⟨by omega, by assumption, h.1.symm, h.2.symm⟩
    · simp at h

/-- With enough fuel the chunk loop returns. -/
theorem chunk_loop_total (ctx : tinysmf_parser_ctx) (info : tinysmf_file_info) (n : Nat) :
    ∀ (fuel : Nat) (i : Int) (f : FILE) (trace : List Dispatch),
      f.rest.length < 8 * fuel → ∃ r, chunk_loop ctx info n fuel i f trace = some r := by
  intro fuel
  induction fuel with
  | zero => intro i f trace h; omega
  | succ fuel ih =>
    intro i f trace h
    unfold chunk_loop
    split
    · split
      · exact ⟨_, rfl⟩
      · rename_i chunk f1 heq
        obtain ⟨_, h8, _, hf1⟩ := fread_some_rest f 8 chunk f1 heq
        have hlen : f1.rest.length + 8 ≤ f.rest.length := by
          rw [hf1]; simp; omega
        split
        · dsimp only
          split
          · exact ih _ _ _ (by have := fseek_cur_rest_le f1 (chunk_length chunk); omega)
          · obtain ⟨t, ht, htlen, _⟩ := read_track_spec ctx f1 (chunk_length chunk)
              (call_track_start ctx trace i).2
            rw [ht]
            dsimp only
            split
            · exact ⟨_, rfl⟩
            · exact ih _ _ _ (by omega)
        · exact ih _ _ _ (by have := fseek_cur_rest_le f1 (chunk_length chunk); omega)
    · exact ⟨_, rfl⟩

/-- More fuel does not change what the chunk loop returns. -/
theorem chunk_loop_fuel_succ (ctx : tinysmf_parser_ctx) (info : tinysmf_file_info) (n : Nat) :
    ∀ (fuel : Nat) (i : Int) (f : FILE) (trace : List Dispatch) (r : parse_result),
      chunk_loop ctx info n fuel i f trace = some r →
      chunk_loop ctx info n (fuel + 1) i f trace = some r := by
  intro fuel
  induction fuel with
  | zero =>
    intro i f trace r h
    unfold chunk_loop at h ⊢
    split at h
    · cases h
    · rename_i hi
      simp only [hi, if_false] at h ⊢
      exact h
  | succ fuel ih =>
    intro i f trace r h
    rw [chunk_loop] at h ⊢
    split
    · rename_i hi
      simp only [hi, if_true] at h
      split
      · rename_i f1 heq
        simp only [heq] at h
        exact h
      · rename_i chunk f1 heq
        simp only [heq] at h
        split
        · rename_i hm
          simp only [hm, if_true] at h
          dsimp only at h ⊢
          split
          · rename_i hs
            rw [if_pos hs] at h
            exact ih _ _ _ _ h
          · rename_i hs
            rw [if_neg hs] at h
            split
            · rename_i ht
              simp only [ht] at h
              cases h
            · rename_i t ht
              simp only [ht] at h
              split
              · rename_i hr
                rw [if_pos hr] at h
                exact h
              · rename_i hr
                rw [if_neg hr] at h
                exact ih _ _ _ _ h
        · rename_i hm
          simp only [hm, if_false] at h
          exact ih _ _ _ _ h
    · rename_i hi
      simp only [hi, if_false] at h
      exact h

theorem chunk_loop_fuel_le (ctx : tinysmf_parser_ctx) (info : tinysmf_file_info) (n : Nat)
    (fuel fuel1 : Nat) (hle : fuel ≤ fuel1) (i : Int) (f : FILE) (trace : List Dispatch)
    (r : parse_result) (h : chunk_loop ctx info n fuel i f trace = some r) :
    chunk_loop ctx info n fuel1 i f trace = some r := by
  induction fuel1 with
  | zero =>
    have : fuel = 0 := by omega
    subst this
    exact h
  | succ k ih =>
    by_cases hk : fuel = k + 1
    · subst hk; exact h
    · exact chunk_loop_fuel_succ ctx info n k i f trace r (ih (by omega))

/-- Any two sufficient amounts of fuel give the same result. -/
theorem chunk_loop_fuel_irrel (ctx : tinysmf_parser_ctx) (info : tinysmf_file_info) (n : Nat)
    (fuel fuel1 : Nat) (i : Int) (f : FILE) (trace : List Dispatch)
    (h : f.rest.length < 8 * fuel) (h1 : f.rest.length < 8 * fuel1) :
    chunk_loop ctx info n fuel i f trace = chunk_loop ctx info n fuel1 i f trace := by
  obtain ⟨r, hr⟩ := chunk_loop_total ctx info n fuel i f trace h
  obtain ⟨r1, hr1⟩ := chunk_loop_total ctx info n fuel1 i f trace h1
  rcases Nat.le_total fuel fuel1 with hle | hle
  · rw [hr, chunk_loop_fuel_le ctx info n fuel fuel1 hle i f trace r hr]
  · rw [hr1, chunk_loop_fuel_le ctx info n fuel1 fuel hle i f trace r1 hr1]

/-- An invariant principle for the chunk loop: `P` holds of the dispatches at
the head of every pass, `Q` of what the loop returns. -/
theorem chunk_loop_invariant (ctx : tinysmf_parser_ctx) (info : tinysmf_file_info) (n : Nat)
    (P : List Dispatch → Prop) (Q : parse_result → Prop)
    (hdone : ∀ tr f, P tr → Q ⟨0, f, some info, tr⟩)
    (hshort : ∀ tr f, P tr → Q ⟨-1, f, some info, tr⟩)
    (hskip : ∀ tr i, P tr → (call_track_start ctx tr i).1 ≠ 0 →
      P (call_track_end ctx (call_track_start ctx tr i).2 i))
    (hparse : ∀ tr i evs, P tr → (call_track_start ctx tr i).1 = 0 →
      (∀ e ∈ evs, e.is_event = true) →
      P (call_track_end ctx ((call_track_start ctx tr i).2 ++ evs) i))
    (hfail : ∀ tr i evs f, P tr → (call_track_start ctx tr i).1 = 0 →
      (∀ e ∈ evs, e.is_event = true) →
      Q ⟨1, f, some info, (call_track_start ctx tr i).2 ++ evs⟩) :
    ∀ (fuel : Nat) (i : Int) (f : FILE) (tr : List Dispatch) (r : parse_result),
      P tr → chunk_loop ctx info n fuel i f tr = some r → Q r := by
  intro fuel
  induction fuel with
  | zero =>
    intro i f tr r hP h
    unfold chunk_loop at h
    split at h
    · cases h
    · cases h
      exact hdone _ _ hP
  | succ fuel ih =>
    intro i f tr r hP h
    rw [chunk_loop] at h
    split at h
    · split at h
      · cases h
        exact hshort _ _ hP
      · rename_i chunk f1 heq
        split at h
        · dsimp only at h
          split at h
          · rename_i hs
            exact ih _ _ _ _ (hskip tr i hP hs) h
          · rename_i hs
            have hs0 : (call_track_start ctx tr i).1 = 0 := by
              by_contra hne; exact hs hne
            split at h
            · cases h
            · rename_i t ht
              obtain ⟨t1, ht1, _, _, evs, hevs, hall⟩ := read_track_spec ctx f1 (chunk_length chunk)
                (call_track_start ctx tr i).2
              rw [ht1] at ht
              cases ht
              split at h
              · cases h
                rw [hevs]
                exact hfail tr i evs _ hP hs0 hall
              · rw [hevs] at h
                exact ih _ _ _ _ (hparse tr i evs hP hs0 hall) h
        · exact ih _ _ _ _ hP h
    · cases h
      exact hdone _ _ hP

/-! ## The header -/

theorem ntohs_load_u16 (b0 b1 : Nat) (h0 : b0 < 256) (h1 : b1 < 256) :
    ntohs (load_u16 b0 b1) = 256 * b0 + b1 := by
  unfold ntohs load_u16
  omega

/-- A stream with fewer than 14 bytes, or with another tag than `"MThd"`, is
rejected before anything is dispatched. -/
theorem parse_bad_header (ctx : tinysmf_parser_ctx) (f : FILE)
    (h : f.rest.length < 14 ∨ (f.rest.take 4).map (fun b => b % 256) ≠ MThd) :
    ∃ f1, tinysmf_parse_stream ctx f = some ⟨-1, f1, none, []⟩ := by
  unfold tinysmf_parse_stream
  split
  · exact ⟨_, rfl⟩
  · rename_i hd f1 heq
    obtain ⟨_, hlen, hhd, _⟩ := fread_some_rest f 14 hd f1 heq
    rcases h with h | h
    · omega
    · have : hd.take 4 ≠ MThd := by
        rw [hhd, ← List.map_take, List.take_take]
        simpa using h
      rw [if_pos this]
      exact ⟨_, rfl⟩

/-- A stream that begins with a 14-byte `"MThd"` header enters the chunk loop
with the decoded `file_info`, after the `file_info` dispatch. -/
theorem parse_good_header (ctx : tinysmf_parser_ctx) (l0 l1 l2 l3 f0 f1 n0 n1 d0 d1 : Nat)
    (hf0 : f0 < 256) (hf1 : f1 < 256) (hn0 : n0 < 256) (hn1 : n1 < 256)
    (hd0 : d0 < 256) (hd1 : d1 < 256) :
    ∃ info : tinysmf_file_info,
      (∀ tail : List Nat,
        tinysmf_parse_stream ctx ⟨MThd ++ [l0, l1, l2, l3, f0, f1, n0, n1, d0, d1] ++ tail⟩
          = chunk_loop ctx info (256 * n0 + n1) (14 + tail.length) 0 ⟨tail⟩
              (if ctx.file_info_cb then [.file_info info] else [])) ∧
      info.format = 256 * f0 + f1 ∧ info.num_tracks = 256 * n0 + n1 ∧
      (d0 < 128 → info.division_type = .SMF_PPQN ∧ info.division = .ppqn (256 * d0 + d1)) ∧
      (128 ≤ d0 → info.division_type = .SMF_SMPTE ∧ info.division = .smpte (-(d0 : Int)) d1) := by
  have e1 := ntohs_load_u16 f0 f1 hf0 hf1
  have e2 := ntohs_load_u16 n0 n1 hn0 hn1
  have e3 := ntohs_load_u16 d0 d1 hd0 hd1
  have hdm : (d0 + 256 * d1) % 256 = d0 := by omega
  have hdiv : load_u16 d0 d1 &&& 0x80 = 0 ↔ d0 < 128 := by
    rw [and_80_eq_zero]; unfold load_u16; rw [hdm]
  have hfr : ∀ tail : List Nat,
      fread ⟨MThd ++ [l0, l1, l2, l3, f0, f1, n0, n1, d0, d1] ++ tail⟩ 14
      = (some (MThd ++ [l0 % 256, l1 % 256, l2 % 256, l3 % 256, f0, f1, n0, n1, d0, d1]),
          ⟨tail⟩) := by
    intro tail
    have hlen : 14 ≤ (MThd ++ [l0, l1, l2, l3, f0, f1, n0, n1, d0, d1] ++ tail).length := by
      simp [MThd]
    simp only [fread, hlen, if_true]
    simp [MThd, Nat.mod_eq_of_lt, hf0, hf1, hn0, hn1, hd0, hd1]
  have hlen2 : ∀ tail : List Nat,
      (MThd ++ [l0, l1, l2, l3, f0, f1, n0, n1, d0, d1] ++ tail).length = 14 + tail.length := by
    intro tail
    simp [MThd]; omega
  refine ⟨(cook_file_info ctx ⟨MThd, chunk_length (MThd ++ [l0 % 256, l1 % 256, l2 % 256,
    l3 % 256, f0, f1, n0, n1, d0, d1]), 256 * f0 + f1, 256 * n0 + n1, load_u16 d0 d1, d0, d1⟩).1,
    ?_, ?_, ?_, ?_, ?_⟩
  · intro tail
    simp only [tinysmf_parse_stream, hfr, hlen2]
    simp [MThd, e1, e2, cook_file_info]
  · unfold cook_file_info; dsimp only; split <;> simp
  · unfold cook_file_info; dsimp only; split <;> simp
  · intro h
    have := hdiv.mpr h
    unfold cook_file_info; dsimp only
    rw [if_neg (by simpa using this)]
    simp [e3]
  · intro h
    have : ¬ (load_u16 d0 d1 &&& 0x80 = 0) := by rw [hdiv]; omega
    unfold cook_file_info; dsimp only
    rw [if_pos (by simpa using this)]
    simp

theorem call_track_start_trace (ctx : tinysmf_parser_ctx) (tr : List Dispatch) (i : Int) :
    ∃ l, (call_track_start ctx tr i).2 = tr ++ l ∧ (l = [] ∨ l = [.track_start i]) := by
  unfold call_track_start
  split
  · exact ⟨_, rfl, Or.inr rfl⟩
  · exact ⟨[], by simp, Or.inl rfl⟩

theorem call_track_end_trace (ctx : tinysmf_parser_ctx) (tr : List Dispatch) (i : Int) :
    ∃ l, call_track_end ctx tr i = tr ++ l ∧ (l = [] ∨ l = [.track_end i]) := by
  unfold call_track_end
  split
  · exact ⟨_, rfl, Or.inr rfl⟩
  · exact ⟨[], by simp, Or.inl rfl⟩

theorem is_event_not_file_info (evs : List Dispatch) (h : ∀ e ∈ evs, e.is_event = true) :
    ∀ e ∈ evs, e.is_file_info = false := by
  intro e he
  have := h e he
  cases e <;> simp_all [Dispatch.is_event, Dispatch.is_file_info]

/-- The chunk loop appends to the dispatches, and never a `file_info`. -/
theorem chunk_loop_appends (ctx : tinysmf_parser_ctx) (info : tinysmf_file_info) (n : Nat)
    (fuel : Nat) (i : Int) (f : FILE) (tr : List Dispatch) (r : parse_result)
    (h : chunk_loop ctx info n fuel i f tr = some r) :
    r.file_info = some info ∧
    ∃ ext, r.trace = tr ++ ext ∧ ∀ e ∈ ext, e.is_file_info = false := by
  refine chunk_loop_invariant ctx info n
    (fun t => ∃ ext, t = tr ++ ext ∧ ∀ e ∈ ext, e.is_file_info = false)
    (fun r => r.file_info = some info ∧
      ∃ ext, r.trace = tr ++ ext ∧ ∀ e ∈ ext, e.is_file_info = false)
    ?_ ?_ ?_ ?_ ?_ fuel i f tr r ⟨[], by simp, by simp⟩ h
  · intro t f hP
    exact ⟨rfl, hP⟩
  · intro t f hP
    exact ⟨rfl, hP⟩
  · rintro t i ⟨ext, rfl, hext⟩ _
    obtain ⟨l1, h1, hl1⟩ := call_track_start_trace ctx (tr ++ ext) i
    obtain ⟨l2, h2, hl2⟩ := call_track_end_trace ctx (call_track_start ctx (tr ++ ext) i).2 i
    refine ⟨ext ++ l1 ++ l2, by rw [h2, h1]; simp, ?_⟩
    intro e he
    simp only [List.mem_append] at he
    rcases he with (he | he) | he
    · exact hext e he
    · rcases hl1 with rfl | rfl <;> simp at he; subst he; rfl
    · rcases hl2 with rfl | rfl <;> simp at he; subst he; rfl
  · rintro t i evs ⟨ext, rfl, hext⟩ _ hevs
    obtain ⟨l1, h1, hl1⟩ := call_track_start_trace ctx (tr ++ ext) i
    obtain ⟨l2, h2, hl2⟩ := call_track_end_trace ctx
      ((call_track_start ctx (tr ++ ext) i).2 ++ evs) i
    refine ⟨ext ++ l1 ++ evs ++ l2, by rw [h2, h1]; simp, ?_⟩
    intro e he
    simp only [List.mem_append] at he
    rcases he with ((he | he) | he) | he
    · exact hext e he
    · rcases hl1 with rfl | rfl <;> simp at he; subst he; rfl
    · exact is_event_not_file_info evs hevs e he
    · rcases hl2 with rfl | rfl <;> simp at he; subst he; rfl
  · rintro t i evs f ⟨ext, rfl, hext⟩ _ hevs
    obtain ⟨l1, h1, hl1⟩ := call_track_start_trace ctx (tr ++ ext) i
    refine ⟨rfl, ext ++ l1 ++ evs, by dsimp only; rw [h1]; simp, ?_⟩
    intro e he
    simp only [List.mem_append] at he
    rcases he with (he | he) | he
    · exact hext e he
    · rcases hl1 with rfl | rfl <;> simp at he; subst he; rfl
    · exact is_event_not_file_info evs hevs e he

theorem read_vlv_zero (rest : List Nat) (avail : Nat) (h : 1 ≤ avail) :
    read_vlv ⟨0 :: rest⟩ avail = ⟨1, 0, ⟨rest⟩⟩ := by
  have := read_vlv_encode 0 (by norm_num) avail rest (by simpa [vlq_encode_zero] using h)
  simpa [vlq_encode_zero] using this

set_option maxRecDepth 100000 in
theorem data_byte_routing : ∀ t, t < 0x80 →
    t &&& 0x80 = 0 ∧ ¬ (t = 0xF0 ∨ t = 0xF7) ∧ ¬ (0xF1 ≤ t ∧ t ≤ 0xF6) ∧ ¬ (t = 0xFF) := by
  decide

theorem read_midi_event_no_status (ctx : tinysmf_parser_ctx) (f : FILE) (avail delta t : Nat)
    (ht : t < 0x80) : read_midi_event ctx f avail delta 0 t = ⟨-1, f, 0, []⟩ := by
  have h := (data_byte_routing t ht).1
  simp [read_midi_event, h, midi_msg_size]

theorem ntohl_load_u32 (b0 b1 b2 b3 : Nat) (h0 : b0 < 256) (h1 : b1 < 256) (h2 : b2 < 256)
    (h3 : b3 < 256) :
    ntohl (load_u32 b0 b1 b2 b3) = b0 * 16777216 + b1 * 65536 + b2 * 256 + b3 := by
  unfold ntohl load_u32
  omega

theorem fread_chunk_header (t0 t1 t2 t3 len : Nat) (rest : List Nat) (hlen : len < 2 ^ 32) :
    ∃ chunk, fread ⟨[t0, t1, t2, t3] ++ be32 len ++ rest⟩ 8 = (some chunk, ⟨rest⟩) ∧
      chunk.take 4 = [t0 % 256, t1 % 256, t2 % 256, t3 % 256] ∧ chunk_length chunk = len := by
  refine ⟨[t0 % 256, t1 % 256, t2 % 256, t3 % 256] ++ be32 len, ?_, by simp, ?_⟩
  · have h8 : 8 ≤ ([t0, t1, t2, t3] ++ be32 len ++ rest).length := by simp [be32]
    simp only [fread, h8, if_true]
    simp [be32]
  · simp only [chunk_length, be32]
    simp only [List.cons_append, List.nil_append, List.getD_cons_succ, List.getD_cons_zero]
    rw [ntohl_load_u32 _ _ _ _ (Nat.mod_lt _ (by norm_num)) (Nat.mod_lt _ (by norm_num))
      (Nat.mod_lt _ (by norm_num)) (Nat.mod_lt _ (by norm_num))]
    omega

/-- A pass of the chunk loop over a chunk that is not a track chunk: the chunk
is skipped, nothing is dispatched and the track index stays. -/
theorem chunk_loop_unknown (ctx : tinysmf_parser_ctx) (info : tinysmf_file_info) (n fuel : Nat)
    (i : Int) (t0 t1 t2 t3 len : Nat) (rest : List Nat) (trace : List Dispatch)
    (hi : i < n) (htag : [t0 % 256, t1 % 256, t2 % 256, t3 % 256] ≠ MTrk) (hlen : len < 2 ^ 32) :
    chunk_loop ctx info n (fuel + 1) i ⟨[t0, t1, t2, t3] ++ be32 len ++ rest⟩ trace
      = chunk_loop ctx info n fuel i ⟨rest.drop len⟩ trace := by
  obtain ⟨chunk, hfr, htk, hcl⟩ := fread_chunk_header t0 t1 t2 t3 len rest hlen
  rw [chunk_loop, if_pos hi, hfr]
  dsimp only
  rw [htk, if_neg htag, hcl]
  simp [fseek_cur]

/-- A pass of the chunk loop over a track chunk. -/
theorem chunk_loop_track (ctx : tinysmf_parser_ctx) (info : tinysmf_file_info) (n fuel : Nat)
    (i : Int) (len : Nat) (rest : List Nat) (trace : List Dispatch)
    (hi : i < n) (hlen : len < 2 ^ 32) :
    chunk_loop ctx info n (fuel + 1) i ⟨MTrk ++ be32 len ++ rest⟩ trace
      = if (call_track_start ctx trace i).1 ≠ 0 then
          chunk_loop ctx info n fuel (i + 1) ⟨rest.drop len⟩
            (call_track_end ctx (call_track_start ctx trace i).2 i)
        else
          match read_track ctx ⟨rest⟩ len (call_track_start ctx trace i).2 with
          | none => none
          | some t =>
            if t.ret ≠ 0 then some ⟨1, t.f, some info, t.trace⟩
            else chunk_loop ctx info n fuel (i + 1) t.f (call_track_end ctx t.trace i) := by
  obtain ⟨chunk, hfr, htk, hcl⟩ := fread_chunk_header 0x4D 0x54 0x72 0x6B len rest hlen
  have htag : [0x4D % 256, 0x54 % 256, 0x72 % 256, 0x6B % 256] = MTrk := by decide
  have hm : (⟨MTrk ++ be32 len ++ rest⟩ : FILE)
      = ⟨[0x4D, 0x54, 0x72, 0x6B] ++ be32 len ++ rest⟩ := rfl
  rw [chunk_loop, if_pos hi, hm, hfr]
  dsimp only
  rw [htk, if_pos htag, hcl]
  rfl

theorem append_eq_split {α : Type} (tr ext pre post : List α) (x : α)
    (h : tr ++ ext = pre ++ x :: post) :
    (∃ c, tr = pre ++ x :: c ∧ post = c ++ ext) ∨ (∃ a, pre = tr ++ a ∧ ext = a ++ x :: post) := by
  rcases List.append_eq_append_iff.mp h with ⟨a, h1, h2⟩ | ⟨c, h1, h2⟩
  · exact Or.inr ⟨a, h1, h2⟩
  · cases c with
    | nil =>
      right
      refine ⟨[], by simpa using h1.symm, by simpa using h2.symm⟩
    | cons y c =>
      left
      simp only [List.cons_append, List.cons.injEq] at h2
      exact ⟨c, by rw [h1, h2.1], h2.2⟩

/-- Either the header is rejected with nothing dispatched, or the chunk loop is
entered at track index 0 after the `file_info` dispatch. -/
theorem parse_cases (ctx : tinysmf_parser_ctx) (f : FILE) (r : parse_result)
    (h : tinysmf_parse_stream ctx f = some r) :
    (r.ret = -1 ∧ r.trace = [] ∧ r.file_info = none) ∨
    ∃ info n fuel f1,
      chunk_loop ctx info n fuel 0 f1 (if ctx.file_info_cb then [.file_info info] else [])
        = some r := by
  unfold tinysmf_parse_stream at h
  split at h
  · cases h; exact Or.inl ⟨rfl, rfl, rfl⟩
  · split at h
    · cases h; exact Or.inl ⟨rfl, rfl, rfl⟩
    · right
      dsimp only [cook_file_info] at h
      exact ⟨_, _, _, _, h⟩

theorem chunk_loop_done (ctx : tinysmf_parser_ctx) (info : tinysmf_file_info) (n fuel : Nat)
    (i : Int) (f : FILE) (trace : List Dispatch) (hi : ¬ i < n) :
    chunk_loop ctx info n fuel i f trace = some ⟨0, f, some info, trace⟩ := by
  cases fuel <;> simp [chunk_loop, hi]

/-- A track chunk that holds only the end-of-track meta event. -/
theorem read_track_end_of_track (ctx : tinysmf_parser_ctx) (tr : List Dispatch)
    (hcb : ctx.meta_event_cb = true) :
    read_track ctx ⟨[0x00, 0xFF, 0x2F, 0x00]⟩ 4 tr
      = some ⟨0, ⟨[]⟩, tr ++ [.meta_event ⟨0, 0x2F, 0, .unset, []⟩]⟩ := by
  have s4 : to_size_t 4 = 4 := by decide
  have s2 : to_size_t 2 = 2 := by decide
  have e4 : (4 : Int).toNat = 4 := rfl
  have v1 := read_vlv_zero [0xFF, 0x2F, 0x00] 4 (by norm_num)
  have v2 := read_vlv_zero [] 2 (by norm_num)
  have hm : read_meta_event ctx ⟨[0x2F, 0x00]⟩ 2 0
      = ⟨2, ⟨[]⟩, [.meta_event ⟨0, 0x2F, 0, .unset, []⟩]⟩ := by
    simp [read_meta_event, fread_u8, v2, hcb]
  have hi : read_track_iter ctx ⟨⟨[0x00, 0xFF, 0x2F, 0x00]⟩, 4, 0, tr⟩
      = .next ⟨⟨[]⟩, 0, 0, tr ++ [.meta_event ⟨0, 0x2F, 0, .unset, []⟩]⟩ := by
    simp [read_track_iter, s4, v1, fread_u8, read_track_switch, s2, hm]
  simp only [read_track, e4, read_track_loop]
  simp [hi]

/-! ## Track-start and track-end in the dispatches -/

theorem skip_respected_append (cb : List Dispatch → Int → Int) (end_cb : Bool)
    (t : List Dispatch) (i : Int) (tail : List Dispatch)
    (h : skip_respected cb end_cb t) (htail : ∀ j, Dispatch.track_start j ∉ tail)
    (hcase : cb t i ≠ 0 → (∀ e l, tail = e :: l → e.is_event = false) ∧
      (end_cb = true → ∃ l, tail = .track_end i :: l)) :
    skip_respected cb end_cb (t ++ .track_start i :: tail) := by
  intro pre j post heq hcb
  rcases append_eq_split t _ pre post _ heq with ⟨c, h1, h2⟩ | ⟨a, h1, h2⟩
  · obtain ⟨g1, g2⟩ := h pre j c h1 hcb
    subst h2
    cases c with
    | nil =>
      refine ⟨?_, ?_⟩
      · intro e post1 he
        simp only [List.nil_append, List.cons.injEq] at he
        rw [← he.1]; rfl
      · intro hend
        obtain ⟨p, hp⟩ := g2 hend
        cases hp
    | cons e0 c1 =>
      refine ⟨?_, ?_⟩
      · intro e post1 he
        simp only [List.cons_append, List.cons.injEq] at he
        rw [← he.1]
        exact g1 e0 c1 rfl
      · intro hend
        obtain ⟨p, hp⟩ := g2 hend
        simp only [List.cons.injEq] at hp
        exact ⟨c1 ++ .track_start i :: tail, by rw [hp.1]; rfl⟩
  · cases a with
    | nil =>
      simp only [List.nil_append, List.cons.injEq, Dispatch.track_start.injEq] at h2
      simp only [List.append_nil] at h1
      obtain ⟨hij, hpost⟩ := h2
      subst hij hpost h1
      exact hcase hcb
    | cons x a1 =>
      simp only [List.cons_append, List.cons.injEq] at h2
      exfalso
      apply htail j
      rw [h2.2]
      simp

theorem tracks_closed_append (t ext : List Dispatch) (h : tracks_closed t)
    (hext : ∀ a j post, ext = a ++ Dispatch.track_start j :: post → .track_end j ∈ post) :
    tracks_closed (t ++ ext) := by
  intro pre j post heq
  rcases append_eq_split t _ pre post _ heq with ⟨c, h1, h2⟩ | ⟨a, h1, h2⟩
  · rw [h2]
    exact List.mem_append_left _ (h pre j c h1)
  · exact hext a j post h2

theorem events_no_track_start (evs : List Dispatch) (h : ∀ e ∈ evs, e.is_event = true) (j : Int) :
    Dispatch.track_start j ∉ evs := by
  intro hm
  have := h _ hm
  simp [Dispatch.is_event] at this

/-- What the chunk loop appends in one pass over a track chunk has at most one
track-start, at its head. -/
theorem track_start_split (i : Int) (l1 tail a post : List Dispatch) (j : Int)
    (hl1 : l1 = [] ∨ l1 = [.track_start i]) (htail : ∀ k, Dispatch.track_start k ∉ tail)
    (h : l1 ++ tail = a ++ .track_start j :: post) :
    l1 = [.track_start i] ∧ a = [] ∧ j = i ∧ post = tail := by
  rcases hl1 with rfl | rfl
  · exfalso
    apply htail j
    simp only [List.nil_append] at h
    rw [h]; simp
  · cases a with
    | nil =>
      simp only [List.singleton_append, List.nil_append, List.cons.injEq,
        Dispatch.track_start.injEq] at h
      exact ⟨rfl, rfl, h.1.symm, h.2.symm⟩
    | cons x a1 =>
      exfalso
      simp only [List.singleton_append, List.cons_append, List.cons.injEq,
        List.nil_append] at h
      apply htail j
      rw [h.2]; simp

theorem call_track_start_some (ctx : tinysmf_parser_ctx) (cb : List Dispatch → Int → Int)
    (hcb : ctx.track_start_cb = some cb) (tr : List Dispatch) (i : Int) :
    call_track_start ctx tr i = (cb tr i, tr ++ [.track_start i]) := by
  simp [call_track_start, hcb]

/-- The chunk loop keeps `skip_respected`. -/
theorem chunk_loop_skip_respected (ctx : tinysmf_parser_ctx) (cb : List Dispatch → Int → Int)
    (hcb : ctx.track_start_cb = some cb) (info : tinysmf_file_info) (n fuel : Nat) (i : Int)
    (f : FILE) (tr : List Dispatch) (r : parse_result)
    (h : chunk_loop ctx info n fuel i f tr = some r)
    (htr : skip_respected cb ctx.track_end_cb tr) :
    skip_respected cb ctx.track_end_cb r.trace := by
  refine chunk_loop_invariant ctx info n (skip_respected cb ctx.track_end_cb)
    (fun r => skip_respected cb ctx.track_end_cb r.trace) (fun _ _ hP => hP) (fun _ _ hP => hP)
    ?_ ?_ ?_ fuel i f tr r htr h
  · intro t i hP hskip
    rw [call_track_start_some ctx cb hcb] at hskip ⊢
    obtain ⟨l2, h2, hl2⟩ := call_track_end_trace ctx (t ++ [.track_start i]) i
    dsimp only at hskip ⊢
    rw [h2, List.append_assoc, List.singleton_append]
    refine skip_respected_append cb _ t i l2 hP ?_ ?_
    · intro j hj
      rcases hl2 with rfl | rfl <;> simp at hj
    · intro _
      refine ⟨?_, ?_⟩
      · intro e l he
        rcases hl2 with rfl | rfl
        · cases he
        · simp only [List.cons.injEq] at he
          rw [← he.1]; rfl
      · intro hend
        have : call_track_end ctx (t ++ [.track_start i]) i
            = t ++ [.track_start i] ++ [.track_end i] := by
          simp [call_track_end, hend]
        rw [this] at h2
        have := List.append_cancel_left h2
        exact ⟨[], this.symm⟩
  · intro t i evs hP hparse hevs
    rw [call_track_start_some ctx cb hcb] at hparse ⊢
    obtain ⟨l2, h2, hl2⟩ := call_track_end_trace ctx (t ++ [.track_start i] ++ evs) i
    dsimp only at hparse ⊢
    rw [h2, List.append_assoc, List.append_assoc, List.singleton_append]
    refine skip_respected_append cb _ t i (evs ++ l2) hP ?_ (fun hne => absurd hparse hne)
    intro j hj
    rcases List.mem_append.mp hj with hj | hj
    · exact events_no_track_start evs hevs j hj
    · rcases hl2 with rfl | rfl <;> simp at hj
  · intro t i evs f hP hparse hevs
    rw [call_track_start_some ctx cb hcb] at hparse ⊢
    dsimp only at hparse ⊢
    rw [List.append_assoc, List.singleton_append]
    exact skip_respected_append cb _ t i evs hP (events_no_track_start evs hevs)
      (fun hne => absurd hparse hne)

/-- The chunk loop keeps `tracks_closed` as long as no track fails; when a track
fails, the loop returns 1 and only the events of that track follow its
track-start. -/
theorem chunk_loop_tracks_closed (ctx : tinysmf_parser_ctx) (hend : ctx.track_end_cb = true)
    (info : tinysmf_file_info) (n fuel : Nat) (i : Int)
    (f : FILE) (tr : List Dispatch) (r : parse_result)
    (h : chunk_loop ctx info n fuel i f tr = some r) (htr : tracks_closed tr) :
    ∀ pre j post, r.trace = pre ++ .track_start j :: post →
      .track_end j ∈ post ∨ (r.ret = 1 ∧ ∀ e ∈ post, e.is_event = true) := by
  have hen : ∀ t i, call_track_end ctx t i = t ++ [.track_end i] := by
    intro t i; simp [call_track_end, hend]
  refine chunk_loop_invariant ctx info n tracks_closed
    (fun r => ∀ pre j post, r.trace = pre ++ .track_start j :: post →
      .track_end j ∈ post ∨ (r.ret = 1 ∧ ∀ e ∈ post, e.is_event = true))
    (fun _ _ hP pre j post hh => Or.inl (hP pre j post hh))
    (fun _ _ hP pre j post hh => Or.inl (hP pre j post hh))
    ?_ ?_ ?_ fuel i f tr r htr h
  · intro t i hP _
    obtain ⟨l1, h1, hl1⟩ := call_track_start_trace ctx t i
    rw [hen, h1, List.append_assoc]
    refine tracks_closed_append t _ hP ?_
    intro a j post hh
    obtain ⟨_, _, hj, hpost⟩ := track_start_split i l1 [.track_end i] a post j hl1
      (by intro k hk; simp at hk) hh
    rw [hpost, hj]; simp
  · intro t i evs hP _ hevs
    obtain ⟨l1, h1, hl1⟩ := call_track_start_trace ctx t i
    rw [hen, h1, List.append_assoc, List.append_assoc]
    refine tracks_closed_append t _ hP ?_
    intro a j post hh
    obtain ⟨_, _, hj, hpost⟩ := track_start_split i l1 (evs ++ [.track_end i]) a post j hl1
      (by
        intro k hk
        rcases List.mem_append.mp hk with hk | hk
        · exact events_no_track_start evs hevs k hk
        · simp at hk) hh
    rw [hpost, hj]; simp
  · intro t i evs f hP _ hevs pre j post hh
    obtain ⟨l1, h1, hl1⟩ := call_track_start_trace ctx t i
    dsimp only at hh ⊢
    rw [h1, List.append_assoc] at hh
    rcases append_eq_split t _ pre post _ hh with ⟨c, g1, g2⟩ | ⟨a, g1, g2⟩
    · left
      rw [g2]
      exact List.mem_append_left _ (hP pre j c g1)
    · right
      obtain ⟨_, _, _, hpost⟩ := track_start_split i l1 evs a post j hl1
        (events_no_track_start evs hevs) g2
      rw [hpost]
      exact ⟨rfl, hevs⟩

/-- `tinysmf_parse_stream` always returns. -/
theorem parse_total (ctx : tinysmf_parser_ctx) (f : FILE) :
    ∃ r, tinysmf_parse_stream ctx f = some r := by
  unfold tinysmf_parse_stream
  split
  · exact ⟨_, rfl⟩
  · rename_i h f1 heq
    obtain ⟨_, hlen, _, hf1⟩ := fread_some_rest f 14 h f1 heq
    split
    · exact ⟨_, rfl⟩
    · dsimp only
      apply chunk_loop_total
      rw [hf1]
      simp only [List.length_drop]
      omega

theorem no_track_start_initial (ctx : tinysmf_parser_ctx) (info : tinysmf_file_info)
    (pre post : List Dispatch) (j : Int) :
    (if ctx.file_info_cb then [Dispatch.file_info info] else [])
      ≠ pre ++ .track_start j :: post := by
  intro h
  have hm : Dispatch.track_start j ∈
      (if ctx.file_info_cb then [Dispatch.file_info info] else []) := by
    rw [h]; simp
  split at hm <;> simp at hm

/-! ## `read_vlv` when the budget runs out -/

theorem read_vlv_loop_all_cont : ∀ (bs rest : List Nat) (ret : Int) (value buf : Nat),
    128 ≤ buf % 256 → (∀ b ∈ bs, 128 ≤ b % 256) →
    read_vlv_loop ⟨bs ++ rest⟩ ret value buf bs.length
      = ⟨ret + bs.length, bs.foldl (fun v b => (v * 128 + b % 128) % 2 ^ 32) value, ⟨rest⟩⟩ := by
  intro bs
  induction bs with
  | nil => intro rest ret value buf _ _; simp [read_vlv_loop]
  | cons b bs ih =>
    intro rest ret value buf hbuf hall
    have hb : 128 ≤ b % 256 := hall b (List.mem_cons_self _ _)
    have hrest : ∀ x ∈ bs, 128 ≤ x % 256 := fun x hx => hall x (List.mem_cons_of_mem _ hx)
    rw [List.cons_append, List.length_cons, read_vlv_loop_step _ _ _ _ _ _ hbuf,
      ih rest (ret + 1) _ (b % 256) (by omega) hrest]
    have e : b % 256 % 128 = b % 128 := by omega
    simp only [List.foldl_cons, e]
    congr 1
    push_cast
    omega

/-! ## System common and system exclusive events -/

theorem fread_append (payload rest : List Nat) (h : 0 < payload.length) :
    fread ⟨payload ++ rest⟩ payload.length
      = (some (payload.map (fun b => b % 256)), ⟨rest⟩) := by
  have h0 : payload.length ≠ 0 := by omega
  simp [fread, h0]

/-- A pass through the loop body over a system common byte `0xF1..0xF6`
behind a standard delta time: nothing is read behind the type byte, the
register is cleared, and the budget is charged the delta length, the type byte
and the delta length once more (`res` still holds the result of `read_vlv`). -/
theorem read_track_iter_syscommon (ctx : tinysmf_parser_ctx) (d t : Nat) (rest : List Nat)
    (avail : Int) (sb : Nat) (trace : List Dispatch) (hd : d < 2 ^ 32)
    (ht1 : 0xF1 ≤ t) (ht2 : t ≤ 0xF6)
    (h0 : ((vlq_encode d).length : Int) ≤ avail) (h1 : avail < 2 ^ 64) :
    read_track_iter ctx ⟨⟨vlq_encode d ++ t :: rest⟩, avail, sb, trace⟩
      = .next ⟨⟨rest⟩, avail - (vlq_encode d).length - 1 - (vlq_encode d).length, 0, trace⟩ := by
  rw [read_track_iter_event ctx d t rest avail sb trace hd h0 h1]
  have htm : t % 256 = t := Nat.mod_eq_of_lt (by omega)
  have r1 : ¬ (t = 0xF0 ∨ t = 0xF7) := by omega
  have r2 : 0xF1 ≤ t ∧ t ≤ 0xF6 := ⟨ht1, ht2⟩
  simp only [read_track_switch, htm, r1, r2, if_false, if_true, and_self]

/-- `read_sysex_event` on a declared length `len > 0` whose payload is present. -/
theorem read_sysex_event_payload (len avail : Nat) (payload rest : List Nat)
    (hlen : len < 2 ^ 32) (hpos : 0 < len) (hp : payload.length = len)
    (hav : (vlq_encode len).length ≤ avail) :
    read_sysex_event ⟨vlq_encode len ++ (payload ++ rest)⟩ avail
      = ⟨((vlq_encode len).length : Nat) + (len : Nat), ⟨rest⟩, []⟩ := by
  have hv := read_vlv_encode len hlen avail (payload ++ rest) hav
  have hf := fread_append payload rest (by omega)
  rw [hp] at hf
  simp only [read_sysex_event, hv]
  rw [if_neg (by simp)]
  simp only [hf]

/-- `read_sysex_event` on a declared length 0: the function returns -1. -/
theorem read_sysex_event_empty (avail : Nat) (rest : List Nat) (hav : 1 ≤ avail) :
    read_sysex_event ⟨0 :: rest⟩ avail = ⟨-1, ⟨rest⟩, []⟩ := by
  have hv := read_vlv_zero rest avail hav
  simp [read_sysex_event, hv, fread]

/-- With the register cleared, a pass through the loop of `read_track` over an
event whose type byte has the high bit clear returns -1 with no dispatch. -/
theorem read_track_loop_no_status (ctx : tinysmf_parser_ctx) (fuel : Nat) (s : track_state)
    (t : Nat) (f1 : FILE) (hsb : s.status_buf = 0) (hav : 0 < s.avail)
    (hret : 0 ≤ (read_vlv s.f (to_size_t s.avail)).ret)
    (hfr : fread_u8 (read_vlv s.f (to_size_t s.avail)).f = (some t, f1)) (ht : t < 0x80) :
    read_track_loop ctx (fuel + 1) s = some ⟨-1, f1, s.trace⟩ := by
  obtain ⟨_, r1, r2, r3⟩ := data_byte_routing t ht
  have hi : read_track_iter ctx s = .error f1 s.trace := by
    unfold read_track_iter
    dsimp only
    rw [if_neg (by omega), hfr]
    dsimp only
    rw [hsb]
    simp [read_track_switch, r1, r2, r3, read_midi_event_no_status ctx f1 _ _ t ht]
  rw [read_track_loop, if_pos hav, hi]

/-! ## Channel messages -/

set_option maxRecDepth 100000 in
theorem midi_msg_size_two : ∀ s, s < 256 → 0x80 ≤ s → s ≤ 0xEF →
    (s / 16 = 0x8 ∨ s / 16 = 0x9 ∨ s / 16 = 0xA ∨ s / 16 = 0xB ∨ s / 16 = 0xE) →
    midi_msg_size s = 2 := by
  decide

set_option maxRecDepth 100000 in
theorem midi_msg_size_one : ∀ s, s < 256 → 0x80 ≤ s → s ≤ 0xEF →
    (s / 16 = 0xC ∨ s / 16 = 0xD) → midi_msg_size s = 1 := by
  decide

set_option maxRecDepth 100000 in
theorem midi_msg_size_pos : ∀ s, s < 256 → midi_msg_size s ≠ 0 →
    0x80 ≤ s ∧ s ≤ 0xEF ∧ s &&& 0x80 ≠ 0 := by
  decide

set_option maxRecDepth 100000 in
theorem midi_msg_size_one_not_note_on : ∀ s, s < 256 → midi_msg_size s = 1 →
    s &&& 0xF0 ≠ 0x90 := by
  decide

set_option maxRecDepth 100000 in
theorem status_high_bit : ∀ s, s < 256 → 0x80 ≤ s → s &&& 0x80 ≠ 0 := by
  decide

set_option maxRecDepth 100000 in
theorem note_off_rewrite : ∀ s, s < 256 → s &&& 0xF0 = 0x90 →
    0x80 ≤ (s &&& 0xEF) ∧ (s &&& 0xEF) ≤ 0x8F := by
  decide

/-- The bytes of a dispatched MIDI event: the status `s`, with the high nibble
of a note-on rewritten to note-off when the second data byte is 0. -/
theorem read_midi_event_data_two (ctx : tinysmf_parser_ctx) (hcb : ctx.midi_event_cb = true)
    (s d1 d2 sb avail delta n : Nat) (f f1 : FILE) (hd : List Nat) (buf : List Nat)
    (hn : n ≤ avail) (hfr : (if n > 0 then fread f n else (some [], f)) = (some buf, f1))
    (hb : (hd ++ buf ++ [0, 0, 0, 0]).take 4 = [s, d1, d2, 0]) :
    read_midi_event_data ctx f avail delta sb hd n
      = ⟨n, f1, sb,
          [.midi_event ⟨delta, [if s &&& 0xF0 = 0x90 ∧ d2 = 0 then s &&& 0xEF else s, d1, d2, 0]⟩]⟩ := by
  unfold read_midi_event_data
  rw [if_neg (by omega), hfr]
  dsimp only
  rw [hb, hcb]
  by_cases hc : s &&& 0xF0 = 0x90 ∧ d2 = 0
  · simp [hc]
  · simp [hc]

/-! ## The status byte of dispatched MIDI events -/

/-- What `read_midi_event_data` dispatches: one MIDI event at most, with the
stored bytes in front, the status possibly rewritten from note-on to note-off. -/
theorem read_midi_event_data_out (ctx : tinysmf_parser_ctx) (f : FILE) (avail delta sb : Nat)
    (s : Nat) (tl : List Nat) (n : Nat) :
    ∀ e ∈ (read_midi_event_data ctx f avail delta sb (s :: tl) n).out,
      ∃ b0 bs, e = .midi_event ⟨delta, b0 :: bs⟩ ∧
        (b0 = s ∨ (s &&& 0xF0 = 0x90 ∧ b0 = s &&& 0xEF)) ∧
        ∃ buf, bs = (tl ++ buf ++ [0, 0, 0, 0]).take 3 := by
  intro e he
  unfold read_midi_event_data at he
  split at he
  · simp at he
  · split at he
    · simp at he
    · rename_i buf f1 heq
      dsimp only at he
      split at he
      · simp only [List.mem_singleton] at he
        have hb : ((s :: tl) ++ buf ++ [0, 0, 0, 0]).take 4
            = s :: (tl ++ buf ++ [0, 0, 0, 0]).take 3 := by
          simp
        rw [hb] at he
        simp only [List.getD_cons_zero] at he
        split at he
        · rename_i hc
          refine ⟨s &&& 0xEF, _, ?_, Or.inr ⟨hc.1, rfl⟩, buf, rfl⟩
          rw [he]; simp
        · exact ⟨s, _, he, Or.inl rfl, buf, rfl⟩
      · simp at he

theorem read_midi_event_data_status_buf (ctx : tinysmf_parser_ctx) (f : FILE)
    (avail delta sb : Nat) (hd : List Nat) (n : Nat) :
    (read_midi_event_data ctx f avail delta sb hd n).status_buf = sb := by
  unfold read_midi_event_data
  split
  · rfl
  · split <;> rfl

/-- What `read_midi_event` dispatches and what it leaves in the register. -/
theorem read_midi_event_out (ctx : tinysmf_parser_ctx) (f : FILE) (avail delta sb fb : Nat)
    (hfb : fb < 256) :
    (∀ e ∈ (read_midi_event ctx f avail delta sb fb).out,
      ∃ b0 bs, e = .midi_event ⟨delta, b0 :: bs⟩ ∧
        ((0x80 ≤ fb ∧ (b0 = fb ∨ (fb &&& 0xF0 = 0x90 ∧ b0 = fb &&& 0xEF))) ∨
         (fb < 0x80 ∧ midi_msg_size sb ≠ 0 ∧ (b0 = sb ∨ (sb &&& 0xF0 = 0x90 ∧ b0 = sb &&& 0xEF)) ∧
           bs.head? = some fb))) ∧
    (read_midi_event ctx f avail delta sb fb).status_buf = (if 0x80 ≤ fb then fb else sb) := by
  have hbit : fb &&& 0x80 = 0 ↔ fb < 128 := by
    rw [and_80_eq_zero, Nat.mod_eq_of_lt hfb]
  unfold read_midi_event
  split
  · rename_i h
    have h80 : 0x80 ≤ fb := by
      by_contra hc
      exact h (hbit.mpr (by omega))
    refine ⟨?_, by rw [read_midi_event_data_status_buf, if_pos h80]⟩
    intro e he
    obtain ⟨b0, bs, he1, he2, _⟩ := read_midi_event_data_out ctx f avail delta fb fb [] _ e he
    exact ⟨b0, bs, he1, Or.inl ⟨h80, he2⟩⟩
  · rename_i h
    have h80 : fb < 0x80 := hbit.mp (by simpa using h)
    dsimp only
    split
    · exact ⟨by simp, by rw [if_neg (by omega)]⟩
    · rename_i hsz
      refine ⟨?_, by rw [read_midi_event_data_status_buf, if_neg (by omega)]⟩
      intro e he
      obtain ⟨b0, bs, he1, he2, buf, hbs⟩ :=
        read_midi_event_data_out ctx f avail delta sb sb [fb] _ e he
      refine ⟨b0, bs, he1, Or.inr ⟨h80, hsz, he2, ?_⟩⟩
      rw [hbs]; simp

theorem read_midi_event_status_ok (ctx : tinysmf_parser_ctx) (f : FILE)
    (avail delta sb fb : Nat) (hfb : fb < 256) (hsb : sb < 256)
    (hr : ¬ (0xF0 ≤ fb ∧ fb ≤ 0xF7)) (hff : fb ≠ 0xFF) :
    (∀ e ∈ (read_midi_event ctx f avail delta sb fb).out, e.status_ok) ∧
    (read_midi_event ctx f avail delta sb fb).status_buf < 256 := by
  obtain ⟨hout, hreg⟩ := read_midi_event_out ctx f avail delta sb fb hfb
  refine ⟨?_, ?_⟩
  · intro e he
    obtain ⟨b0, bs, rfl, hcase⟩ := hout e he
    simp only [Dispatch.status_ok, List.getD_cons_zero]
    rcases hcase with ⟨h80, h | ⟨hn, h⟩⟩ | ⟨_, hsz, h | ⟨hn, h⟩, _⟩
    · omega
    · have := note_off_rewrite fb hfb hn
      omega
    · have := midi_msg_size_pos sb hsb hsz
      omega
    · have := note_off_rewrite sb hsb hn
      omega
  · rw [hreg]
    split <;> omega

theorem read_meta_event_out_meta (ctx : tinysmf_parser_ctx) (f : FILE) (avail delta : Nat) :
    ∀ e ∈ (read_meta_event ctx f avail delta).out, ∃ ev, e = .meta_event ev := by
  intro e he
  unfold read_meta_event at he
  split at he
  · simp at he
  · dsimp only at he
    split at he
    · simp at he
    · split at he
      · simp at he
      · split at he
        · split at he
          · simp at he
          · split at he
            · simp at he
            · simp only [List.mem_singleton] at he
              exact ⟨_, he⟩
        · simp only [List.mem_singleton] at he
          exact ⟨_, he⟩

theorem read_track_switch_status (ctx : tinysmf_parser_ctx) (f : FILE) (avail res : Int)
    (delta sb : Nat) (trace : List Dispatch) (t : Nat) (ht : t < 256) (hsb : sb < 256)
    (s1 : track_state) (h : read_track_switch ctx f avail res delta sb trace t = .next s1) :
    s1.status_buf < 256 ∧ ∃ evs, s1.trace = trace ++ evs ∧ ∀ e ∈ evs, e.status_ok := by
  unfold read_track_switch at h
  split at h
  · dsimp only at h
    split at h
    · cases h
    · cases h
      refine ⟨by norm_num, _, rfl, ?_⟩
      rw [(read_sysex_event_spec f (to_size_t avail)).2]
      simp
  · split at h
    · cases h
      exact ⟨by norm_num, [], by simp, by simp⟩
    · split at h
      · dsimp only at h
        split at h
        · cases h
        · cases h
          refine ⟨hsb, _, rfl, ?_⟩
          intro e he
          obtain ⟨ev, rfl⟩ := read_meta_event_out_meta ctx f (to_size_t avail) delta e he
          trivial
      · rename_i h1 h2 h3
        dsimp only at h
        have hm := read_midi_event_status_ok ctx f (to_size_t avail) delta sb t ht hsb
          (by omega) h3
        split at h
        · cases h
        · cases h
          exact ⟨hm.2, _, rfl, hm.1⟩

theorem fread_u8_lt (f f1 : FILE) (t : Nat) (h : fread_u8 f = (some t, f1)) : t < 256 := by
  unfold fread_u8 at h
  split at h
  · cases h
  · cases h
    exact Nat.mod_lt _ (by norm_num)

theorem read_track_iter_status (ctx : tinysmf_parser_ctx) (s s1 : track_state)
    (hsb : s.status_buf < 256) (h : read_track_iter ctx s = .next s1) :
    s1.status_buf < 256 ∧ ∃ evs, s1.trace = s.trace ++ evs ∧ ∀ e ∈ evs, e.status_ok := by
  unfold read_track_iter at h
  dsimp only at h
  split at h
  · cases h
  · split at h
    · cases h
    · rename_i t f1 heq
      exact read_track_switch_status ctx f1 _ _ _ _ _ t (fread_u8_lt _ _ _ heq) hsb s1 h

theorem read_track_loop_status (ctx : tinysmf_parser_ctx) : ∀ (fuel : Nat) (s : track_state)
    (r : track_result), s.status_buf < 256 → read_track_loop ctx fuel s = some r →
    ∃ evs, r.trace = s.trace ++ evs ∧ ∀ e ∈ evs, e.status_ok := by
  intro fuel
  induction fuel with
  | zero =>
    intro s r _ h
    unfold read_track_loop at h
    split at h
    · cases h
    · cases h
      exact ⟨[], by simp, by simp⟩
  | succ fuel ih =>
    intro s r hsb h
    rw [read_track_loop] at h
    split at h
    · split at h
      · rename_i f1 tr heq
        cases h
        have := (read_track_iter_spec ctx s).1 f1 tr heq
        exact ⟨[], by simp [this.2], by simp⟩
      · rename_i s1 heq
        obtain ⟨hsb1, evs1, h1, hok1⟩ := read_track_iter_status ctx s s1 hsb heq
        obtain ⟨evs, h2, hok⟩ := ih s1 r hsb1 h
        refine ⟨evs1 ++ evs, by rw [h2, h1, List.append_assoc], ?_⟩
        intro e he
        rcases List.mem_append.mp he with he | he
        · exact hok1 e he
        · exact hok e he
    · cases h
      exact ⟨[], by simp, by simp⟩

/-- `read_track` dispatches meta events and MIDI events whose status byte is
in `0x80..0xEF` or `0xF8..0xFE` only. -/
theorem read_track_status (ctx : tinysmf_parser_ctx) (f : FILE) (avail : Int)
    (trace : List Dispatch) (r : track_result) (h : read_track ctx f avail trace = some r) :
    ∃ evs, r.trace = trace ++ evs ∧ ∀ e ∈ evs, e.is_event = true ∧ e.status_ok := by
  obtain ⟨r1, hr1, _, _, evs1, he1, hall1⟩ := read_track_spec ctx f avail trace
  rw [h] at hr1
  cases hr1
  obtain ⟨evs, he, hall⟩ := read_track_loop_status ctx avail.toNat ⟨f, avail, 0, trace⟩ r
    (by norm_num) h
  dsimp only at he
  have : evs = evs1 := List.append_cancel_left (he.symm.trans he1)
  subst this
  exact ⟨evs, he, fun e hm => ⟨hall1 e hm, hall e hm⟩⟩

/-- The invariant principle for the chunk loop, with what is known of the
dispatches of `read_track`. -/
theorem chunk_loop_invariant_status (ctx : tinysmf_parser_ctx) (info : tinysmf_file_info)
    (n : Nat) (P : List Dispatch → Prop) (Q : parse_result → Prop)
    (hdone : ∀ tr f, P tr → Q ⟨0, f, some info, tr⟩)
    (hshort : ∀ tr f, P tr → Q ⟨-1, f, some info, tr⟩)
    (hskip : ∀ tr i, P tr → (call_track_start ctx tr i).1 ≠ 0 →
      P (call_track_end ctx (call_track_start ctx tr i).2 i))
    (hparse : ∀ tr i evs, P tr → (call_track_start ctx tr i).1 = 0 →
      (∀ e ∈ evs, e.is_event = true ∧ e.status_ok) →
      P (call_track_end ctx ((call_track_start ctx tr i).2 ++ evs) i))
    (hfail : ∀ tr i evs f, P tr → (call_track_start ctx tr i).1 = 0 →
      (∀ e ∈ evs, e.is_event = true ∧ e.status_ok) →
      Q ⟨1, f, some info, (call_track_start ctx tr i).2 ++ evs⟩) :
    ∀ (fuel : Nat) (i : Int) (f : FILE) (tr : List Dispatch) (r : parse_result),
      P tr → chunk_loop ctx info n fuel i f tr = some r → Q r := by
  intro fuel
  induction fuel with
  | zero =>
    intro i f tr r hP h
    unfold chunk_loop at h
    split at h
    · cases h
    · cases h
      exact hdone _ _ hP
  | succ fuel ih =>
    intro i f tr r hP h
    rw [chunk_loop] at h
    split at h
    · split at h
      · cases h
        exact hshort _ _ hP
      · rename_i chunk f1 heq
        split at h
        · dsimp only at h
          split at h
          · rename_i hs
            exact ih _ _ _ _ (hskip tr i hP hs) h
          · rename_i hs
            have hs0 : (call_track_start ctx tr i).1 = 0 := by
              by_contra hne; exact hs hne
            split at h
            · cases h
            · rename_i t ht
              obtain ⟨evs, hevs, hall⟩ := read_track_status ctx f1 (chunk_length chunk)
                (call_track_start ctx tr i).2 t ht
              split at h
              · cases h
                rw [hevs]
                exact hfail tr i evs _ hP hs0 hall
              · rw [hevs] at h
                exact ih _ _ _ _ (hparse tr i evs hP hs0 hall) h
        · exact ih _ _ _ _ hP h
    · cases h
      exact hdone _ _ hP

/-- Every MIDI event that `tinysmf_parse_stream` dispatches has a status byte
in `0x80..0xEF` or `0xF8..0xFE`. -/
theorem parse_status_ok (ctx : tinysmf_parser_ctx) (f : FILE) (r : parse_result)
    (h : tinysmf_parse_stream ctx f = some r) : ∀ e ∈ r.trace, e.status_ok := by
  rcases parse_cases ctx f r h with ⟨_, htr, _⟩ | ⟨info, n, fuel, f1, hloop⟩
  · rw [htr]; simp
  · have hst : ∀ tr i, (∀ e ∈ tr, Dispatch.status_ok e) →
        ∀ e ∈ (call_track_start ctx tr i).2, Dispatch.status_ok e := by
      intro tr i htr e he
      obtain ⟨l, hl, hl1⟩ := call_track_start_trace ctx tr i
      rw [hl] at he
      rcases List.mem_append.mp he with he | he
      · exact htr e he
      · rcases hl1 with rfl | rfl
        · simp at he
        · simp at he; subst he; trivial
    have hen : ∀ tr i, (∀ e ∈ tr, Dispatch.status_ok e) →
        ∀ e ∈ call_track_end ctx tr i, Dispatch.status_ok e := by
      intro tr i htr e he
      obtain ⟨l, hl, hl1⟩ := call_track_end_trace ctx tr i
      rw [hl] at he
      rcases List.mem_append.mp he with he | he
      · exact htr e he
      · rcases hl1 with rfl | rfl
        · simp at he
        · simp at he; subst he; trivial
    have happ : ∀ (tr evs : List Dispatch), (∀ e ∈ tr, Dispatch.status_ok e) →
        (∀ e ∈ evs, e.is_event = true ∧ e.status_ok) → ∀ e ∈ tr ++ evs, Dispatch.status_ok e := by
      intro tr evs htr hevs e he
      rcases List.mem_append.mp he with he | he
      · exact htr e he
      · exact (hevs e he).2
    refine chunk_loop_invariant_status ctx info n (fun t => ∀ e ∈ t, Dispatch.status_ok e)
      (fun r => ∀ e ∈ r.trace, Dispatch.status_ok e) (fun _ _ hP => hP) (fun _ _ hP => hP)
      ?_ ?_ ?_ fuel 0 f1 _ r ?_ hloop
    · intro tr i hP _
      exact hen _ i (hst tr i hP)
    · intro tr i evs hP _ hevs
      exact hen _ i (happ _ evs (hst tr i hP) hevs)
    · intro tr i evs f hP _ hevs
      exact happ _ evs (hst tr i hP) hevs
    · intro e he
      split at he
      · simp at he; subst he; trivial
      · simp at he

theorem read_track_switch_register (ctx : tinysmf_parser_ctx) (f : FILE) (avail res : Int)
    (delta sb : Nat) (trace : List Dispatch) (t : Nat) (ht : t < 256)
    (s1 : track_state) (h : read_track_switch ctx f avail res delta sb trace t = .next s1) :
    s1.status_buf = 0 ∨ s1.status_buf = sb ∨ (s1.status_buf = t ∧ 0x80 ≤ t) := by
  unfold read_track_switch at h
  split at h
  · dsimp only at h
    split at h
    · cases h
    · cases h; exact Or.inl rfl
  · split at h
    · cases h; exact Or.inl rfl
    · split at h
      · dsimp only at h
        split at h
        · cases h
        · cases h; exact Or.inr (Or.inl rfl)
      · dsimp only at h
        split at h
        · cases h
        · cases h
          dsimp only
          rw [(read_midi_event_out ctx f (to_size_t avail) delta sb t ht).2]
          split
          · rename_i h80; exact Or.inr (Or.inr ⟨rfl, h80⟩)
          · exact Or.inr (Or.inl rfl)

set_option maxRecDepth 100000 in
theorem realtime_status : ∀ t, t < 256 → 0xF8 ≤ t → t ≤ 0xFE →
    midi_msg_size t = 0 ∧ t &&& 0x80 ≠ 0 ∧ t &&& 0xF0 ≠ 0x90 := by
  decide

/-- A pass through the loop body over a type byte `0xF8..0xFE` behind a
standard delta time: the byte takes the MIDI branch with no data bytes and is
dispatched. -/
theorem read_track_iter_realtime (ctx : tinysmf_parser_ctx) (d t : Nat) (rest : List Nat)
    (avail : Int) (sb : Nat) (trace : List Dispatch) (hcb : ctx.midi_event_cb = true)
    (hd : d < 2 ^ 32) (ht1 : 0xF8 ≤ t) (ht2 : t ≤ 0xFE)
    (h0 : ((vlq_encode d).length : Int) ≤ avail) (h1 : avail < 2 ^ 64) :
    read_track_iter ctx ⟨⟨vlq_encode d ++ t :: rest⟩, avail, sb, trace⟩
      = .next ⟨⟨rest⟩, avail - (vlq_encode d).length - 1, t,
          trace ++ [.midi_event ⟨d, [t, 0, 0, 0]⟩]⟩ := by
  rw [read_track_iter_event ctx d t rest avail sb trace hd h0 h1]
  have htm : t % 256 = t := Nat.mod_eq_of_lt (by omega)
  obtain ⟨hsz, hbit, hno⟩ := realtime_status t (by omega) ht1 ht2
  have r1 : ¬ (t = 0xF0 ∨ t = 0xF7) := by omega
  have r2 : ¬ (0xF1 ≤ t ∧ t ≤ 0xF6) := by omega
  have r3 : ¬ (t = 0xFF) := by omega
  have hm : ∀ A, read_midi_event ctx ⟨rest⟩ A d sb t
      = ⟨0, ⟨rest⟩, t, [.midi_event ⟨d, [t, 0, 0, 0]⟩]⟩ := by
    intro A
    simp [read_midi_event, read_midi_event_data, hbit, hsz, hno, hcb]
  simp only [read_track_switch, htm, r1, r2, r3, if_false, hm]
  simp


/-! ## What is read is what is charged -/

theorem fread_u8_some_rest (f f1 : FILE) (t : Nat) (h : fread_u8 f = (some t, f1)) :
    f1.rest = f.rest.drop 1 ∧ 1 ≤ f.rest.length := by
  unfold fread_u8 at h
  split at h
  · cases h
  · rename_i b rest heq
    cases h
    rw [heq]
    simp

theorem read_vlv_loop_consumed : ∀ (avail : Nat) (f : FILE) (ret : Int) (value buf : Nat),
    0 ≤ ret →
    (read_vlv_loop f ret value buf avail).ret = -1 ∨
    ∃ k : Nat, k ≤ avail ∧ k ≤ f.rest.length ∧
      (read_vlv_loop f ret value buf avail).ret = ret + k ∧
      (read_vlv_loop f ret value buf avail).f.rest = f.rest.drop k := by
  intro avail
  induction avail with
  | zero =>
    intro f ret value buf _
    exact Or.inr ⟨0, le_refl _, Nat.zero_le _, by simp [read_vlv_loop], by simp [read_vlv_loop]⟩
  | succ n ih =>
    intro f ret value buf hret
    unfold read_vlv_loop
    split
    · exact Or.inr ⟨0, Nat.zero_le _, Nat.zero_le _, by simp, by simp⟩
    · split
      · exact Or.inl rfl
      · rename_i b f1 heq
        obtain ⟨hf1, hlen⟩ := fread_u8_some_rest f f1 b heq
        rcases ih f1 (ret + 1) (((value <<< 7) ||| (b &&& 0x7F)) % 2 ^ 32) b (by omega) with
          h | ⟨k, hk, hkl, hr, hf⟩
        · exact Or.inl h
        · refine Or.inr ⟨k + 1, by omega, ?_, ?_, ?_⟩
          · rw [hf1] at hkl
            simp only [List.length_drop] at hkl
            omega
          · rw [hr]; push_cast; omega
          · rw [hf, hf1, List.drop_drop]
            congr 1
            omega

theorem read_vlv_consumed (f : FILE) (avail : Nat) :
    (read_vlv f avail).ret = -1 ∨
    ∃ k : Nat, k ≤ avail ∧ k ≤ f.rest.length ∧ (read_vlv f avail).ret = k ∧
      (read_vlv f avail).f.rest = f.rest.drop k := by
  rcases read_vlv_loop_consumed avail f 0 0 0x80 (le_refl _) with h | ⟨k, h1, h2, h3, h4⟩
  · exact Or.inl h
  · exact Or.inr ⟨k, h1, h2, by rw [read_vlv, h3]; simp, h4⟩

theorem read_sysex_event_consumed (f : FILE) (avail : Nat) :
    (read_sysex_event f avail).ret < 0 ∨
    ∃ k : Nat, k ≤ f.rest.length ∧ (read_sysex_event f avail).ret = k ∧
      (read_sysex_event f avail).f.rest = f.rest.drop k := by
  unfold read_sysex_event
  dsimp only
  rcases read_vlv_consumed f avail with h | ⟨k, _, hkl, hr, hf⟩
  · left
    rw [if_pos (by rw [h]; norm_num)]
    norm_num
  · rw [if_neg (by rw [hr]; omega)]
    split
    · left; norm_num
    · rename_i x f1 heq
      obtain ⟨_, hle, _, hf1⟩ := fread_some_rest _ _ _ _ heq
      right
      refine ⟨k + (read_vlv f avail).value, ?_, ?_, ?_⟩
      · rw [hf] at hle
        simp only [List.length_drop] at hle
        omega
      · dsimp only; rw [hr]; push_cast; rfl
      · dsimp only
        rw [hf1, hf, List.drop_drop]

theorem read_midi_event_data_consumed (ctx : tinysmf_parser_ctx) (f : FILE)
    (avail delta sb : Nat) (hd : List Nat) (n : Nat) :
    (read_midi_event_data ctx f avail delta sb hd n).ret < 0 ∨
    ∃ k : Nat, k ≤ f.rest.length ∧ (read_midi_event_data ctx f avail delta sb hd n).ret = k ∧
      (read_midi_event_data ctx f avail delta sb hd n).f.rest = f.rest.drop k := by
  unfold read_midi_event_data
  split
  · left; norm_num
  · split
    · left; norm_num
    · rename_i buf f1 heq
      right
      split at heq
      · obtain ⟨_, hle, _, hf1⟩ := fread_some_rest _ _ _ _ heq
        exact ⟨n, hle, rfl, by dsimp only; rw [hf1]⟩
      · rename_i hn
        have h0 : n = 0 := by omega
        simp only [Prod.mk.injEq] at heq
        exact ⟨0, Nat.zero_le _, by dsimp only; rw [h0], by dsimp only; rw [← heq.2]; simp⟩

theorem read_midi_event_consumed (ctx : tinysmf_parser_ctx) (f : FILE)
    (avail delta sb fb : Nat) :
    (read_midi_event ctx f avail delta sb fb).ret < 0 ∨
    ∃ k : Nat, k ≤ f.rest.length ∧ (read_midi_event ctx f avail delta sb fb).ret = k ∧
      (read_midi_event ctx f avail delta sb fb).f.rest = f.rest.drop k := by
  unfold read_midi_event
  split
  · exact read_midi_event_data_consumed _ _ _ _ _ _ _
  · dsimp only
    split
    · left; norm_num
    · exact read_midi_event_data_consumed _ _ _ _ _ _ _

theorem read_meta_event_consumed (ctx : tinysmf_parser_ctx) (f : FILE) (avail delta : Nat) :
    (read_meta_event ctx f avail delta).ret < 0 ∨
    ∃ k : Nat, (read_meta_event ctx f avail delta).ret = k ∧
      (read_meta_event ctx f avail delta).f.rest = f.rest.drop k := by
  unfold read_meta_event
  split
  · left; norm_num
  · rename_i type f1 heq
    obtain ⟨hf1, _⟩ := fread_u8_some_rest f f1 type heq
    dsimp only
    rcases read_vlv_consumed f1 avail with h | ⟨k, _, _, hr, hf⟩
    · left
      rw [if_pos (by rw [h]; norm_num)]
      norm_num
    · rw [if_neg (by rw [hr]; omega)]
      have hdrop : ∀ m, ((read_vlv f1 avail).f.rest).drop m = f.rest.drop (1 + k + m) := by
        intro m
        rw [hf, hf1, List.drop_drop, List.drop_drop]
        congr 1
        omega
      split
      · right
        refine ⟨1 + k + (read_vlv f1 avail).value, by dsimp only; rw [hr]; push_cast; rfl, ?_⟩
        dsimp only [fseek_cur]
        exact hdrop _
      · split
        · split
          · left; norm_num
          · split
            · left; norm_num
            · rename_i buf f2 heq2
              obtain ⟨_, _, _, hf2⟩ := fread_some_rest _ _ _ _ heq2
              right
              refine ⟨1 + k + (read_vlv f1 avail).value,
                by dsimp only; rw [hr]; push_cast; rfl, ?_⟩
              dsimp only
              rw [hf2]
              exact hdrop _
        · rename_i hl
          have hl0 : (read_vlv f1 avail).value = 0 := by omega
          right
          refine ⟨1 + k, by dsimp only; rw [hr, hl0]; push_cast; omega, ?_⟩
          dsimp only
          have := hdrop 0
          simpa using this

/-- What the `switch` reads and charges: for a system common byte nothing is
read and `res` is charged; for every other type byte the bytes read or skipped
are the bytes charged. -/
theorem read_track_switch_consumed (ctx : tinysmf_parser_ctx) (f : FILE) (avail res : Int)
    (delta sb : Nat) (trace : List Dispatch) (t : Nat) (s1 : track_state)
    (h : read_track_switch ctx f avail res delta sb trace t = .next s1) :
    ((0xF1 ≤ t ∧ t ≤ 0xF6) → s1.f = f ∧ s1.avail = avail - res) ∧
    (¬ (0xF1 ≤ t ∧ t ≤ 0xF6) →
      ∃ k : Nat, s1.avail = avail - k ∧ s1.f.rest = f.rest.drop k) := by
  unfold read_track_switch at h
  split at h
  · rename_i h1
    dsimp only at h
    split at h
    · cases h
    · rename_i hret
      cases h
      refine ⟨fun hc => by omega, fun _ => ?_⟩
      rcases read_sysex_event_consumed f (to_size_t avail) with hneg | ⟨k, _, hr, hf⟩
      · exact absurd hneg hret
      · exact ⟨k, by dsimp only; rw [hr], hf⟩
  · split at h
    · rename_i h2
      cases h
      exact ⟨fun _ => ⟨rfl, rfl⟩, fun hc => absurd h2 hc⟩
    · rename_i h2
      split at h
      · dsimp only at h
        split at h
        · cases h
        · rename_i hret
          cases h
          refine ⟨fun hc => absurd hc h2, fun _ => ?_⟩
          rcases read_meta_event_consumed ctx f (to_size_t avail) delta with hneg | ⟨k, hr, hf⟩
          · exact absurd hneg hret
          · exact ⟨k, by dsimp only; rw [hr], hf⟩
      · dsimp only at h
        split at h
        · cases h
        · rename_i hret
          cases h
          refine ⟨fun hc => absurd hc h2, fun _ => ?_⟩
          rcases read_midi_event_consumed ctx f (to_size_t avail) delta sb t with
            hneg | ⟨k, _, hr, hf⟩
          · exact absurd hneg hret
          · exact ⟨k, by dsimp only; rw [hr], hf⟩

/-- What one pass through the loop body reads and charges. -/
theorem read_track_iter_consumed (ctx : tinysmf_parser_ctx) (s s1 : track_state)
    (h : read_track_iter ctx s = .next s1) :
    ∃ t f1, 0 ≤ (read_vlv s.f (to_size_t s.avail)).ret ∧
      fread_u8 (read_vlv s.f (to_size_t s.avail)).f = (some t, f1) ∧
      ∃ k : Nat, s1.f.rest = s.f.rest.drop k ∧ s1.avail ≤ s.avail - k ∧
        (¬ (0xF1 ≤ t ∧ t ≤ 0xF6) → s1.avail = s.avail - k) := by
  unfold read_track_iter at h
  dsimp only at h
  split at h
  · cases h
  · rename_i hret
    split at h
    · cases h
    · rename_i t f1 heq
      refine ⟨t, f1, by omega, heq, ?_⟩
      obtain ⟨hf1, _⟩ := fread_u8_some_rest _ f1 t heq
      rcases read_vlv_consumed s.f (to_size_t s.avail) with hneg | ⟨k0, _, _, hr, hf⟩
      · omega
      · have hsw := read_track_switch_consumed ctx f1 _ _ _ _ _ t s1 h
        by_cases hc : 0xF1 ≤ t ∧ t ≤ 0xF6
        · obtain ⟨e1, e2⟩ := hsw.1 hc
          refine ⟨k0 + 1, ?_, ?_, fun hn => absurd hc hn⟩
          · rw [e1, hf1, hf, List.drop_drop]
          · rw [e2, hr]; push_cast; omega
        · obtain ⟨k, e1, e2⟩ := hsw.2 hc
          refine ⟨k0 + 1 + k, ?_, ?_, fun _ => ?_⟩
          · rw [e2, hf1, hf, List.drop_drop, List.drop_drop]
            congr 1
            omega
          · rw [e1, hr]; push_cast; omega
          · rw [e1, hr]; push_cast; omega

theorem read_track_loop_negative (ctx : tinysmf_parser_ctx) (fuel : Nat) (s : track_state)
    (h : s.avail < 0) : read_track_loop ctx fuel s = some ⟨-1, s.f, s.trace⟩ := by
  cases fuel with
  | zero =>
    simp only [read_track_loop]
    rw [if_neg (by omega), if_pos h]
  | succ n =>
    rw [read_track_loop, if_neg (by omega), if_pos h]

/-- When the loop of `read_track` ends with 0 and met no system common byte,
the bytes it read or skipped are the budget it started from. -/
theorem read_track_loop_aligned (ctx : tinysmf_parser_ctx) : ∀ (fuel : Nat) (s : track_state)
    (r : track_result), read_track_loop ctx fuel s = some r → r.ret = 0 → 0 ≤ s.avail →
    (∀ t ∈ read_track_type_bytes ctx fuel s, ¬ (0xF1 ≤ t ∧ t ≤ 0xF6)) →
    r.f.rest = s.f.rest.drop s.avail.toNat := by
  intro fuel
  induction fuel with
  | zero =>
    intro s r h hret hav _
    unfold read_track_loop at h
    split at h
    · cases h
    · rename_i hle
      cases h
      have : s.avail = 0 := by omega
      rw [this]
      simp
  | succ fuel ih =>
    intro s r h hret hav hty
    rw [read_track_loop] at h
    rw [read_track_type_bytes] at hty
    split at h
    · rename_i hpos
      rw [if_pos hpos] at hty
      split at h
      · cases h
        simp at hret
      · rename_i s1 heq
        obtain ⟨t, f1, hr0, hfr, k, hk1, hk2, hk3⟩ := read_track_iter_consumed ctx s s1 heq
        dsimp only at hty
        rw [if_neg (by omega), hfr] at hty
        dsimp only at hty
        rw [heq] at hty
        dsimp only at hty
        have ht : ¬ (0xF1 ≤ t ∧ t ≤ 0xF6) := hty t (List.mem_cons_self _ _)
        have hav1 := hk3 ht
        by_cases hneg : s1.avail < 0
        · rw [read_track_loop_negative ctx fuel s1 hneg] at h
          cases h
          simp at hret
        · have := ih s1 r h hret (by omega) (fun x hx => hty x (List.mem_cons_of_mem _ hx))
          rw [this, hk1, List.drop_drop]
          congr 1
          omega
    · rename_i hle
      cases h
      have : s.avail = 0 := by omega
      rw [this]
      simp


/-! ## With and without a meta-event callback -/

theorem strip_meta_append (a b : List Dispatch) :
    strip_meta (a ++ b) = strip_meta a ++ strip_meta b := by
  simp [strip_meta]

theorem strip_meta_of_meta (l : List Dispatch) (h : ∀ e ∈ l, ∃ ev, e = .meta_event ev) :
    strip_meta l = [] := by
  unfold strip_meta
  rw [List.filter_eq_nil_iff]
  intro e he
  obtain ⟨ev, rfl⟩ := h e he
  simp [Dispatch.is_meta]

theorem to_size_t_sub (A : Int) (k : Nat) (hk : k ≤ to_size_t A) :
    (to_size_t A + 2 ^ 64 - (k : Int).toNat) % 2 ^ 64 = to_size_t A - k := by
  have hlt : to_size_t A < 2 ^ 64 := by
    unfold to_size_t
    omega
  rw [Int.toNat_ofNat]
  omega

theorem to_size_t_eq (A : Int) (h0 : 0 ≤ A) (h1 : A < 2 ^ 64) : (to_size_t A : Int) = A := by
  rw [to_size_t_of_nonneg A h0 h1]
  omega

/-- The two runs of `read_meta_event`, without and with a meta-event callback,
on a stream that holds at least `A` bytes: both fail, or both return the same
count at the same place, or the run with the callback fails while the run
without it returns more than the budget `A`. -/
theorem read_meta_event_sim (ctx0 ctx1 : tinysmf_parser_ctx) (f : FILE) (A : Int) (delta : Nat)
    (h0 : ctx0.meta_event_cb = false) (h1 : ctx1.meta_event_cb = true)
    (hA0 : -1 ≤ A) (hA1 : A < 2 ^ 64) (hinv : A ≤ f.rest.length) :
    (read_meta_event ctx0 f (to_size_t A) delta).out = [] ∧
    (((read_meta_event ctx0 f (to_size_t A) delta).ret < 0 ∧
        (read_meta_event ctx1 f (to_size_t A) delta).ret < 0) ∨
      (0 ≤ (read_meta_event ctx0 f (to_size_t A) delta).ret ∧
        (read_meta_event ctx1 f (to_size_t A) delta).ret
          = (read_meta_event ctx0 f (to_size_t A) delta).ret ∧
        (read_meta_event ctx1 f (to_size_t A) delta).f
          = (read_meta_event ctx0 f (to_size_t A) delta).f) ∨
      (0 ≤ (read_meta_event ctx0 f (to_size_t A) delta).ret ∧
        (read_meta_event ctx1 f (to_size_t A) delta).ret < 0 ∧
        A - (read_meta_event ctx0 f (to_size_t A) delta).ret < 0)) := by
  unfold read_meta_event
  rw [h0, h1]
  split
  · exact ⟨rfl, Or.inl ⟨by norm_num, by norm_num⟩⟩
  · rename_i type f1 heq
    obtain ⟨hf1, hlen⟩ := fread_u8_some_rest f f1 type heq
    dsimp only
    rcases read_vlv_consumed f1 (to_size_t A) with h | ⟨k, hka, hkf, hr, hf⟩
    · have hneg : (read_vlv f1 (to_size_t A)).ret < 0 := by rw [h]; norm_num
      simp only [hneg, if_true]
      exact ⟨trivial, Or.inl ⟨by norm_num, by norm_num⟩⟩
    · have hnn : ¬ (read_vlv f1 (to_size_t A)).ret < 0 := by rw [hr]; omega
      simp only [hnn, if_false, if_true, Bool.true_eq_false]
      refine ⟨trivial, ?_⟩
      rw [hr, to_size_t_sub A k hka]
      by_cases hpos : (read_vlv f1 (to_size_t A)).value > 0
      · simp only [hpos, if_true]
        by_cases hgt : (read_vlv f1 (to_size_t A)).value > to_size_t A - k
        · simp only [hgt, if_true]
          right; right
          refine ⟨by omega, by norm_num, ?_⟩
          by_cases hA : 0 ≤ A
          · have := to_size_t_eq A hA hA1
            omega
          · omega
        · simp only [hgt, if_false]
          split
          · rename_i f2 heq2
            right; right
            refine ⟨by omega, by norm_num, ?_⟩
            have hnot : ¬ ((read_vlv f1 (to_size_t A)).value
                ≤ (read_vlv f1 (to_size_t A)).f.rest.length) := by
              intro hc
              unfold fread at heq2
              rw [if_neg (by omega), if_pos hc] at heq2
              simp at heq2
            have hl1 : f1.rest.length = f.rest.length - 1 := by rw [hf1, List.length_drop]
            rw [hf, List.length_drop] at hnot
            omega
          · rename_i buf f2 heq2
            obtain ⟨_, _, _, hf2⟩ := fread_some_rest _ _ _ _ heq2
            right; left
            refine ⟨by omega, rfl, ?_⟩
            rw [hf2]
            rfl
      · simp only [hpos, if_false]
        right; left
        refine ⟨by omega, trivial, ?_⟩
        have : (read_vlv f1 (to_size_t A)).value = 0 := by omega
        rw [this]
        simp [fseek_cur]

theorem read_midi_event_data_strip (ctx : tinysmf_parser_ctx) (f : FILE) (avail delta sb : Nat)
    (hd : List Nat) (n : Nat) :
    strip_meta (read_midi_event_data ctx f avail delta sb hd n).out
      = (read_midi_event_data ctx f avail delta sb hd n).out := by
  unfold read_midi_event_data
  split
  · rfl
  · split
    · rfl
    · dsimp only
      cases ctx.midi_event_cb <;> simp [strip_meta, Dispatch.is_meta]

theorem read_midi_event_strip (ctx : tinysmf_parser_ctx) (f : FILE) (avail delta sb fb : Nat) :
    strip_meta (read_midi_event ctx f avail delta sb fb).out
      = (read_midi_event ctx f avail delta sb fb).out := by
  unfold read_midi_event
  split
  · exact read_midi_event_data_strip _ _ _ _ _ _ _
  · dsimp only
    split
    · rfl
    · exact read_midi_event_data_strip _ _ _ _ _ _ _

/-- The procedure `read_midi_event` looks at the MIDI-event callback only. -/
theorem read_midi_event_ctx (ctx0 ctx1 : tinysmf_parser_ctx)
    (hm : ctx0.midi_event_cb = ctx1.midi_event_cb) (f : FILE) (avail delta sb fb : Nat) :
    read_midi_event ctx0 f avail delta sb fb = read_midi_event ctx1 f avail delta sb fb := by
  unfold read_midi_event read_midi_event_data
  rw [hm]

/-- One `switch` in the two runs, without (`ctx0`) and with (`ctx1`) a
meta-event callback, from the same stream, budget and running status: both
fail, or both go on from the same state, or the run with the callback fails
while the run without it goes on with a negative budget.  The dispatches of
the run without the callback are those of the other run that are not meta
events. -/
theorem read_track_switch_sim (ctx0 ctx1 : tinysmf_parser_ctx)
    (hm : ctx0.midi_event_cb = ctx1.midi_event_cb)
    (h0 : ctx0.meta_event_cb = false) (h1 : ctx1.meta_event_cb = true)
    (f : FILE) (A res : Int) (delta sb : Nat) (t0 t1 : List Dispatch) (ev : Nat)
    (htr : t0 = strip_meta t1) (hA0 : -1 ≤ A) (hA1 : A < 2 ^ 64) (hinv : A ≤ f.rest.length) :
    match read_track_switch ctx0 f A res delta sb t0 ev,
      read_track_switch ctx1 f A res delta sb t1 ev with
    | .error _ e0, .error _ e1 => e0 = strip_meta e1
    | .next n0, .next n1 =>
      n0.f = n1.f ∧ n0.avail = n1.avail ∧ n0.status_buf = n1.status_buf ∧
        n0.trace = strip_meta n1.trace
    | .next n0, .error _ e1 => n0.avail < 0 ∧ n0.trace = strip_meta e1
    | .error _ _, .next _ => False := by
  unfold read_track_switch
  by_cases hx : ev = 0xF0 ∨ ev = 0xF7
  · simp only [hx, if_true]
    have hout := (read_sysex_event_spec f (to_size_t A)).2
    by_cases hr : (read_sysex_event f (to_size_t A)).ret < 0
    · simp only [hr, if_true, hout, List.append_nil]
      exact htr
    · simp only [hr, if_false, hout, List.append_nil]
      exact ⟨trivial, trivial, trivial, htr⟩
  · simp only [hx, if_false]
    by_cases hc : 0xF1 ≤ ev ∧ ev ≤ 0xF6
    · simp only [hc, and_self, if_true]
      exact ⟨trivial, trivial, trivial, htr⟩
    · simp only [hc, if_false]
      by_cases hff : ev = 0xFF
      · simp only [hff, if_true]
        obtain ⟨hout0, hcases⟩ := read_meta_event_sim ctx0 ctx1 f A delta h0 h1 hA0 hA1 hinv
        have hout1 := strip_meta_of_meta _ (read_meta_event_out_meta ctx1 f (to_size_t A) delta)
        rcases hcases with ⟨a, b⟩ | ⟨a, b, c⟩ | ⟨a, b, c⟩
        · simp only [a, b, if_true, hout0, List.append_nil, strip_meta_append, hout1]
          exact htr
        · have a1 : ¬ (read_meta_event ctx0 f (to_size_t A) delta).ret < 0 := by omega
          have b1 : ¬ (read_meta_event ctx1 f (to_size_t A) delta).ret < 0 := by omega
          simp only [a1, b1, if_false, hout0, List.append_nil, strip_meta_append, hout1]
          exact ⟨c.symm, by rw [b], trivial, htr⟩
        · have a1 : ¬ (read_meta_event ctx0 f (to_size_t A) delta).ret < 0 := by omega
          simp only [a1, b, if_false, if_true, hout0, List.append_nil, strip_meta_append, hout1]
          exact ⟨c, htr⟩
      · simp only [hff, if_false]
        rw [read_midi_event_ctx ctx0 ctx1 hm]
        have hout := read_midi_event_strip ctx1 f (to_size_t A) delta sb ev
        by_cases hr : (read_midi_event ctx1 f (to_size_t A) delta sb ev).ret < 0
        · simp only [hr, if_true, strip_meta_append, hout]
          rw [htr]
        · simp only [hr, if_false, strip_meta_append, hout]
          exact ⟨trivial, trivial, trivial, by rw [htr]⟩

/-- One pass through the loop body of `read_track` in the two runs, without
(`ctx0`) and with (`ctx1`) a meta-event callback, on a stream that holds at
least the bytes of the budget. -/
theorem read_track_iter_sim (ctx0 ctx1 : tinysmf_parser_ctx)
    (hm : ctx0.midi_event_cb = ctx1.midi_event_cb)
    (h0 : ctx0.meta_event_cb = false) (h1 : ctx1.meta_event_cb = true)
    (f : FILE) (A : Int) (sb : Nat) (t0 t1 : List Dispatch)
    (htr : t0 = strip_meta t1) (hA0 : 0 < A) (hA1 : A < 2 ^ 64) (hinv : A ≤ f.rest.length) :
    match read_track_iter ctx0 ⟨f, A, sb, t0⟩, read_track_iter ctx1 ⟨f, A, sb, t1⟩ with
    | .error _ e0, .error _ e1 => e0 = strip_meta e1
    | .next n0, .next n1 =>
      n0.f = n1.f ∧ n0.avail = n1.avail ∧ n0.status_buf = n1.status_buf ∧
        n0.trace = strip_meta n1.trace
    | .next n0, .error _ e1 => n0.avail < 0 ∧ n0.trace = strip_meta e1
    | .error _ _, .next _ => False := by
  unfold read_track_iter
  dsimp only
  by_cases hr : (read_vlv f (to_size_t A)).ret < 0
  · simp only [hr, if_true]
    exact htr
  · simp only [hr, if_false]
    rcases read_vlv_consumed f (to_size_t A) with h | ⟨k, hka, hkf, hret, hf⟩
    · omega
    · have hsz := to_size_t_eq A (by omega) hA1
      rcases heq : fread_u8 (read_vlv f (to_size_t A)).f with ⟨_ | t, f1⟩
      · dsimp only
        exact htr
      · dsimp only
        obtain ⟨hf1, hlen⟩ := fread_u8_some_rest _ f1 t heq
        refine read_track_switch_sim ctx0 ctx1 hm h0 h1 f1 _ _ _ sb t0 t1 t htr
          (by omega) (by omega) ?_
        rw [hf1, List.length_drop, hf, List.length_drop]
        rw [hf, List.length_drop] at hlen
        omega

/-- The loop of `read_track` in the two runs, without (`ctx0`) and with
(`ctx1`) a meta-event callback, on a stream that holds at least the bytes of
the budget: the same return value, the same dispatches apart from the meta
events, and on success the same place in the stream. -/
theorem read_track_loop_sim (ctx0 ctx1 : tinysmf_parser_ctx)
    (hm : ctx0.midi_event_cb = ctx1.midi_event_cb)
    (h0 : ctx0.meta_event_cb = false) (h1 : ctx1.meta_event_cb = true) :
    ∀ (fuel : Nat) (f : FILE) (A : Int) (sb : Nat) (t0 t1 : List Dispatch),
    t0 = strip_meta t1 → A < 2 ^ 64 → A ≤ f.rest.length →
    ∀ r0 r1, read_track_loop ctx0 fuel ⟨f, A, sb, t0⟩ = some r0 →
      read_track_loop ctx1 fuel ⟨f, A, sb, t1⟩ = some r1 →
      r0.ret = r1.ret ∧ r0.trace = strip_meta r1.trace ∧ (r1.ret = 0 → r0.f = r1.f) := by
  intro fuel
  induction fuel with
  | zero =>
    intro f A sb t0 t1 htr hA1 hinv r0 r1 e0 e1
    unfold read_track_loop at e0 e1
    dsimp only at e0 e1
    by_cases hpos : A > 0
    · rw [if_pos hpos] at e0
      cases e0
    · rw [if_neg hpos] at e0 e1
      cases e0
      cases e1
      exact ⟨rfl, htr, fun _ => rfl⟩
  | succ fuel ih =>
    intro f A sb t0 t1 htr hA1 hinv r0 r1 e0 e1
    rw [read_track_loop] at e0 e1
    dsimp only at e0 e1
    by_cases hpos : A > 0
    · rw [if_pos hpos] at e0 e1
      have hs := read_track_iter_sim ctx0 ctx1 hm h0 h1 f A sb t0 t1 htr hpos hA1 hinv
      cases hi0 : read_track_iter ctx0 ⟨f, A, sb, t0⟩ with
      | error f0 x0 =>
        cases hi1 : read_track_iter ctx1 ⟨f, A, sb, t1⟩ with
        | error f1 x1 =>
          rw [hi0, hi1] at hs
          rw [hi0] at e0
          rw [hi1] at e1
          cases e0
          cases e1
          exact ⟨rfl, hs, fun h => by simp at h⟩
        | next n1 =>
          rw [hi0, hi1] at hs
          exact hs.elim
      | next n0 =>
        rw [hi0] at e0
        dsimp only at e0
        cases hi1 : read_track_iter ctx1 ⟨f, A, sb, t1⟩ with
        | error f1 x1 =>
          rw [hi0, hi1] at hs
          rw [hi1] at e1
          cases e1
          rw [read_track_loop_negative ctx0 fuel n0 hs.1] at e0
          cases e0
          exact ⟨rfl, hs.2, fun h => by simp at h⟩
        | next n1 =>
          rw [hi0, hi1] at hs
          rw [hi1] at e1
          dsimp only at e1 hs
          obtain ⟨_, _, _, _, k, hk1, hk2, _⟩ := read_track_iter_consumed ctx1 _ n1 hi1
          dsimp only at hk1 hk2
          obtain ⟨nf, na, nsb, nt⟩ := n1
          obtain ⟨nf0, na0, nsb0, nt0⟩ := n0
          dsimp only at hs hk1 hk2
          obtain ⟨rfl, rfl, rfl, hnt⟩ := hs
          refine ih nf0 na0 nsb0 nt0 nt hnt (by omega) ?_ r0 r1 e0 e1
          rw [hk1, List.length_drop]
          omega
    · rw [if_neg hpos] at e0 e1
      cases e0
      cases e1
      exact ⟨rfl, htr, fun _ => rfl⟩

/-- The procedure `read_track` in the two runs, on a chunk whose declared
bytes are all in the stream. -/
theorem read_track_sim (ctx0 ctx1 : tinysmf_parser_ctx)
    (hm : ctx0.midi_event_cb = ctx1.midi_event_cb)
    (h0 : ctx0.meta_event_cb = false) (h1 : ctx1.meta_event_cb = true)
    (f : FILE) (len : Nat) (t0 t1 : List Dispatch)
    (htr : t0 = strip_meta t1) (hlen : len < 2 ^ 64) (hinv : len ≤ f.rest.length)
    (r0 r1 : track_result) (e0 : read_track ctx0 f len t0 = some r0)
    (e1 : read_track ctx1 f len t1 = some r1) :
    r0.ret = r1.ret ∧ r0.trace = strip_meta r1.trace ∧ (r1.ret = 0 → r0.f = r1.f) := by
  unfold read_track at e0 e1
  exact read_track_loop_sim ctx0 ctx1 hm h0 h1 _ f len 0 t0 t1 htr (by exact_mod_cast hlen)
    (by exact_mod_cast hinv) r0 r1 e0 e1

theorem chunk_length_lt (chunk : List Nat) : chunk_length chunk < 2 ^ 32 := by
  unfold chunk_length ntohl
  omega

theorem call_track_start_sim (ctx0 ctx1 : tinysmf_parser_ctx)
    (hs : ctx0.track_start_cb = ctx1.track_start_cb)
    (hcb : ∀ cb, ctx1.track_start_cb = some cb → ∀ tr i, cb tr i = cb (strip_meta tr) i)
    (t0 t1 : List Dispatch) (i : Int) (htr : t0 = strip_meta t1) :
    (call_track_start ctx0 t0 i).1 = (call_track_start ctx1 t1 i).1 ∧
    (call_track_start ctx0 t0 i).2 = strip_meta (call_track_start ctx1 t1 i).2 := by
  unfold call_track_start
  rw [hs]
  cases hc : ctx1.track_start_cb with
  | none => exact ⟨rfl, htr⟩
  | some cb =>
    dsimp only
    refine ⟨by rw [htr, ← hcb cb hc], ?_⟩
    rw [strip_meta_append, htr]
    rfl

theorem call_track_end_sim (ctx0 ctx1 : tinysmf_parser_ctx)
    (he : ctx0.track_end_cb = ctx1.track_end_cb)
    (t0 t1 : List Dispatch) (i : Int) (htr : t0 = strip_meta t1) :
    call_track_end ctx0 t0 i = strip_meta (call_track_end ctx1 t1 i) := by
  unfold call_track_end
  rw [he]
  split
  · rw [strip_meta_append, htr]
    rfl
  · exact htr

/-- The chunk loop in the two runs, without (`ctx0`) and with (`ctx1`) a
meta-event callback, when the stream holds behind every chunk header the bytes
that the header declares. -/
theorem chunk_loop_sim (ctx0 ctx1 : tinysmf_parser_ctx)
    (hs : ctx0.track_start_cb = ctx1.track_start_cb)
    (he : ctx0.track_end_cb = ctx1.track_end_cb)
    (hm : ctx0.midi_event_cb = ctx1.midi_event_cb)
    (h0 : ctx0.meta_event_cb = false) (h1 : ctx1.meta_event_cb = true)
    (hcb : ∀ cb, ctx1.track_start_cb = some cb → ∀ tr i, cb tr i = cb (strip_meta tr) i)
    (info : tinysmf_file_info) (n : Nat) :
    ∀ (fuel : Nat) (i : Int) (f : FILE) (t0 t1 : List Dispatch), t0 = strip_meta t1 →
    (∀ c ∈ chunk_loop_chunks ctx1 n fuel i f t1, c.1 ≤ c.2) →
    ∀ r0 r1, chunk_loop ctx0 info n fuel i f t0 = some r0 →
      chunk_loop ctx1 info n fuel i f t1 = some r1 →
      r0.ret = r1.ret ∧ r0.file_info = r1.file_info ∧ r0.trace = strip_meta r1.trace := by
  intro fuel
  induction fuel with
  | zero =>
    intro i f t0 t1 htr _ r0 r1 e0 e1
    unfold chunk_loop at e0 e1
    by_cases hi : i < n
    · rw [if_pos hi] at e0
      cases e0
    · rw [if_neg hi] at e0 e1
      cases e0
      cases e1
      exact ⟨rfl, rfl, htr⟩
  | succ fuel ih =>
    intro i f t0 t1 htr hfull r0 r1 e0 e1
    rw [chunk_loop] at e0 e1
    rw [chunk_loop_chunks] at hfull
    by_cases hi : i < n
    · rw [if_pos hi] at e0 e1 hfull
      rcases heq : fread f 8 with ⟨_ | chunk, f1⟩
      · rw [heq] at e0 e1
        cases e0
        cases e1
        exact ⟨rfl, rfl, htr⟩
      · rw [heq] at e0 e1 hfull
        dsimp only at e0 e1 hfull
        have hhere : chunk_length chunk ≤ f1.rest.length :=
          hfull (chunk_length chunk, f1.rest.length) (List.mem_cons_self _ _)
        have hrest := fun c hc => hfull c (List.mem_cons_of_mem _ hc)
        by_cases hty : chunk.take 4 = MTrk
        · rw [if_pos hty] at e0 e1 hrest
          obtain ⟨hst1, hst2⟩ := call_track_start_sim ctx0 ctx1 hs hcb t0 t1 i htr
          by_cases hskip : (call_track_start ctx1 t1 i).1 ≠ 0
          · rw [if_pos (by rw [hst1]; exact hskip)] at e0
            rw [if_pos hskip] at e1 hrest
            exact ih _ _ _ _ (call_track_end_sim ctx0 ctx1 he _ _ i hst2) hrest r0 r1 e0 e1
          · rw [if_neg (by rw [hst1]; exact hskip)] at e0
            rw [if_neg hskip] at e1 hrest
            rcases hr0 : read_track ctx0 f1 (chunk_length chunk) (call_track_start ctx0 t0 i).2
              with _ | q0
            · rw [hr0] at e0
              cases e0
            · rcases hr1 : read_track ctx1 f1 (chunk_length chunk)
                (call_track_start ctx1 t1 i).2 with _ | q1
              · rw [hr1] at e1
                cases e1
              · rw [hr0] at e0
                rw [hr1] at e1 hrest
                dsimp only at e0 e1 hrest
                obtain ⟨hq1, hq2, hq3⟩ := read_track_sim ctx0 ctx1 hm h0 h1 f1
                  (chunk_length chunk) _ _ hst2
                  (lt_trans (chunk_length_lt chunk) (by norm_num)) hhere q0 q1 hr0 hr1
                by_cases hret : q1.ret ≠ 0
                · rw [if_pos (by rw [hq1]; exact hret)] at e0
                  rw [if_pos hret] at e1
                  cases e0
                  cases e1
                  exact ⟨rfl, rfl, hq2⟩
                · rw [if_neg (by rw [hq1]; exact hret)] at e0
                  rw [if_neg hret] at e1 hrest
                  rw [hq3 (by simpa using hret)] at e0
                  exact ih _ _ _ _ (call_track_end_sim ctx0 ctx1 he _ _ i hq2) hrest r0 r1 e0 e1
        · rw [if_neg hty] at e0 e1 hrest
          exact ih _ _ _ _ htr hrest r0 r1 e0 e1
    · rw [if_neg hi] at e0 e1
      cases e0
      cases e1
      exact ⟨rfl, rfl, htr⟩

theorem cook_file_info_strip (ctx : tinysmf_parser_ctx) (hdr : header_chunk) :
    strip_meta (cook_file_info ctx hdr).2 = (cook_file_info ctx hdr).2 := by
  unfold cook_file_info
  dsimp only
  cases ctx.file_info_cb <;> simp [strip_meta, Dispatch.is_meta]

/-! ## Every track-start and the outcome of its track -/

theorem events_no_track_end (evs : List Dispatch) (h : ∀ e ∈ evs, e.is_event = true) (j : Int) :
    Dispatch.track_end j ∉ evs := by
  intro hm
  have := h _ hm
  simp [Dispatch.is_event] at this

/-- Every track-start in the dispatches that the chunk loop returns was either
dispatched before the loop state, or belongs to one pass over a track chunk;
what follows it is decided by the outcome of that pass. -/
theorem chunk_loop_passes_spec (ctx : tinysmf_parser_ctx) (hend : ctx.track_end_cb = true)
    (info : tinysmf_file_info) (n : Nat) :
    ∀ (fuel : Nat) (i : Int) (f : FILE) (trace : List Dispatch) (r : parse_result),
    chunk_loop ctx info n fuel i f trace = some r →
    ∀ pre j post, r.trace = pre ++ .track_start j :: post →
      (∃ c, trace = pre ++ .track_start j :: c) ∨
      ∃ p ∈ chunk_loop_passes ctx n fuel i f trace, p.idx = j ∧ p.before = pre ∧
        p.skip_chunk = (call_track_start ctx pre j).1 ∧
        (p.skip_chunk ≠ 0 → p.decoded = none ∧ ∃ post1, post = .track_end j :: post1) ∧
        (p.skip_chunk = 0 → ∃ t, p.decoded = some t ∧
          (t.ret = 0 → ∃ evs post1, t.trace = pre ++ .track_start j :: evs ∧
            (∀ e ∈ evs, e.is_event = true) ∧ post = evs ++ .track_end j :: post1) ∧
          (t.ret ≠ 0 → r.ret = 1 ∧ r.trace = t.trace ∧ (∀ e ∈ post, e.is_event = true) ∧
            ∀ k, .track_end k ∉ post)) := by
  have hen : ∀ t i, call_track_end ctx t i = t ++ [.track_end i] := by
    intro t i; simp [call_track_end, hend]
  intro fuel
  induction fuel with
  | zero =>
    intro i f trace r e pre j post hsplit
    unfold chunk_loop at e
    by_cases hi : i < n
    · rw [if_pos hi] at e
      cases e
    · rw [if_neg hi] at e
      cases e
      exact Or.inl ⟨post, hsplit⟩
  | succ fuel ih =>
    intro i f trace r e pre j post hsplit
    rw [chunk_loop] at e
    rw [chunk_loop_passes]
    by_cases hi : i < n
    · rw [if_pos hi] at e
      rw [if_pos hi]
      rcases heq : fread f 8 with ⟨_ | chunk, f1⟩
      · rw [heq] at e
        cases e
        exact Or.inl ⟨post, hsplit⟩
      · rw [heq] at e
        dsimp only at e ⊢
        by_cases hty : chunk.take 4 = MTrk
        · rw [if_pos hty] at e
          rw [if_pos hty]
          obtain ⟨l1, h1, hl1⟩ := call_track_start_trace ctx trace i
          by_cases hskip : (call_track_start ctx trace i).1 ≠ 0
          · rw [if_pos hskip] at e
            rw [if_pos hskip]
            obtain ⟨_, ext, hext, _⟩ := chunk_loop_appends ctx info n _ _ _ _ r e
            rcases ih _ _ _ r e pre j post hsplit with ⟨c, hc⟩ | ⟨p, hp, hrest⟩
            · rw [hen, h1, List.append_assoc] at hc
              rcases append_eq_split trace _ pre c _ hc with ⟨c1, g1, _⟩ | ⟨a, g1, g2⟩
              · exact Or.inl ⟨c1, g1⟩
              · right
                obtain ⟨hl, ha, hj, _⟩ := track_start_split i l1 [.track_end i] a c j hl1
                  (by intro k hk; simp at hk) g2
                subst ha
                subst hj
                simp only [List.append_nil] at g1
                refine ⟨_, List.mem_cons_self _ _, rfl, g1.symm, by rw [g1],
                  fun _ => ⟨rfl, ?_⟩, fun h0 => absurd h0 hskip⟩
                have hr : r.trace = pre ++ .track_start j :: (.track_end j :: ext) := by
                  rw [hext, hen, h1, hl, g1]
                  simp
                have := List.append_cancel_left (hr.symm.trans hsplit)
                simp only [List.cons.injEq, true_and] at this
                exact ⟨ext, this.symm⟩
            · exact Or.inr ⟨p, List.mem_cons_of_mem _ hp, hrest⟩
          · rw [if_neg hskip] at e
            rw [if_neg hskip]
            have hzero : (call_track_start ctx trace i).1 = 0 := by
              by_contra hne
              exact hskip hne
            obtain ⟨t, ht, _, _, evs, hevs, hev⟩ :=
              read_track_spec ctx f1 (chunk_length chunk) (call_track_start ctx trace i).2
            rw [ht] at e
            rw [ht]
            dsimp only at e ⊢
            by_cases hret : t.ret ≠ 0
            · rw [if_pos hret] at e
              rw [if_pos hret]
              cases e
              dsimp only at hsplit ⊢
              rw [hevs, h1, List.append_assoc] at hsplit
              rcases append_eq_split trace _ pre post _ hsplit with ⟨c1, g1, _⟩ | ⟨a, g1, g2⟩
              · exact Or.inl ⟨c1, g1⟩
              · right
                obtain ⟨hl, ha, hj, hc2⟩ := track_start_split i l1 evs a post j hl1
                  (events_no_track_start evs hev) g2
                subst ha
                subst hj
                simp only [List.append_nil] at g1
                refine ⟨_, List.mem_cons_self _ _, rfl, g1.symm, by rw [g1],
                  fun h0 => absurd hzero h0, fun _ => ⟨t, rfl, fun h0 => absurd h0 hret,
                    fun _ => ⟨rfl, rfl, ?_, ?_⟩⟩⟩
                · rw [hc2]
                  exact hev
                · rw [hc2]
                  exact events_no_track_end evs hev
            · rw [if_neg hret] at e
              rw [if_neg hret]
              have hret0 : t.ret = 0 := by
                by_contra hne
                exact hret hne
              obtain ⟨_, ext, hext, _⟩ := chunk_loop_appends ctx info n _ _ _ _ r e
              rcases ih _ _ _ r e pre j post hsplit with ⟨c, hc⟩ | ⟨p, hp, hrest⟩
              · rw [hen, hevs, h1, List.append_assoc, List.append_assoc] at hc
                rcases append_eq_split trace _ pre c _ hc with ⟨c1, g1, _⟩ | ⟨a, g1, g2⟩
                · exact Or.inl ⟨c1, g1⟩
                · right
                  obtain ⟨hl, ha, hj, _⟩ := track_start_split i l1 (evs ++ [.track_end i])
                    a c j hl1
                    (by
                      intro k hk
                      rcases List.mem_append.mp hk with hk | hk
                      · exact events_no_track_start evs hev k hk
                      · simp at hk) g2
                  subst ha
                  subst hj
                  simp only [List.append_nil] at g1
                  refine ⟨_, List.mem_cons_self _ _, rfl, g1.symm, by rw [g1],
                    fun h0 => absurd hzero h0, fun _ => ⟨t, rfl, fun _ => ?_,
                      fun h0 => absurd hret0 h0⟩⟩
                  refine ⟨evs, ext, ?_, hev, ?_⟩
                  · rw [hevs, h1, hl, g1]
                    simp
                  · have hr : r.trace
                        = pre ++ .track_start j :: (evs ++ .track_end j :: ext) := by
                      rw [hext, hen, hevs, h1, hl, g1]
                      simp
                    have := List.append_cancel_left (hr.symm.trans hsplit)
                    simp only [List.cons.injEq, true_and] at this
                    exact this.symm
              · exact Or.inr ⟨p, List.mem_cons_of_mem _ hp, hrest⟩
        · rw [if_neg hty] at e
          rw [if_neg hty]
          exact ih _ _ _ r e pre j post hsplit
    · rw [if_neg hi] at e
      cases e
      exact Or.inl ⟨post, hsplit⟩

/-! ## Claims -/

/-- C1. VLQ round trip: for every value `v < 2^28` (whose standard encoding has
`n ≤ 4` bytes) and every budget `avail ≥ n`, `read_vlv` on a stream that begins
with the standard encoding of `v` returns `n`, yields exactly `v`, and leaves
the stream positioned `n` bytes further (just behind the encoding). -/
theorem C1_read_vlv_round_trip (v avail : Nat) (rest : List Nat)
    (hv : v < 2 ^ 28) (havail : (vlq_encode v).length ≤ avail) :
    (vlq_encode v).length ≤ 4 ∧
    read_vlv ⟨vlq_encode v ++ rest⟩ avail
      = ⟨((vlq_encode v).length : Nat), v, ⟨rest⟩⟩ := by
  refine ⟨?_, read_vlv_encode v (by omega) avail rest havail⟩
  have := vlq_cont_length_le v (v / 128) 3 (by omega)
  simp only [vlq_encode, List.length_append, List.length_singleton]
  omega

theorem C1_read_vlv_round_trip_witness :
    (vlq_encode 0x0FFFFFFF).length ≤ 4 ∧
    read_vlv ⟨vlq_encode 0x0FFFFFFF ++ [0x90, 0x40]⟩ 4
      = ⟨((vlq_encode 0x0FFFFFFF).length : Nat), 0x0FFFFFFF, ⟨[0x90, 0x40]⟩⟩ :=
  C1_read_vlv_round_trip 0x0FFFFFFF 4 [0x90, 0x40] (by decide) (by decide)

/-- C2. Running status with zero-velocity normalisation: for every channel
`c < 16`, data bytes `k1, k2 < 0x80` and velocity `1 ≤ v ≤ 0x7F`, a track chunk
of declared length 7 with body `[0x00, 0x90|c, k1, v, 0x00, k2, 0x00]` decodes
successfully (`read_track` returns 0, having consumed the 7 bytes) and the
MIDI-event callback receives exactly two events, in order: bytes
`(0x90|c, k1, v)` with delta 0, then bytes `(0x80|c, k2, 0x00)` with delta 0. -/
theorem C2_running_status_note_off (ctx : tinysmf_parser_ctx) (c k1 k2 v : Nat)
    (rest : List Nat) (trace : List Dispatch)
    (hcb : ctx.midi_event_cb = true)
    (hc : c < 16) (hk1 : k1 < 0x80) (hk2 : k2 < 0x80) (hv1 : 1 ≤ v) (hv : v ≤ 0x7F) :
    read_track ctx ⟨[0x00, 0x90 ||| c, k1, v, 0x00, k2, 0x00] ++ rest⟩ 7 trace
      = some ⟨0, ⟨rest⟩,
          trace ++ [.midi_event ⟨0, [0x90 ||| c, k1, v, 0]⟩,
                    .midi_event ⟨0, [0x80 ||| c, k2, 0x00, 0]⟩]⟩ := by
  obtain ⟨h1, h2, h3, h4, h5⟩ := note_on_status c hc
  have hk1m : k1 % 256 = k1 := Nat.mod_eq_of_lt (by omega)
  have hk2m : k2 % 256 = k2 := Nat.mod_eq_of_lt (by omega)
  have hvm : v % 256 = v := Nat.mod_eq_of_lt (by omega)
  have hk2b : k2 &&& 0x80 = 0 := (and_80_eq_zero k2).mpr (by omega)
  have hv0 : v ≠ 0 := by omega
  have s5 : to_size_t 5 = 5 := by decide
  have s1 : to_size_t 1 = 1 := by decide
  have e7 : (7 : Int).toNat = 7 := rfl
  have i1 := read_track_iter_event ctx 0 (0x90 ||| c) (k1 :: v :: 0 :: k2 :: 0 :: rest) 7 0
    trace (by norm_num) (by decide) (by norm_num)
  have i2 := fun tr => read_track_iter_event ctx 0 k2 (0 :: rest) 3 (0x90 ||| c)
    tr (by norm_num) (by decide) (by norm_num)
  simp only [vlq_encode_zero, List.singleton_append, List.length_singleton] at i1 i2
  have m1 : read_midi_event ctx ⟨k1 :: v :: 0 :: k2 :: 0 :: rest⟩ 5 0 0 (0x90 ||| c)
      = ⟨2, ⟨0 :: k2 :: 0 :: rest⟩, 0x90 ||| c,
          [.midi_event ⟨0, [0x90 ||| c, k1, v, 0]⟩]⟩ := by
    simp [read_midi_event, read_midi_event_data, midi_msg_size, h2, h3, fread, hk1m, hvm, hv0, hcb]
  have m2 : read_midi_event ctx ⟨0 :: rest⟩ 1 0 (0x90 ||| c) k2
      = ⟨1, ⟨rest⟩, 0x90 ||| c,
          [.midi_event ⟨0, [0x80 ||| c, k2, 0, 0]⟩]⟩ := by
    simp [read_midi_event, read_midi_event_data, midi_msg_size, hk2b, h3, h4, fread, hcb]
  have r1 : ¬ (0x90 ||| c = 0xF0 ∨ 0x90 ||| c = 0xF7) := by omega
  have r2 : ¬ (0xF1 ≤ 0x90 ||| c ∧ 0x90 ||| c ≤ 0xF6) := by omega
  have r3 : ¬ (0x90 ||| c = 0xFF) := by omega
  have q1 : ¬ (k2 = 0xF0 ∨ k2 = 0xF7) := by omega
  have q2 : ¬ (0xF1 ≤ k2 ∧ k2 ≤ 0xF6) := by omega
  have q3 : ¬ (k2 = 0xFF) := by omega
  simp only [read_track, e7, read_track_loop, List.cons_append, List.nil_append, i1, h1]
  simp [read_track_switch, r1, r2, r3, s5, m1, i2, hk2m, q1, q2, q3, s1, m2]

theorem C2_running_status_note_off_witness :
    read_track ctx_all ⟨[0x00, 0x90 ||| 0, 0x40, 0x7F, 0x00, 0x40, 0x00] ++ []⟩ 7 []
      = some ⟨0, ⟨[]⟩,
          [] ++ [.midi_event ⟨0, [0x90 ||| 0, 0x40, 0x7F, 0]⟩,
                 .midi_event ⟨0, [0x80 ||| 0, 0x40, 0x00, 0]⟩]⟩ :=
  C2_running_status_note_off ctx_all 0 0x40 0x40 0x7F [] [] rfl (by decide) (by decide)
    (by decide) (by decide) (by decide)

/-- C3. Unknown chunks are skipped and not counted.
(1) In the chunk loop, at every track index `i` still below `num_tracks`, a
chunk whose tag is not `"MTrk"` (any declared length, followed by that many
bytes) is passed over: the loop goes on behind it with the same index and the
same dispatches, so what it returns and dispatches is what it would without
the chunk.  (2) For a whole file, inserting such a chunk right behind the
header changes neither the return value nor the dispatches.  (3) A header with
`num_tracks = 1`, then an unknown chunk of length 10, then one `MTrk` chunk
that is skipped on request or that `read_track` accepts, returns 0 and gives
exactly one track-start and one track-end, both with index 0. -/
theorem C3_unknown_chunk_skipped :
    (∀ (ctx : tinysmf_parser_ctx) (info : tinysmf_file_info) (n fuel : Nat) (i : Int)
      (t0 t1 t2 t3 : Nat) (payload rest : List Nat) (trace : List Dispatch),
      i < n → [t0 % 256, t1 % 256, t2 % 256, t3 % 256] ≠ MTrk → payload.length < 2 ^ 32 →
      chunk_loop ctx info n (fuel + 1) i
          ⟨[t0, t1, t2, t3] ++ be32 payload.length ++ (payload ++ rest)⟩ trace
        = chunk_loop ctx info n fuel i ⟨rest⟩ trace) ∧
    (∀ (ctx : tinysmf_parser_ctx) (l0 l1 l2 l3 f0 f1 n0 n1 d0 d1 t0 t1 t2 t3 : Nat)
      (payload rest : List Nat),
      f0 < 256 → f1 < 256 → n0 < 256 → n1 < 256 → d0 < 256 → d1 < 256 →
      [t0 % 256, t1 % 256, t2 % 256, t3 % 256] ≠ MTrk → payload.length < 2 ^ 32 →
      ∃ r r1,
        tinysmf_parse_stream ctx ⟨MThd ++ [l0, l1, l2, l3, f0, f1, n0, n1, d0, d1] ++ rest⟩
          = some r ∧
        tinysmf_parse_stream ctx ⟨MThd ++ [l0, l1, l2, l3, f0, f1, n0, n1, d0, d1] ++
            ([t0, t1, t2, t3] ++ be32 payload.length ++ (payload ++ rest))⟩ = some r1 ∧
        r1.ret = r.ret ∧ r1.trace = r.trace ∧ r1.file_info = r.file_info) ∧
    (∀ (ctx : tinysmf_parser_ctx) (cb : List Dispatch → Int → Int)
      (l0 l1 l2 l3 f0 f1 d0 d1 t0 t1 t2 t3 len : Nat) (payload rest : List Nat),
      ctx.track_start_cb = some cb → ctx.track_end_cb = true →
      f0 < 256 → f1 < 256 → d0 < 256 → d1 < 256 →
      [t0 % 256, t1 % 256, t2 % 256, t3 % 256] ≠ MTrk → payload.length = 10 → len < 2 ^ 32 →
      (∀ tr, cb tr 0 ≠ 0 ∨ ∃ t, read_track ctx ⟨rest⟩ len (tr ++ [.track_start 0]) = some t ∧
        t.ret = 0) →
      ∃ r fi evs,
        tinysmf_parse_stream ctx ⟨MThd ++ [l0, l1, l2, l3, f0, f1, 0, 1, d0, d1] ++
            ([t0, t1, t2, t3] ++ be32 10 ++ (payload ++ (MTrk ++ be32 len ++ rest)))⟩ = some r ∧
        r.ret = 0 ∧ r.trace = fi ++ [.track_start 0] ++ evs ++ [.track_end 0] ∧
        (∀ e ∈ fi, e.is_file_info = true) ∧ (∀ e ∈ evs, e.is_event = true)) := by
  have h1 : ∀ (ctx : tinysmf_parser_ctx) (info : tinysmf_file_info) (n fuel : Nat) (i : Int)
      (t0 t1 t2 t3 : Nat) (payload rest : List Nat) (trace : List Dispatch),
      i < n → [t0 % 256, t1 % 256, t2 % 256, t3 % 256] ≠ MTrk → payload.length < 2 ^ 32 →
      chunk_loop ctx info n (fuel + 1) i
          ⟨[t0, t1, t2, t3] ++ be32 payload.length ++ (payload ++ rest)⟩ trace
        = chunk_loop ctx info n fuel i ⟨rest⟩ trace := by
    intro ctx info n fuel i t0 t1 t2 t3 payload rest trace hi htag hlen
    rw [chunk_loop_unknown ctx info n fuel i t0 t1 t2 t3 payload.length (payload ++ rest) trace
      hi htag hlen]
    simp
  refine ⟨h1, ?_, ?_⟩
  · intro ctx l0 l1 l2 l3 f0 f1 n0 n1 d0 d1 t0 t1 t2 t3 payload rest hf0 hf1 hn0 hn1 hd0 hd1
      htag hlen
    obtain ⟨info, hp, -⟩ :=
      parse_good_header ctx l0 l1 l2 l3 f0 f1 n0 n1 d0 d1 hf0 hf1 hn0 hn1 hd0 hd1
    rw [hp rest, hp ([t0, t1, t2, t3] ++ be32 payload.length ++ (payload ++ rest))]
    by_cases hi : (0 : Int) < ((256 * n0 + n1 : Nat) : Int)
    · obtain ⟨r, hr⟩ := chunk_loop_total ctx info (256 * n0 + n1) (14 + rest.length) 0 ⟨rest⟩
        (if ctx.file_info_cb then [.file_info info] else []) (by dsimp only; omega)
      refine ⟨r, r, hr, ?_, rfl, rfl, rfl⟩
      have hfuel : 14 + ([t0, t1, t2, t3] ++ be32 payload.length ++ (payload ++ rest)).length
          = (13 + 8 + payload.length + rest.length) + 1 := by
        simp [be32]; omega
      rw [hfuel, h1 ctx info _ _ 0 t0 t1 t2 t3 payload rest _ hi htag hlen, ← hr]
      exact chunk_loop_fuel_irrel ctx info _ _ _ 0 ⟨rest⟩ _ (by dsimp only; omega)
        (by dsimp only; omega)
    · rw [chunk_loop_done ctx info _ _ 0 _ _ hi, chunk_loop_done ctx info _ _ 0 _ _ hi]
      exact ⟨_, _, rfl, rfl, rfl, rfl, rfl⟩
  · intro ctx cb l0 l1 l2 l3 f0 f1 d0 d1 t0 t1 t2 t3 len payload rest hcb hend hf0 hf1 hd0 hd1
      htag hpl hlen hvalid
    obtain ⟨info, hp, -⟩ :=
      parse_good_header ctx l0 l1 l2 l3 f0 f1 0 1 d0 d1 hf0 hf1 (by norm_num) (by norm_num)
        hd0 hd1
    rw [hp]
    have hfuel : 14 + ([t0, t1, t2, t3] ++ be32 10 ++ (payload ++ (MTrk ++ be32 len ++ rest))).length
        = (rest.length + 38) + 1 + 1 := by
      simp [be32, MTrk, hpl]; omega
    have h10 : (10 : Nat) = payload.length := hpl.symm
    have hn : (256 * 0 + 1 : Nat) = 1 := rfl
    rw [hfuel, hn, h10, h1 ctx info 1 _ 0 t0 t1 t2 t3 payload _ _ (by norm_num) htag
      (by rw [hpl]; norm_num),
      chunk_loop_track ctx info 1 _ 0 len rest _ (by norm_num) hlen]
    have hst : ∀ tr, call_track_start ctx tr 0 = (cb tr 0, tr ++ [.track_start 0]) := by
      intro tr; simp [call_track_start, hcb]
    have hen : ∀ tr, call_track_end ctx tr 0 = tr ++ [.track_end 0] := by
      intro tr; simp [call_track_end, hend]
    have hfi : ∀ e ∈ (if ctx.file_info_cb then [Dispatch.file_info info] else []),
        e.is_file_info = true := by
      intro e he
      split at he
      · simp at he; subst he; rfl
      · simp at he
    have hdone : ∀ f tr, chunk_loop ctx info 1 (rest.length + 38) (0 + 1) f tr
        = some ⟨0, f, some info, tr⟩ :=
      fun f tr => chunk_loop_done ctx info 1 _ _ f tr (by norm_num)
    simp only [hst, hen, hdone]
    generalize (if ctx.file_info_cb then [Dispatch.file_info info] else []) = tr0 at hfi ⊢
    by_cases hskip : cb tr0 0 ≠ 0
    · rw [if_pos hskip]
      exact ⟨_, tr0, [], rfl, rfl, by simp, hfi, by simp⟩
    · rw [if_neg hskip]
      rcases hvalid tr0 with hv | hv
      · exact absurd hv hskip
      · obtain ⟨t, ht, hret⟩ := hv
        obtain ⟨t1, ht1, _, _, evs, hevs, hall⟩ := read_track_spec ctx ⟨rest⟩ len
          (tr0 ++ [.track_start 0])
        rw [ht] at ht1
        cases ht1
        rw [ht]
        dsimp only
        rw [if_neg (by simp [hret])]
        exact ⟨_, tr0, evs, rfl, rfl, by dsimp only; rw [hevs], hfi, hall⟩

theorem C3_unknown_chunk_skipped_witness :
    ∃ r fi evs,
      tinysmf_parse_stream ctx_all ⟨MThd ++ [0, 0, 0, 6, 0, 1, 0, 1, 0x01, 0xE0] ++
          ([0x58, 0x46, 0x49, 0x48] ++ be32 10 ++ ([1, 2, 3, 4, 5, 6, 7, 8, 9, 10] ++
            (MTrk ++ be32 4 ++ [0x00, 0xFF, 0x2F, 0x00])))⟩ = some r ∧
      r.ret = 0 ∧ r.trace = fi ++ [.track_start 0] ++ evs ++ [.track_end 0] ∧
      (∀ e ∈ fi, e.is_file_info = true) ∧ (∀ e ∈ evs, e.is_event = true) :=
  C3_unknown_chunk_skipped.2.2 ctx_all (fun _ _ => TINYSMF_PARSE_CHUNK) 0 0 0 6 0 1 0x01 0xE0
    0x58 0x46 0x49 0x48 4 [1, 2, 3, 4, 5, 6, 7, 8, 9, 10] [0x00, 0xFF, 0x2F, 0x00] rfl rfl
    (by decide) (by decide) (by decide) (by decide) (by decide) rfl (by decide)
    (fun tr => Or.inr ⟨_, read_track_end_of_track ctx_all (tr ++ [.track_start 0]) rfl, rfl⟩)

/-- C4. Skip directive.
(1) For every file and every track-start dispatch at which the callback
returned `TINYSMF_SKIP_CHUNK`: the dispatch that follows it, if any, is no
meta or MIDI event, and when the track-end callback is registered it is the
track-end of the same index; so nothing is dispatched between the two.
(2) In the chunk loop, a skipped track chunk of declared length `len` leaves
the stream `len` bytes behind the chunk header, where the next chunk header is
read, with the track index advanced by one. -/
theorem C4_skip_directive :
    (∀ (ctx : tinysmf_parser_ctx) (cb : List Dispatch → Int → Int) (f : FILE),
      ctx.track_start_cb = some cb →
      ∃ r, tinysmf_parse_stream ctx f = some r ∧
        ∀ pre i post, r.trace = pre ++ .track_start i :: post → cb pre i = TINYSMF_SKIP_CHUNK →
          (∀ e post1, post = e :: post1 → e.is_event = false) ∧
          (ctx.track_end_cb = true → ∃ post1, post = .track_end i :: post1)) ∧
    (∀ (ctx : tinysmf_parser_ctx) (cb : List Dispatch → Int → Int) (info : tinysmf_file_info)
      (n fuel : Nat) (i : Int) (len : Nat) (rest : List Nat) (trace : List Dispatch),
      ctx.track_start_cb = some cb → cb trace i = TINYSMF_SKIP_CHUNK → i < n → len < 2 ^ 32 →
      chunk_loop ctx info n (fuel + 1) i ⟨MTrk ++ be32 len ++ rest⟩ trace
        = chunk_loop ctx info n fuel (i + 1) ⟨rest.drop len⟩
            (call_track_end ctx (trace ++ [.track_start i]) i)) := by
  refine ⟨?_, ?_⟩
  · intro ctx cb f hcb
    obtain ⟨r, hr⟩ := parse_total ctx f
    refine ⟨r, hr, ?_⟩
    intro pre i post hsplit hskip
    have hne : cb pre i ≠ 0 := by rw [hskip]; decide
    rcases parse_cases ctx f r hr with ⟨_, htr, _⟩ | ⟨info, n, fuel, f1, hloop⟩
    · rw [htr] at hsplit
      exact absurd hsplit (by simp)
    · have h0 : skip_respected cb ctx.track_end_cb
          (if ctx.file_info_cb then [Dispatch.file_info info] else []) := by
        intro pre j post hh
        exact absurd hh (no_track_start_initial ctx info pre post j)
      exact chunk_loop_skip_respected ctx cb hcb info n fuel 0 f1 _ r hloop h0 pre i post hsplit
        hne
  · intro ctx cb info n fuel i len rest trace hcb hskip hi hlen
    rw [chunk_loop_track ctx info n fuel i len rest trace hi hlen,
      call_track_start_some ctx cb hcb]
    dsimp only
    rw [if_pos (by rw [hskip]; decide)]

theorem C4_skip_directive_witness :
    ∃ r, tinysmf_parse_stream ctx_skip ⟨MThd ++ [0, 0, 0, 6, 0, 1, 0, 2, 0x01, 0xE0] ++
        (MTrk ++ be32 4 ++ [0x00, 0x90, 0x40, 0x7F]) ++
        (MTrk ++ be32 4 ++ [0x00, 0xFF, 0x2F, 0x00])⟩ = some r ∧
      ∀ pre i post, r.trace = pre ++ .track_start i :: post →
        (fun (_ : List Dispatch) (_ : Int) => TINYSMF_SKIP_CHUNK) pre i = TINYSMF_SKIP_CHUNK →
        (∀ e post1, post = e :: post1 → e.is_event = false) ∧
        (ctx_skip.track_end_cb = true → ∃ post1, post = .track_end i :: post1) :=
  C4_skip_directive.1 ctx_skip (fun _ _ => TINYSMF_SKIP_CHUNK) _ rfl

/-- C5. Malformed header: for every stream that has fewer than 14 bytes or
whose first 4 bytes differ from `"MThd"`, `tinysmf_parse_stream` returns an
error (non-zero, here -1) and invokes none of the five callbacks. -/
theorem C5_malformed_header (ctx : tinysmf_parser_ctx) (f : FILE)
    (h : f.rest.length < 14 ∨ (f.rest.take 4).map (fun b => b % 256) ≠ MThd) :
    ∃ r, tinysmf_parse_stream ctx f = some r ∧ r.ret ≠ 0 ∧ r.trace = [] := by
  obtain ⟨f1, hf1⟩ := parse_bad_header ctx f h
  exact ⟨_, hf1, by simp, rfl⟩

theorem C5_malformed_header_witness :
    ((FILE.mk [0x52, 0x49, 0x46, 0x46, 0, 0, 0, 6, 0, 1, 0, 1, 1, 0xE0, 0x4D, 0x54]).rest.length < 14
      ∨ ((FILE.mk [0x52, 0x49, 0x46, 0x46, 0, 0, 0, 6, 0, 1, 0, 1, 1, 0xE0, 0x4D,
            0x54]).rest.take 4).map (fun b => b % 256) ≠ MThd) ∧
    ∃ r, tinysmf_parse_stream ctx_all
        ⟨[0x52, 0x49, 0x46, 0x46, 0, 0, 0, 6, 0, 1, 0, 1, 1, 0xE0, 0x4D, 0x54]⟩ = some r ∧
      r.ret ≠ 0 ∧ r.trace = [] :=
  ⟨Or.inr (by decide), C5_malformed_header ctx_all _ (Or.inr (by decide))⟩

/-- C6. Header decoding: for every stream that begins with a 14-byte header
whose tag is `"MThd"`, the `file_info` seen by the file-info callback has
`format` equal to the big-endian value of bytes 8..9 and `num_tracks` equal to
the big-endian value of bytes 10..11; when the top bit of byte 12 is clear the
division type is PPQN and `ppqn` is the big-endian value of bytes 12..13.  The
file-info callback is invoked exactly once, before every other callback. -/
theorem C6_header_decoding (ctx : tinysmf_parser_ctx)
    (l0 l1 l2 l3 f0 f1 n0 n1 d0 d1 : Nat) (tail : List Nat)
    (hcb : ctx.file_info_cb = true)
    (hf0 : f0 < 256) (hf1 : f1 < 256) (hn0 : n0 < 256) (hn1 : n1 < 256)
    (hd0 : d0 < 256) (hd1 : d1 < 256) :
    ∃ r info t,
      tinysmf_parse_stream ctx ⟨MThd ++ [l0, l1, l2, l3, f0, f1, n0, n1, d0, d1] ++ tail⟩
        = some r ∧
      r.file_info = some info ∧
      r.trace = .file_info info :: t ∧ (∀ e ∈ t, e.is_file_info = false) ∧
      info.format = 256 * f0 + f1 ∧ info.num_tracks = 256 * n0 + n1 ∧
      (d0 < 128 → info.division_type = .SMF_PPQN ∧ info.division = .ppqn (256 * d0 + d1)) := by
  obtain ⟨info, hp, hfmt, hnt, hppqn, _⟩ :=
    parse_good_header ctx l0 l1 l2 l3 f0 f1 n0 n1 d0 d1 hf0 hf1 hn0 hn1 hd0 hd1
  obtain ⟨r, hr⟩ := chunk_loop_total ctx info (256 * n0 + n1) (14 + tail.length) 0 ⟨tail⟩
    (if ctx.file_info_cb then [.file_info info] else []) (by dsimp only; omega)
  obtain ⟨hfi, ext, hext, hno⟩ := chunk_loop_appends ctx info _ _ _ _ _ r hr
  refine ⟨r, info, ext, by rw [hp tail, hr], hfi, ?_, hno, hfmt, hnt, hppqn⟩
  rw [hext, hcb]
  simp

theorem C6_header_decoding_witness :
    ctx_all.file_info_cb = true ∧ (0 : Nat) < 256 ∧ (1 : Nat) < 256 ∧ (0 : Nat) < 256 ∧
    (1 : Nat) < 256 ∧ (0x01 : Nat) < 256 ∧ (0xE0 : Nat) < 256 ∧
    ∃ r info t,
      tinysmf_parse_stream ctx_all
        ⟨MThd ++ [0, 0, 0, 6, 0, 1, 0, 1, 0x01, 0xE0] ++ [0x4D, 0x54, 0x72, 0x6B, 0, 0, 0, 0]⟩
        = some r ∧
      r.file_info = some info ∧
      r.trace = .file_info info :: t ∧ (∀ e ∈ t, e.is_file_info = false) ∧
      info.format = 256 * (0 : Nat) + (1 : Nat) ∧ info.num_tracks = 256 * (0 : Nat) + (1 : Nat) ∧
      ((0x01 : Nat) < 128 → info.division_type = .SMF_PPQN ∧
        info.division = .ppqn (256 * (0x01 : Nat) + (0xE0 : Nat))) :=
  ⟨rfl, by decide, by decide, by decide, by decide, by decide, by decide,
    C6_header_decoding ctx_all 0 0 0 6 0 1 0 1 0x01 0xE0 [0x4D, 0x54, 0x72, 0x6B, 0, 0, 0, 0] rfl
      (by decide) (by decide) (by decide) (by decide) (by decide) (by decide)⟩

/-- C7 (evaluation at the failing input). For the header with division bytes
`0xE2 0x50` the code stores SMPTE with `ticks = 80` but `format = -226`: the
negation of the high byte read as an unsigned number, not the signed reading
`-30` of that byte. -/
theorem C7_smpte_0xE250_evaluates :
    tinysmf_parse_stream ctx_all ⟨MThd ++ [0, 0, 0, 6, 0, 1, 0, 0, 0xE2, 0x50]⟩
      = some ⟨0, ⟨[]⟩, some ⟨1, 0, .SMF_SMPTE, .smpte (-226) 80⟩,
          [.file_info ⟨1, 0, .SMF_SMPTE, .smpte (-226) 80⟩]⟩ := by
  decide

/-- C8. Empty-payload meta event: for every delta `d`, every meta type byte `t`
and every pass through the loop body of `read_track` in which the event
`[VLQ(d), 0xFF, t, 0x00]` lies within the remaining budget, the registered
meta-event callback is invoked exactly once, with `delta = d`, `meta_type = t`
and `nbytes = 0` (empty payload), and the budget is charged 2 bytes beyond the
delta and the `0xFF` byte; the running-status register is left alone. -/
theorem C8_empty_meta_event (ctx : tinysmf_parser_ctx) (d t : Nat) (rest : List Nat)
    (avail : Int) (sb : Nat) (trace : List Dispatch)
    (hcb : ctx.meta_event_cb = true) (hd : d < 2 ^ 32) (ht : t < 256)
    (hav : ((vlq_encode d).length : Int) + 3 ≤ avail) (hav1 : avail < 2 ^ 63) :
    read_track_iter ctx ⟨⟨vlq_encode d ++ [0xFF, t, 0x00] ++ rest⟩, avail, sb, trace⟩
      = .next ⟨⟨rest⟩, avail - (vlq_encode d).length - 1 - 2, sb,
          trace ++ [.meta_event ⟨d, t, 0, .unset, []⟩]⟩ := by
  have hi := read_track_iter_event ctx d 0xFF (t :: 0 :: rest) avail sb trace hd (by omega)
    (by omega)
  obtain ⟨A, hA, hA2⟩ : ∃ A : Nat, avail - (vlq_encode d).length - 1 = (A : Int) ∧ 2 ≤ A :=
    ⟨(avail - (vlq_encode d).length - 1).toNat, by omega, by omega⟩
  have hs : to_size_t (A : Int) = A := by
    rw [to_size_t_of_nonneg _ (by omega) (by omega)]; simp
  have hv := read_vlv_zero rest A (by omega)
  have hm : read_meta_event ctx ⟨t :: 0 :: rest⟩ A d
      = ⟨2, ⟨rest⟩, [.meta_event ⟨d, t, 0, .unset, []⟩]⟩ := by
    simp [read_meta_event, fread_u8, hv, hcb, Nat.mod_eq_of_lt ht]
  simp only [List.append_assoc, List.cons_append, List.nil_append] at hi ⊢
  rw [hi, hA]
  simp only [read_track_switch, hs, hm]
  simp

theorem C8_empty_meta_event_witness :
    ctx_all.meta_event_cb = true ∧ (0x80 : Nat) < 2 ^ 32 ∧ (0x2F : Nat) < 256 ∧
    ((vlq_encode 0x80).length : Int) + 3 ≤ 5 ∧ (5 : Int) < 2 ^ 63 ∧
    read_track_iter ctx_all ⟨⟨vlq_encode 0x80 ++ [0xFF, 0x2F, 0x00] ++ []⟩, 5, 0x90, []⟩
      = .next ⟨⟨[]⟩, 5 - (vlq_encode 0x80).length - 1 - 2, 0x90,
          [] ++ [.meta_event ⟨0x80, 0x2F, 0, .unset, []⟩]⟩ :=
  ⟨rfl, by decide, by decide, by decide, by decide,
    C8_empty_meta_event ctx_all 0x80 0x2F [] 5 0x90 [] rfl (by decide) (by decide) (by decide)
      (by decide)⟩

/-- C9 (as stated, refuted). A track whose first type byte is a data byte
with no running status fails to decode: track-start 0 is dispatched, the
parser returns 1, and no track-end is dispatched. -/
theorem C9_track_end_unconditional_counterexample :
    ∃ r, tinysmf_parse_stream ctx_all ⟨MThd ++ [0, 0, 0, 6, 0, 1, 0, 1, 0x01, 0xE0] ++
        (MTrk ++ be32 2 ++ [0x00, 0x40])⟩ = some r ∧
      r.ret = 1 ∧ Dispatch.track_start 0 ∈ r.trace ∧ Dispatch.track_end 0 ∉ r.trace := by
  refine ⟨⟨1, ⟨[]⟩, some ⟨1, 1, .SMF_PPQN, .ppqn 480⟩,
    [.file_info ⟨1, 1, .SMF_PPQN, .ppqn 480⟩, .track_start 0]⟩, by decide, rfl, by decide,
    by decide⟩

/-- C9 (amended). With the track-end callback registered, for every input:
every track-start dispatch of an index `i` belongs to one pass `p` of the
chunk loop over a track chunk, made after the dispatches before it, with
`skip_chunk` the answer of the track-start callback.  If the track was skipped
(`skip_chunk` not 0, `read_track` not called), track-end of `i` is dispatched
next.  If it was decoded successfully (`read_track` returned 0), the events of
the track and then track-end of `i` are dispatched next.  If its decoding
failed (`read_track` returned another value), `tinysmf_parse_stream` returns 1
at once: the dispatches end with those of `read_track`, and only meta and MIDI
events, no track-end, follow the track-start. -/
theorem C9_track_end_unless_decode_fails (ctx : tinysmf_parser_ctx) (f : FILE)
    (hend : ctx.track_end_cb = true) :
    ∃ r, tinysmf_parse_stream ctx f = some r ∧
      ∀ pre i post, r.trace = pre ++ .track_start i :: post →
        ∃ p ∈ tinysmf_parse_stream_passes ctx f, p.idx = i ∧ p.before = pre ∧
          p.skip_chunk = (call_track_start ctx pre i).1 ∧
          (p.skip_chunk ≠ 0 → p.decoded = none ∧ ∃ post1, post = .track_end i :: post1) ∧
          (p.skip_chunk = 0 → ∃ t, p.decoded = some t ∧
            (t.ret = 0 → ∃ evs post1, t.trace = pre ++ .track_start i :: evs ∧
              (∀ e ∈ evs, e.is_event = true) ∧ post = evs ++ .track_end i :: post1) ∧
            (t.ret ≠ 0 → r.ret = 1 ∧ r.trace = t.trace ∧ (∀ e ∈ post, e.is_event = true) ∧
              ∀ k, .track_end k ∉ post)) := by
  obtain ⟨r, hr⟩ := parse_total ctx f
  refine ⟨r, hr, ?_⟩
  intro pre i post hsplit
  unfold tinysmf_parse_stream at hr
  unfold tinysmf_parse_stream_passes
  rcases heq : fread f 14 with ⟨_ | h, f1⟩
  · rw [heq] at hr
    cases hr
    exact absurd hsplit (by simp)
  · rw [heq] at hr
    dsimp only at hr ⊢
    by_cases hty : h.take 4 ≠ MThd
    · rw [if_pos hty] at hr
      cases hr
      exact absurd hsplit (by simp)
    · rw [if_neg hty] at hr
      rw [if_neg hty]
      rcases chunk_loop_passes_spec ctx hend _ _ _ _ _ _ r hr pre i post hsplit with
        ⟨c, hc⟩ | hp
      · dsimp only [cook_file_info] at hc
        exact absurd hc (no_track_start_initial ctx _ pre c i)
      · exact hp

theorem C9_track_end_unless_decode_fails_witness :
    ctx_all.track_end_cb = true ∧
    (tinysmf_parse_stream_passes ctx_all ⟨MThd ++ [0, 0, 0, 6, 0, 1, 0, 2, 0x01, 0xE0] ++
        (MTrk ++ be32 4 ++ [0x00, 0xFF, 0x2F, 0x00]) ++ (MTrk ++ be32 2 ++ [0x00, 0x40])⟩).map
      (fun p => (p.idx, p.skip_chunk, p.decoded.map (fun t => t.ret)))
      = [(0, 0, some 0), (1, 0, some (-1))] ∧
    ∃ r, tinysmf_parse_stream ctx_all ⟨MThd ++ [0, 0, 0, 6, 0, 1, 0, 2, 0x01, 0xE0] ++
        (MTrk ++ be32 4 ++ [0x00, 0xFF, 0x2F, 0x00]) ++ (MTrk ++ be32 2 ++ [0x00, 0x40])⟩
        = some r ∧
      ∀ pre i post, r.trace = pre ++ .track_start i :: post →
        ∃ p ∈ tinysmf_parse_stream_passes ctx_all
            ⟨MThd ++ [0, 0, 0, 6, 0, 1, 0, 2, 0x01, 0xE0] ++
              (MTrk ++ be32 4 ++ [0x00, 0xFF, 0x2F, 0x00]) ++ (MTrk ++ be32 2 ++ [0x00, 0x40])⟩,
          p.idx = i ∧ p.before = pre ∧
          p.skip_chunk = (call_track_start ctx_all pre i).1 ∧
          (p.skip_chunk ≠ 0 → p.decoded = none ∧ ∃ post1, post = .track_end i :: post1) ∧
          (p.skip_chunk = 0 → ∃ t, p.decoded = some t ∧
            (t.ret = 0 → ∃ evs post1, t.trace = pre ++ .track_start i :: evs ∧
              (∀ e ∈ evs, e.is_event = true) ∧ post = evs ++ .track_end i :: post1) ∧
            (t.ret ≠ 0 → r.ret = 1 ∧ r.trace = t.trace ∧ (∀ e ∈ post, e.is_event = true) ∧
              ∀ k, .track_end k ∉ post)) :=
  ⟨rfl, by decide, C9_track_end_unless_decode_fails ctx_all _ rfl⟩

/-- C11 (evaluation at the failing input). A track chunk of declared length 1
whose body `[0x00]` is followed in the file by `0x90 0x40 0x7F`: the type byte
and both data bytes lie behind the declared end of the chunk, yet the MIDI
event is dispatched before `read_track` returns -1 (and
`tinysmf_parse_stream` returns 1). -/
theorem C11_event_behind_chunk_end_dispatched :
    read_track ctx_all ⟨[0x00, 0x90, 0x40, 0x7F]⟩ 1 []
      = some ⟨-1, ⟨[]⟩, [.midi_event ⟨0, [0x90, 0x40, 0x7F, 0]⟩]⟩ ∧
    tinysmf_parse_stream ctx_all ⟨MThd ++ [0, 0, 0, 6, 0, 1, 0, 1, 0x01, 0xE0] ++
        (MTrk ++ be32 1 ++ [0x00, 0x90, 0x40, 0x7F])⟩
      = some ⟨1, ⟨[]⟩, some ⟨1, 1, .SMF_PPQN, .ppqn 480⟩,
          [.file_info ⟨1, 1, .SMF_PPQN, .ppqn 480⟩, .track_start 0,
            .midi_event ⟨0, [0x90, 0x40, 0x7F, 0]⟩]⟩ := by
  constructor <;> decide

/-- C12. Explicit status form.
(1) For every input, every MIDI event passed to the MIDI-event callback has
`bytes[0] >= 0x80`, with the high bit set.  (2) The running-status register is
at all times 0 or a byte with the high bit set: `read_track` starts it at 0
and every `switch` keeps this.  (3) A running-status continuation (type byte
`t < 0x80`) is dispatched with `bytes[0]` equal to the register, up to the
rewrite of note-on to note-off, and `bytes[1]` equal to `t`; it leaves the
register alone. -/
theorem C12_explicit_status_form :
    (∀ (ctx : tinysmf_parser_ctx) (f : FILE),
      ∃ r, tinysmf_parse_stream ctx f = some r ∧
        ∀ ev, Dispatch.midi_event ev ∈ r.trace →
          0x80 ≤ ev.bytes.getD 0 0 ∧ ev.bytes.getD 0 0 &&& 0x80 ≠ 0) ∧
    (∀ (ctx : tinysmf_parser_ctx) (f : FILE) (avail res : Int) (delta sb : Nat)
      (trace : List Dispatch) (t : Nat) (s1 : track_state),
      t < 256 → (sb = 0 ∨ (0x80 ≤ sb ∧ sb < 256)) →
      read_track_switch ctx f avail res delta sb trace t = .next s1 →
      s1.status_buf = 0 ∨ (0x80 ≤ s1.status_buf ∧ s1.status_buf < 256)) ∧
    (∀ (ctx : tinysmf_parser_ctx) (f : FILE) (avail delta sb t : Nat), t < 0x80 →
      (read_midi_event ctx f avail delta sb t).status_buf = sb ∧
      ∀ e ∈ (read_midi_event ctx f avail delta sb t).out,
        ∃ b0 bs, e = .midi_event ⟨delta, b0 :: t :: bs⟩ ∧
          (b0 = sb ∨ (sb &&& 0xF0 = 0x90 ∧ b0 = sb &&& 0xEF))) := by
  refine ⟨?_, ?_, ?_⟩
  · intro ctx f
    obtain ⟨r, hr⟩ := parse_total ctx f
    refine ⟨r, hr, ?_⟩
    intro ev hev
    have h := parse_status_ok ctx f r hr _ hev
    simp only [Dispatch.status_ok] at h
    have h80 : 0x80 ≤ ev.bytes.getD 0 0 := by omega
    exact ⟨h80, status_high_bit _ (by omega) h80⟩
  · intro ctx f avail res delta sb trace t s1 ht hsb h
    rcases read_track_switch_register ctx f avail res delta sb trace t ht s1 h with h0 | h0 | h0
    · exact Or.inl h0
    · rw [h0]; exact hsb
    · rw [h0.1]; exact Or.inr ⟨h0.2, ht⟩
  · intro ctx f avail delta sb t ht
    obtain ⟨hout, hreg⟩ := read_midi_event_out ctx f avail delta sb t (by omega)
    refine ⟨by rw [hreg, if_neg (by omega)], ?_⟩
    intro e he
    obtain ⟨b0, bs, he1, hcase⟩ := hout e he
    rcases hcase with ⟨h80, _⟩ | ⟨_, _, hb0, hhead⟩
    · omega
    · cases bs with
      | nil => simp at hhead
      | cons x bs1 =>
        simp only [List.head?_cons, Option.some.injEq] at hhead
        subst hhead
        exact ⟨b0, bs1, he1, hb0⟩

theorem C12_explicit_status_form_witness :
    ∃ r, tinysmf_parse_stream ctx_all ⟨MThd ++ [0, 0, 0, 6, 0, 1, 0, 1, 0x01, 0xE0] ++
        (MTrk ++ be32 7 ++ [0x00, 0x90, 0x40, 0x7F, 0x00, 0x40, 0x00])⟩ = some r ∧
      ∀ ev, Dispatch.midi_event ev ∈ r.trace →
        0x80 ≤ ev.bytes.getD 0 0 ∧ ev.bytes.getD 0 0 &&& 0x80 ≠ 0 :=
  C12_explicit_status_form.1 ctx_all _

/-- C13 (as stated, refuted). With a budget of 2 and a stream whose first two
bytes both have the top bit set, `read_vlv` returns 2, not a negative result;
with a budget of 0 it returns 0 without reading. -/
theorem C13_vlq_budget_exhaustion_counterexample :
    read_vlv ⟨[0x81, 0x80, 0x00]⟩ 2 = ⟨2, 0x80, ⟨[0x00]⟩⟩ ∧
    ¬ (read_vlv ⟨[0x81, 0x80, 0x00]⟩ 2).ret < 0 ∧
    read_vlv ⟨[0x81, 0x80, 0x00]⟩ 0 = ⟨0, 0, ⟨[0x81, 0x80, 0x00]⟩⟩ ∧
    ¬ (read_vlv ⟨[0x81, 0x80, 0x00]⟩ 0).ret < 0 := by
  decide

/-- C13 (amended). For every budget `avail` and every stream whose first
`avail` bytes all have the top bit set, `read_vlv` reads exactly these bytes
and returns `avail`, a non-negative byte count, with the value accumulated
from their low seven bits (modulo `2^32`); for `avail = 0` it returns 0 and the
value 0 without reading.  Running out of budget is not reported by `read_vlv`. -/
theorem C13_vlq_budget_exhaustion_returns_count (bs rest : List Nat)
    (hall : ∀ b ∈ bs, 128 ≤ b % 256) :
    read_vlv ⟨bs ++ rest⟩ bs.length
      = ⟨bs.length, bs.foldl (fun v b => (v * 128 + b % 128) % 2 ^ 32) 0, ⟨rest⟩⟩ ∧
    ¬ (read_vlv ⟨bs ++ rest⟩ bs.length).ret < 0 := by
  have h := read_vlv_loop_all_cont bs rest 0 0 0x80 (by norm_num) hall
  have h1 : read_vlv ⟨bs ++ rest⟩ bs.length
      = ⟨bs.length, bs.foldl (fun v b => (v * 128 + b % 128) % 2 ^ 32) 0, ⟨rest⟩⟩ := by
    rw [read_vlv, h]; simp
  refine ⟨h1, ?_⟩
  rw [h1]
  simp

theorem C13_vlq_budget_exhaustion_returns_count_witness :
    (∀ b ∈ [0xFF, 0x80, 0x81], 128 ≤ b % 256) ∧
    read_vlv ⟨[0xFF, 0x80, 0x81] ++ [0x00]⟩ [0xFF, 0x80, 0x81].length
      = ⟨[0xFF, 0x80, 0x81].length,
          [0xFF, 0x80, 0x81].foldl (fun v b => (v * 128 + b % 128) % 2 ^ 32) 0, ⟨[0x00]⟩⟩ ∧
    ¬ (read_vlv ⟨[0xFF, 0x80, 0x81] ++ [0x00]⟩ [0xFF, 0x80, 0x81].length).ret < 0 :=
  ⟨by decide, C13_vlq_budget_exhaustion_returns_count [0xFF, 0x80, 0x81] [0x00] (by decide)⟩

/-- C14 (evaluation at the failing input). A pass over a system common byte
behind a standard delta time reads nothing behind the type byte, but charges
the budget the delta length twice; so the chunk of declared length 2 with body
`[0x00, 0xF1]`, whose events are 2 bytes long, is charged 3 and `read_track`
returns -1. -/
theorem C14_system_common_charged_twice :
    (∀ (ctx : tinysmf_parser_ctx) (d t : Nat) (rest : List Nat) (avail : Int) (sb : Nat)
      (trace : List Dispatch), d < 2 ^ 32 → 0xF1 ≤ t → t ≤ 0xF6 →
      ((vlq_encode d).length : Int) ≤ avail → avail < 2 ^ 64 →
      read_track_iter ctx ⟨⟨vlq_encode d ++ t :: rest⟩, avail, sb, trace⟩
        = .next ⟨⟨rest⟩, avail - (vlq_encode d).length - 1 - (vlq_encode d).length, 0,
            trace⟩) ∧
    read_track ctx_all ⟨[0x00, 0xF1]⟩ 2 [] = some ⟨-1, ⟨[]⟩, []⟩ := by
  refine ⟨?_, by decide⟩
  intro ctx d t rest avail sb trace hd ht1 ht2 h0 h1
  exact read_track_iter_syscommon ctx d t rest avail sb trace hd ht1 ht2 h0 h1

theorem C14_system_common_charged_twice_witness :
    read_track_iter ctx_all ⟨⟨vlq_encode 0 ++ 0xF1 :: []⟩, 2, 0, []⟩
      = .next ⟨⟨[]⟩, 2 - (vlq_encode 0).length - 1 - (vlq_encode 0).length, 0, []⟩ :=
  C14_system_common_charged_twice.1 ctx_all 0 0xF1 [] 2 0 [] (by decide) (by decide) (by decide)
    (by decide) (by decide)

/-- C15 (as stated, refuted). A note-on, then a system exclusive event, then a
running-status continuation: the continuation is not dispatched; `read_track`
returns -1 after the note-on alone. -/
theorem C15_sysex_keeps_running_status_counterexample :
    read_track ctx_all
        ⟨[0x00, 0x90, 0x40, 0x7F, 0x00, 0xF0, 0x01, 0x00, 0x00, 0x40, 0x00]⟩ 11 []
      = some ⟨-1, ⟨[0x00]⟩, [.midi_event ⟨0, [0x90, 0x40, 0x7F, 0]⟩]⟩ ∧
    read_track ctx_all ⟨[0x00, 0x90, 0x40, 0x7F, 0x00, 0x40, 0x00]⟩ 7 []
      = some ⟨0, ⟨[]⟩, [.midi_event ⟨0, [0x90, 0x40, 0x7F, 0]⟩,
          .midi_event ⟨0, [0x80, 0x40, 0x00, 0]⟩]⟩ := by
  constructor <;> decide

/-- C15 (amended). A system exclusive event clears the running-status
register, as a system common byte does: (1) after the `switch` on a type byte
`0xF0` or `0xF7` the register is 0 whatever it held, and nothing was
dispatched; (2) a pass over a whole sysex event behind a standard delta time,
with a payload of `len > 0` bytes, leaves the stream behind the payload with
the register cleared; (3) so a running-status continuation that follows it
makes `read_track` return -1 with no dispatch. -/
theorem C15_sysex_clears_running_status :
    (∀ (ctx : tinysmf_parser_ctx) (f : FILE) (avail res : Int) (delta sb : Nat)
      (trace : List Dispatch) (t : Nat) (s1 : track_state),
      t = 0xF0 ∨ t = 0xF7 →
      read_track_switch ctx f avail res delta sb trace t = .next s1 →
      s1.status_buf = 0 ∧ s1.trace = trace) ∧
    (∀ (ctx : tinysmf_parser_ctx) (d t len : Nat) (payload rest : List Nat) (avail : Int)
      (sb : Nat) (trace : List Dispatch),
      d < 2 ^ 32 → t = 0xF0 ∨ t = 0xF7 → len < 2 ^ 32 → 0 < len → payload.length = len →
      ((vlq_encode d).length : Int) + 1 + (vlq_encode len).length ≤ avail → avail < 2 ^ 63 →
      read_track_iter ctx
          ⟨⟨vlq_encode d ++ t :: (vlq_encode len ++ (payload ++ rest))⟩, avail, sb, trace⟩
        = .next ⟨⟨rest⟩, avail - (vlq_encode d).length - 1 - ((vlq_encode len).length + len),
            0, trace⟩) ∧
    (∀ (ctx : tinysmf_parser_ctx) (fuel : Nat) (s : track_state) (t : Nat) (f1 : FILE),
      s.status_buf = 0 → 0 < s.avail → 0 ≤ (read_vlv s.f (to_size_t s.avail)).ret →
      fread_u8 (read_vlv s.f (to_size_t s.avail)).f = (some t, f1) → t < 0x80 →
      read_track_loop ctx (fuel + 1) s = some ⟨-1, f1, s.trace⟩) := by
  refine ⟨?_, ?_, ?_⟩
  · intro ctx f avail res delta sb trace t s1 ht h
    have hc : t = 0xF0 ∨ t = 0xF7 := ht
    unfold read_track_switch at h
    rw [if_pos hc] at h
    dsimp only at h
    have hout := (read_sysex_event_spec f (to_size_t avail)).2
    split at h
    · cases h
    · cases h
      exact ⟨rfl, by dsimp only; rw [hout]; simp⟩
  · intro ctx d t len payload rest avail sb trace hd ht hlen hpos hp hav hav1
    have hn : (0 : Int) ≤ ((vlq_encode d).length : Int) := Int.natCast_nonneg _
    rw [read_track_iter_event ctx d t _ avail sb trace hd (by omega) (by omega)]
    have htm : t % 256 = t := by rcases ht with rfl | rfl <;> rfl
    obtain ⟨A, hA, hA2⟩ : ∃ A : Nat, avail - (vlq_encode d).length - 1 = (A : Int) ∧
        (vlq_encode len).length ≤ A :=
      ⟨(avail - (vlq_encode d).length - 1).toNat, by omega, by omega⟩
    have hs : to_size_t (A : Int) = A := by
      rw [to_size_t_of_nonneg _ (by omega) (by omega)]; simp
    have hse := read_sysex_event_payload len A payload rest hlen hpos hp hA2
    rw [htm, hA]
    simp only [read_track_switch, if_pos ht, hs, hse]
    simp
    omega
  · intro ctx fuel s t f1 hsb hav hret hfr ht
    exact read_track_loop_no_status ctx fuel s t f1 hsb hav hret hfr ht

theorem C15_sysex_clears_running_status_witness :
    read_track_iter ctx_all
        ⟨⟨vlq_encode 0 ++ 0xF0 :: (vlq_encode 1 ++ ([0x00] ++ [0x00, 0x40, 0x00]))⟩, 7, 0x90,
          [.midi_event ⟨0, [0x90, 0x40, 0x7F, 0]⟩]⟩
      = .next ⟨⟨[0x00, 0x40, 0x00]⟩, 7 - (vlq_encode 0).length - 1 - ((vlq_encode 1).length + 1),
          0, [.midi_event ⟨0, [0x90, 0x40, 0x7F, 0]⟩]⟩ :=
  C15_sysex_clears_running_status.2.1 ctx_all 0 0xF0 1 [0x00] [0x00, 0x40, 0x00] 7 0x90
    [.midi_event ⟨0, [0x90, 0x40, 0x7F, 0]⟩] (by decide) (Or.inl rfl) (by decide) (by decide) rfl
    (by decide) (by decide)

/-- C16 (with the evaluation at the failing input). For a declared length
`len > 0` whose length VLQ fits the budget and whose payload is present,
`read_sysex_event` returns the length of the VLQ plus `len`, leaves the stream
behind the payload and dispatches nothing.  For the declared length 0 it
returns -1 instead of the length of the VLQ. -/
theorem C16_sysex_framing_fails_on_empty :
    (∀ (len avail : Nat) (payload rest : List Nat), len < 2 ^ 32 → 0 < len →
      payload.length = len → (vlq_encode len).length ≤ avail →
      read_sysex_event ⟨vlq_encode len ++ (payload ++ rest)⟩ avail
        = ⟨((vlq_encode len).length : Nat) + (len : Nat), ⟨rest⟩, []⟩) ∧
    (∀ (avail : Nat) (rest : List Nat), 1 ≤ avail →
      read_sysex_event ⟨vlq_encode 0 ++ rest⟩ avail = ⟨-1, ⟨rest⟩, []⟩) ∧
    read_track ctx_all ⟨[0x00, 0xF0, 0x00]⟩ 3 [] = some ⟨-1, ⟨[]⟩, []⟩ := by
  refine ⟨?_, ?_, by decide⟩
  · intro len avail payload rest hlen hpos hp hav
    exact read_sysex_event_payload len avail payload rest hlen hpos hp hav
  · intro avail rest hav
    rw [vlq_encode_zero]
    exact read_sysex_event_empty avail rest hav

theorem C16_sysex_framing_fails_on_empty_witness :
    read_sysex_event ⟨vlq_encode 2 ++ ([0x7E, 0xF7] ++ [0x00])⟩ 3
        = ⟨((vlq_encode 2).length : Nat) + (2 : Nat), ⟨[0x00]⟩, []⟩ ∧
    read_sysex_event ⟨vlq_encode 0 ++ [0x00]⟩ 3 = ⟨-1, ⟨[0x00]⟩, []⟩ :=
  ⟨C16_sysex_framing_fails_on_empty.1 2 3 [0x7E, 0xF7] [0x00] (by decide) (by decide) rfl
      (by decide),
    C16_sysex_framing_fails_on_empty.2.1 3 [0x00] (by decide)⟩

/-- C17 (as stated, refuted). An explicit note-on `0x90` with data bytes `0x40`
and `0x00` is dispatched as `(0x80, 0x40, 0x00)`, not as `(s, d1, d2)`. -/
theorem C17_dispatch_status_counterexample :
    read_midi_event ctx_all ⟨[0x40, 0x00]⟩ 2 0 0 0x90
      = ⟨2, ⟨[]⟩, 0x90, [.midi_event ⟨0, [0x80, 0x40, 0x00, 0]⟩]⟩ ∧
    (.midi_event ⟨0, [0x90, 0x40, 0x00, 0]⟩ : Dispatch)
      ∉ (read_midi_event ctx_all ⟨[0x40, 0x00]⟩ 2 0 0 0x90).out := by
  decide

/-- C17 (amended). For every status byte `s` in `0x80..0xEF` the number of data
bytes is 2 when the high nibble is `0x8, 0x9, 0xA, 0xB, 0xE` and 1 when it is
`0xC, 0xD`.  With an explicit status byte the decoder reads that many bytes
behind `s`, dispatches `(s, d1, d2)` or `(s, d1)` in stream order, except that
a note-on whose second data byte is 0 is dispatched with its high nibble
rewritten to `0x8`, charges that many bytes and stores `s` (not rewritten) in
the register.  With a running-status continuation (type byte `t < 0x80`,
register `s`) it reads and charges one byte fewer, `t` being the first data
byte, and leaves the register alone. -/
theorem C17_channel_message_arity (ctx : tinysmf_parser_ctx) (s d1 d2 t sb avail delta : Nat)
    (rest : List Nat) (hcb : ctx.midi_event_cb = true) (hs1 : 0x80 ≤ s) (hs2 : s ≤ 0xEF)
    (hd1 : d1 < 256) (hd2 : d2 < 256) (ht : t < 0x80) :
    (s / 16 = 0x8 ∨ s / 16 = 0x9 ∨ s / 16 = 0xA ∨ s / 16 = 0xB ∨ s / 16 = 0xE →
      midi_msg_size s = 2 ∧
      (2 ≤ avail →
        read_midi_event ctx ⟨d1 :: d2 :: rest⟩ avail delta sb s
          = ⟨2, ⟨rest⟩, s, [.midi_event
              ⟨delta, [if s &&& 0xF0 = 0x90 ∧ d2 = 0 then s &&& 0xEF else s, d1, d2, 0]⟩]⟩) ∧
      (1 ≤ avail →
        read_midi_event ctx ⟨d2 :: rest⟩ avail delta s t
          = ⟨1, ⟨rest⟩, s, [.midi_event
              ⟨delta, [if s &&& 0xF0 = 0x90 ∧ d2 = 0 then s &&& 0xEF else s, t, d2, 0]⟩]⟩)) ∧
    (s / 16 = 0xC ∨ s / 16 = 0xD →
      midi_msg_size s = 1 ∧
      (1 ≤ avail →
        read_midi_event ctx ⟨d1 :: rest⟩ avail delta sb s
          = ⟨1, ⟨rest⟩, s, [.midi_event ⟨delta, [s, d1, 0, 0]⟩]⟩) ∧
      read_midi_event ctx ⟨rest⟩ avail delta s t
        = ⟨0, ⟨rest⟩, s, [.midi_event ⟨delta, [s, t, 0, 0]⟩]⟩) := by
  have hs : s < 256 := by omega
  have hbit := status_high_bit s hs hs1
  have htb := (data_byte_routing t ht).1
  have hm1 : d1 % 256 = d1 := Nat.mod_eq_of_lt hd1
  have hm2 : d2 % 256 = d2 := Nat.mod_eq_of_lt hd2
  refine ⟨?_, ?_⟩
  · intro hn
    have hsz := midi_msg_size_two s hs hs1 hs2 hn
    refine ⟨hsz, ?_, ?_⟩
    · intro hav
      unfold read_midi_event
      rw [if_pos hbit, hsz]
      exact read_midi_event_data_two ctx hcb s d1 d2 s avail delta 2 _ ⟨rest⟩ [s] [d1, d2] hav
        (by simp [fread, hm1, hm2]) rfl
    · intro hav
      unfold read_midi_event
      rw [if_neg (by simpa using htb)]
      dsimp only
      rw [hsz, if_neg (by norm_num)]
      exact read_midi_event_data_two ctx hcb s t d2 s avail delta 1 _ ⟨rest⟩ [s, t] [d2] hav
        (by simp [fread, hm2]) rfl
  · intro hn
    have hsz := midi_msg_size_one s hs hs1 hs2 hn
    have hno := midi_msg_size_one_not_note_on s hs hsz
    have hif : (if s &&& 0xF0 = 0x90 ∧ (0 : Nat) = 0 then s &&& 0xEF else s) = s := by
      rw [if_neg (by simp [hno])]
    refine ⟨hsz, ?_, ?_⟩
    · intro hav
      unfold read_midi_event
      rw [if_pos hbit, hsz]
      have h := read_midi_event_data_two ctx hcb s d1 0 s avail delta 1 ⟨d1 :: rest⟩ ⟨rest⟩ [s]
        [d1] hav (by simp [fread, hm1]) rfl
      rw [hif] at h
      exact h
    · unfold read_midi_event
      rw [if_neg (by simpa using htb)]
      dsimp only
      rw [hsz, if_neg (by norm_num)]
      have h := read_midi_event_data_two ctx hcb s t 0 s avail delta 0 ⟨rest⟩ ⟨rest⟩ [s, t]
        [] (Nat.zero_le _) (by simp) rfl
      rw [hif] at h
      exact h

theorem C17_channel_message_arity_witness :
    ctx_all.midi_event_cb = true ∧ (0x80 : Nat) ≤ 0x90 ∧ (0x90 : Nat) ≤ 0xEF ∧
    (0x40 : Nat) < 256 ∧ (0x00 : Nat) < 256 ∧ (0x41 : Nat) < 0x80 ∧
    midi_msg_size 0x90 = 2 ∧
    read_midi_event ctx_all ⟨0x40 :: 0x00 :: [0x00]⟩ 2 5 0 0x90
      = ⟨2, ⟨[0x00]⟩, 0x90, [.midi_event
          ⟨5, [if 0x90 &&& 0xF0 = 0x90 ∧ 0x00 = 0 then 0x90 &&& 0xEF else 0x90, 0x40, 0x00, 0]⟩]⟩ :=
  ⟨rfl, by decide, by decide, by decide, by decide, by decide,
    ((C17_channel_message_arity ctx_all 0x90 0x40 0x00 0x41 0 2 5 [0x00] rfl (by decide)
      (by decide) (by decide) (by decide) (by decide)).1 (by decide)).1,
    ((C17_channel_message_arity ctx_all 0x90 0x40 0x00 0x41 0 2 5 [0x00] rfl (by decide)
      (by decide) (by decide) (by decide) (by decide)).1 (by decide)).2.1 (by decide)⟩

/-- C18 (as stated, refuted). A track chunk of declared length 2 with body
`[0x00, 0xF8]`: decoding succeeds and the byte `0xF8` is dispatched as a MIDI
event. -/
theorem C18_realtime_status_counterexample :
    read_track ctx_all ⟨[0x00, 0xF8]⟩ 2 []
      = some ⟨0, ⟨[]⟩, [.midi_event ⟨0, [0xF8, 0, 0, 0]⟩]⟩ := by
  decide

/-- C18 (amended). A type byte in `0xF8..0xFE` is no error: it takes the MIDI
branch with no data bytes, is dispatched as a MIDI event whose status is that
byte, charges the budget nothing beyond the delta and type bytes, and is
stored in the running-status register; decoding goes on.  Every dispatched
MIDI event has a status byte in `0x80..0xEF` or `0xF8..0xFE`. -/
theorem C18_realtime_status_dispatched :
    (∀ (ctx : tinysmf_parser_ctx) (d t : Nat) (rest : List Nat) (avail : Int) (sb : Nat)
      (trace : List Dispatch), ctx.midi_event_cb = true → d < 2 ^ 32 → 0xF8 ≤ t → t ≤ 0xFE →
      ((vlq_encode d).length : Int) ≤ avail → avail < 2 ^ 64 →
      read_track_iter ctx ⟨⟨vlq_encode d ++ t :: rest⟩, avail, sb, trace⟩
        = .next ⟨⟨rest⟩, avail - (vlq_encode d).length - 1, t,
            trace ++ [.midi_event ⟨d, [t, 0, 0, 0]⟩]⟩) ∧
    (∀ (ctx : tinysmf_parser_ctx) (f : FILE),
      ∃ r, tinysmf_parse_stream ctx f = some r ∧
        ∀ ev, Dispatch.midi_event ev ∈ r.trace →
          (0x80 ≤ ev.bytes.getD 0 0 ∧ ev.bytes.getD 0 0 ≤ 0xEF) ∨
            (0xF8 ≤ ev.bytes.getD 0 0 ∧ ev.bytes.getD 0 0 ≤ 0xFE)) := by
  refine ⟨?_, ?_⟩
  · intro ctx d t rest avail sb trace hcb hd ht1 ht2 h0 h1
    exact read_track_iter_realtime ctx d t rest avail sb trace hcb hd ht1 ht2 h0 h1
  · intro ctx f
    obtain ⟨r, hr⟩ := parse_total ctx f
    refine ⟨r, hr, ?_⟩
    intro ev hev
    exact parse_status_ok ctx f r hr _ hev

theorem C18_realtime_status_dispatched_witness :
    read_track_iter ctx_all ⟨⟨vlq_encode 0 ++ 0xF8 :: [0x00, 0x40]⟩, 4, 0x90, []⟩
      = .next ⟨⟨[0x00, 0x40]⟩, 4 - (vlq_encode 0).length - 1, 0xF8,
          [] ++ [.midi_event ⟨0, [0xF8, 0, 0, 0]⟩]⟩ :=
  C18_realtime_status_dispatched.1 ctx_all 0 0xF8 [0x00, 0x40] 4 0x90 [] rfl (by decide)
    (by decide) (by decide) (by decide) (by decide)

/-- C19. Absent meta callback is pure stream advancement.  Let the stream hold,
behind every chunk header that the parser reads, at least the bytes that the
header declares, and let the other four callbacks be any (the answer of the
track-start callback not depending on the meta events dispatched before it).
Then `tinysmf_parse_stream` returns in both runs, without and with a
meta-event callback; the return values are the same, `ctx->file_info` is the
same, and the dispatches of the run without the callback are exactly the
file-info, track-start, track-end and MIDI-event dispatches of the run with
it, in the same order and with the same arguments. -/
theorem C19_absent_meta_callback (ctx : tinysmf_parser_ctx) (f : FILE)
    (hcb : ∀ cb, ctx.track_start_cb = some cb → ∀ tr i, cb tr i = cb (strip_meta tr) i)
    (hfull : ∀ c ∈ tinysmf_parse_stream_chunks { ctx with meta_event_cb := true } f,
      c.1 ≤ c.2) :
    ∃ r0 r1, tinysmf_parse_stream { ctx with meta_event_cb := false } f = some r0 ∧
      tinysmf_parse_stream { ctx with meta_event_cb := true } f = some r1 ∧
      r0.ret = r1.ret ∧ r0.file_info = r1.file_info ∧ r0.trace = strip_meta r1.trace := by
  obtain ⟨r0, e0⟩ := parse_total { ctx with meta_event_cb := false } f
  obtain ⟨r1, e1⟩ := parse_total { ctx with meta_event_cb := true } f
  refine ⟨r0, r1, e0, e1, ?_⟩
  unfold tinysmf_parse_stream at e0 e1
  unfold tinysmf_parse_stream_chunks at hfull
  rcases heq : fread f 14 with ⟨_ | h, f1⟩
  · rw [heq] at e0 e1
    cases e0
    cases e1
    exact ⟨rfl, rfl, rfl⟩
  · rw [heq] at e0 e1 hfull
    dsimp only at e0 e1 hfull
    by_cases hty : h.take 4 ≠ MThd
    · rw [if_pos hty] at e0 e1
      cases e0
      cases e1
      exact ⟨rfl, rfl, rfl⟩
    · rw [if_neg hty] at e0 e1 hfull
      exact chunk_loop_sim { ctx with meta_event_cb := false } { ctx with meta_event_cb := true }
        rfl rfl rfl rfl rfl hcb _ _ _ _ _ _ _ (cook_file_info_strip _ _).symm hfull r0 r1 e0 e1

theorem C19_absent_meta_callback_witness :
    (∀ cb, ctx_all.track_start_cb = some cb → ∀ tr i, cb tr i = cb (strip_meta tr) i) ∧
    (∀ c ∈ tinysmf_parse_stream_chunks { ctx_all with meta_event_cb := true }
        ⟨[0x4D, 0x54, 0x68, 0x64, 0, 0, 0, 6, 0, 0, 0, 1, 0, 0x60,
          0x4D, 0x54, 0x72, 0x6B, 0, 0, 0, 15,
          0x00, 0xFF, 0x51, 0x03, 0x07, 0xA1, 0x20, 0x00, 0x90, 0x40, 0x7F,
          0x00, 0xFF, 0x2F, 0x00]⟩, c.1 ≤ c.2) ∧
    ∃ r0 r1, tinysmf_parse_stream { ctx_all with meta_event_cb := false }
        ⟨[0x4D, 0x54, 0x68, 0x64, 0, 0, 0, 6, 0, 0, 0, 1, 0, 0x60,
          0x4D, 0x54, 0x72, 0x6B, 0, 0, 0, 15,
          0x00, 0xFF, 0x51, 0x03, 0x07, 0xA1, 0x20, 0x00, 0x90, 0x40, 0x7F,
          0x00, 0xFF, 0x2F, 0x00]⟩ = some r0 ∧
      tinysmf_parse_stream { ctx_all with meta_event_cb := true }
        ⟨[0x4D, 0x54, 0x68, 0x64, 0, 0, 0, 6, 0, 0, 0, 1, 0, 0x60,
          0x4D, 0x54, 0x72, 0x6B, 0, 0, 0, 15,
          0x00, 0xFF, 0x51, 0x03, 0x07, 0xA1, 0x20, 0x00, 0x90, 0x40, 0x7F,
          0x00, 0xFF, 0x2F, 0x00]⟩ = some r1 ∧
      r0.ret = r1.ret ∧ r0.file_info = r1.file_info ∧ r0.trace = strip_meta r1.trace :=
  ⟨fun cb h tr i => by cases h; rfl, by decide,
    C19_absent_meta_callback ctx_all _ (fun cb h tr i => by cases h; rfl) (by decide)⟩

/-- C20. Chunk alignment on success: `read_track`, started on a track chunk of
declared length `len`, returns; and when no pass through its loop meets a type
byte in 0xF1..0xF6 and it returns 0, it has advanced the stream by exactly
`len` bytes, so that what is left of the stream starts at the byte right
behind the declared end of the chunk (in every pass the bytes charged to the
budget are the bytes read or skipped, and the budget ends at 0). -/
theorem C20_chunk_alignment (ctx : tinysmf_parser_ctx) (f : FILE) (len : Nat)
    (trace : List Dispatch)
    (hty : ∀ t ∈ read_track_type_bytes ctx len ⟨f, len, 0, trace⟩,
      ¬ (0xF1 ≤ t ∧ t ≤ 0xF6)) :
    ∃ r, read_track ctx f len trace = some r ∧
      (r.ret = 0 → r.f.rest = f.rest.drop len) := by
  obtain ⟨r, hr, _⟩ := read_track_spec ctx f len trace
  refine ⟨r, hr, fun hret => ?_⟩
  have h := hr
  unfold read_track at h
  rw [Int.toNat_ofNat] at h
  have := read_track_loop_aligned ctx len ⟨f, len, 0, trace⟩ r h hret (by simp) hty
  simpa using this

theorem C20_chunk_alignment_witness :
    (∀ t ∈ read_track_type_bytes ctx_all 8
        ⟨⟨[0x00, 0x90, 0x40, 0x7F, 0x00, 0xFF, 0x2F, 0x00, 0x4D, 0x54]⟩, 8, 0, []⟩,
      ¬ (0xF1 ≤ t ∧ t ≤ 0xF6)) ∧
    (∃ r, read_track ctx_all
        ⟨[0x00, 0x90, 0x40, 0x7F, 0x00, 0xFF, 0x2F, 0x00, 0x4D, 0x54]⟩ (8 : Nat) [] = some r ∧
      (r.ret = 0 → r.f.rest
        = [0x00, 0x90, 0x40, 0x7F, 0x00, 0xFF, 0x2F, 0x00, 0x4D, 0x54].drop 8)) ∧
    (read_track ctx_all
        ⟨[0x00, 0x90, 0x40, 0x7F, 0x00, 0xFF, 0x2F, 0x00, 0x4D, 0x54]⟩ 8 []).map
      (fun r => (r.ret, r.f.rest)) = some (0, [0x4D, 0x54]) :=
  ⟨by decide,
    C20_chunk_alignment ctx_all
      ⟨[0x00, 0x90, 0x40, 0x7F, 0x00, 0xFF, 0x2F, 0x00, 0x4D, 0x54]⟩ 8 [] (by decide),
    by decide⟩

end TinySMF
